import Mathlib

/-!
Verification of the namada sparse-merkle-tree core.

This file shallowly embeds the data model and the algorithms of the
repository (`internal_key.rs`, `key.rs`, `padded_key.rs`, `merge.rs`,
`tree.rs`, `proof_ics23.rs`) into Lean and settles the specification
claims against that embedding.

Conventions used throughout:
* machine bytes are `Nat`s carrying a `< 256` bound (mirroring `u8`);
* fixed-size arrays `[u8; N]` are length-`N` lists of bounded bytes;
* the hashing capability (`H: Hasher`) is idealised as a free term
  algebra for the tree-level claims (the spec requires the hasher to be
  collision resistant; the free algebra is the collision-free model),
  and kept abstract as a byte-stream absorber for the claims about
  `merge` / `hash_leaf` themselves;
* the in-memory stores (`HashMap<H256, _>`) are modelled extensionally
  as functions `H256 → Option _`, with insert/remove as pointwise
  update — the extensional behaviour of the map API used by the code;
* the `while` loops of `tree.rs` are embedded as fuel-indexed recursive
  functions returning `Option`; `none` models "the loop has not
  finished within the given fuel".  The Rust loops genuinely diverge on
  some adversarial stores, so the fuel is part of the semantics;
  theorems about reachable states show the fuel passed by the wrappers
  is never exhausted there.
-/

namespace SMT

/-- `a..b` of Rust: the list `[a, a+1, …, b-1]` (empty when `b ≤ a`). -/
def rangeList (a b : Nat) : List Nat :=
  (List.range (b - a)).map (a + ·)

/-- The internal fixed-width key of `internal_key.rs`: an `[u8; N]`,
modelled as a length-`N` list of bytes `< 256`. -/
def InternalKey (N : Nat) : Type :=
  { l : List Nat // l.length = N ∧ ∀ b ∈ l, b < 256 }

namespace InternalKey

variable {N : Nat}

instance : DecidableEq (InternalKey N) :=
  Subtype.instDecidableEq

/-- `InternalKey::zero`. -/
def zero (N : Nat) : InternalKey N :=
  ⟨List.replicate N 0, by
    refine ⟨List.length_replicate _ _, ?_⟩
    intro b hb
    have := List.eq_of_mem_replicate hb
    omega⟩

/-- `InternalKey::max_index`. -/
def max_index (N : Nat) : Nat := N - 1

/-- Byte at index `j` (`self.0[j]`, with 0 as out-of-range default;
all uses are in range). -/
def byte (k : InternalKey N) (j : Nat) : Nat :=
  k.val.getD j 0

/-- `InternalKey::get_bit`: bit `i` lives in byte `(N-1) - i/8` at
in-byte position `i % 8`. -/
def get_bit (k : InternalKey N) (i : Nat) : Bool :=
  Nat.testBit (k.byte (max_index N - i / 8)) (i % 8)

theorem byte_lt (k : InternalKey N) (j : Nat) : k.byte j < 256 := by
  by_cases hj : j < k.val.length
  · rw [byte, List.getD_eq_getElem _ _ hj]
    exact k.property.2 _ (List.getElem_mem hj)
  · rw [byte, List.getD_eq_default _ _ (by omega)]
    omega

/-- `InternalKey::set_bit`. -/
def set_bit (k : InternalKey N) (i : Nat) : InternalKey N :=
  let byte_pos := max_index N - i / 8
  let bit_pos := i % 8
  ⟨k.val.set byte_pos (k.byte byte_pos ||| (1 <<< bit_pos)), by
    refine ⟨by simpa using k.property.1, ?_⟩
    intro b hb
    rcases List.mem_or_eq_of_mem_set hb with h | h
    · exact k.property.2 b h
    · subst h
      have h1 : k.byte byte_pos < 256 := k.byte_lt _
      have h2 : (1 <<< bit_pos) < 256 := by
        have : bit_pos < 8 := Nat.mod_lt _ (by omega)
        have : (2 : Nat) ^ bit_pos ≤ 2 ^ 7 :=
          Nat.pow_le_pow_right (by omega) (by omega)
        simpa [Nat.shiftLeft_eq] using by omega
      have : k.byte byte_pos ||| (1 <<< bit_pos) < 2 ^ 8 :=
        Nat.or_lt_two_pow (by simpa using h1) (by simpa using h2)
      simpa using this⟩

/-- `InternalKey::clear_bit` (`!((1 << bit_pos) as u8)` is
`255 ^^^ (1 <<< bit_pos)`). -/
def clear_bit (k : InternalKey N) (i : Nat) : InternalKey N :=
  let byte_pos := max_index N - i / 8
  let bit_pos := i % 8
  ⟨k.val.set byte_pos (k.byte byte_pos &&& (255 ^^^ (1 <<< bit_pos))), by
    refine ⟨by simpa using k.property.1, ?_⟩
    intro b hb
    rcases List.mem_or_eq_of_mem_set hb with h | h
    · exact k.property.2 b h
    · subst h
      have h1 : k.byte byte_pos < 256 := k.byte_lt _
      have : k.byte byte_pos &&& (255 ^^^ (1 <<< bit_pos)) ≤ k.byte byte_pos :=
        Nat.and_le_left
      omega⟩

/-- `for h in (0..max).rev() { if p h { return h } }; 0` -/
def findTop (p : Nat → Bool) : Nat → Nat
  | 0 => 0
  | h + 1 => if p h then h else findTop p h

/-- `InternalKey::fork_height`: the highest bit index where the two
keys differ, or 0 when they agree everywhere. -/
def fork_height (a b : InternalKey N) : Nat :=
  findTop (fun h => a.get_bit h != b.get_bit h) (8 * N)

/-- The byte-slice copy step of `copy_bits`:
`target.0[start_byte..end_byte].copy_from_slice(..)` on a zero target,
i.e. bytes in `[start_byte, end_byte)` (guarded as in the source) come
from `k`, the rest stay zero. -/
def copyTarget (k : InternalKey N) (start_byte end_byte : Nat) : InternalKey N :=
  ⟨(List.range N).map
     (fun j => if start_byte ≤ j ∧ j < end_byte ∧ start_byte < N then k.byte j else 0),
   by
     refine ⟨by simp, ?_⟩
     intro b hb
     rcases List.mem_map.mp hb with ⟨j, _, hj⟩
     by_cases h : start_byte ≤ j ∧ j < end_byte ∧ start_byte < N
     · rw [if_pos h] at hj
       have := k.byte_lt j
       omega
     · rw [if_neg h] at hj
       omega⟩

/-- `InternalKey::copy_bits`, specialised to a resolved
half-open range `[start, endB)` (the only shapes the code uses are
`i..` and `s..e`; `i..` is `copy_bits k i (8*N)`).  The
`end < start` panic of the source cannot trigger from the callers we
embed; the model returns the zero key there. -/
def copy_bits (k : InternalKey N) (start endB : Nat) : InternalKey N :=
  if start ≥ 8 * N then zero N
  else
    let endB := min endB (8 * N)
    if endB < start then zero N
    else
      let end_byte := N - start / 8 - (if start % 8 ≠ 0 then 1 else 0)
      let start_byte := N - endB / 8
      -- the two remaining-bit loops run after the byte copy
      let idxs := rangeList start (min ((N - end_byte) * 8) endB) ++
                  rangeList (max ((N - start_byte) * 8) start) endB
      idxs.foldl (fun t i => if k.get_bit i then t.set_bit i else t)
        (copyTarget k start_byte end_byte)

/-- `InternalKey::parent_path`: clear all bits at indices `≤ height`. -/
def parent_path (k : InternalKey N) (height : Nat) : InternalKey N :=
  copy_bits k (height + 1) (8 * N)

theorem get_bit_zero (i : Nat) : (zero N).get_bit i = false := by
  unfold get_bit byte zero
  by_cases h : max_index N - i / 8 < N
  · rw [List.getD_eq_getElem _ _ (by simpa using h)]
    simp
  · rw [List.getD_eq_default _ _ (by simpa using Nat.le_of_not_lt h)]
    simp

/-- Bytes of a `List.set`-updated key list. -/
theorem getD_set_byte (l : List Nat) (hl : l.length = N) (p x j : Nat) :
    (l.set p x).getD j 0 = if j = p ∧ j < N then x else l.getD j 0 := by
  by_cases hj : j < N
  · have hjs : j < (l.set p x).length := by simp [hl, hj]
    have hjl : j < l.length := by omega
    have h1 : (l.set p x).getD j 0 = (l.set p x)[j] :=
      List.getD_eq_getElem _ _ hjs
    have h2 : l.getD j 0 = l[j] :=
      List.getD_eq_getElem _ _ hjl
    rw [h1, h2, List.getElem_set]
    by_cases he : p = j
    · rw [if_pos he, if_pos ⟨he.symm, hj⟩]
    · rw [if_neg he, if_neg (by tauto)]
  · have h1 : (l.set p x).getD j 0 = 0 := List.getD_eq_default _ _ (by simp [hl]; omega)
    have h2 : l.getD j 0 = 0 := List.getD_eq_default _ _ (by omega)
    rw [h1, h2, if_neg (by tauto)]

theorem byte_set_bit (k : InternalKey N) (i j : Nat) :
    (k.set_bit i).byte j =
      if j = max_index N - i / 8 ∧ j < N then k.byte j ||| (1 <<< (i % 8)) else k.byte j := by
  show (k.val.set (max_index N - i / 8)
      (k.val.getD (max_index N - i / 8) 0 ||| (1 <<< (i % 8)))).getD j 0 = _
  rw [getD_set_byte _ k.property.1]
  by_cases hc : j = max_index N - i / 8 ∧ j < N
  · rw [if_pos hc, if_pos hc, hc.1]
    rfl
  · rw [if_neg hc, if_neg hc]
    rfl

theorem byte_clear_bit (k : InternalKey N) (i j : Nat) :
    (k.clear_bit i).byte j =
      if j = max_index N - i / 8 ∧ j < N then k.byte j &&& (255 ^^^ (1 <<< (i % 8)))
      else k.byte j := by
  show (k.val.set (max_index N - i / 8)
      (k.val.getD (max_index N - i / 8) 0 &&& (255 ^^^ (1 <<< (i % 8))))).getD j 0 = _
  rw [getD_set_byte _ k.property.1]
  by_cases hc : j = max_index N - i / 8 ∧ j < N
  · rw [if_pos hc, if_pos hc, hc.1]
    rfl
  · rw [if_neg hc, if_neg hc]
    rfl

/-- Bit/byte index decomposition: two bit indices below `8*N` hit the
same byte exactly when their `·/8` agree. -/
theorem byte_pos_inj {i j : Nat} (hi : i < 8 * N) (hj : j < 8 * N)
    (h : max_index N - i / 8 = max_index N - j / 8) : i / 8 = j / 8 := by
  unfold max_index at h
  omega

theorem get_bit_set_bit (k : InternalKey N) (i j : Nat) (hi : i < 8 * N) (hj : j < 8 * N) :
    (k.set_bit i).get_bit j = if j = i then true else k.get_bit j := by
  unfold get_bit
  rw [byte_set_bit]
  by_cases hb : max_index N - j / 8 = max_index N - i / 8 ∧ max_index N - j / 8 < N
  · rw [if_pos hb]
    have hdiv : j / 8 = i / 8 := byte_pos_inj hj hi hb.1
    rw [Nat.testBit_lor]
    by_cases hji : j = i
    · subst hji
      rw [if_pos rfl]
      have : Nat.testBit (1 <<< (j % 8)) (j % 8) = true := by
        rw [Nat.shiftLeft_eq, one_mul, Nat.testBit_two_pow_self]
      simp [this]
    · rw [if_neg hji]
      have hm : j % 8 ≠ i % 8 := by omega
      have : Nat.testBit (1 <<< (i % 8)) (j % 8) = false := by
        rw [Nat.shiftLeft_eq, one_mul, Nat.testBit_two_pow_of_ne (by omega)]
      simp [this]
  · rw [if_neg hb]
    have hji : j ≠ i := by
      intro h
      subst h
      exact hb ⟨rfl, by unfold max_index; omega⟩
    rw [if_neg hji]

theorem get_bit_clear_bit (k : InternalKey N) (i j : Nat) (hi : i < 8 * N) (hj : j < 8 * N) :
    (k.clear_bit i).get_bit j = if j = i then false else k.get_bit j := by
  unfold get_bit
  rw [byte_clear_bit]
  by_cases hb : max_index N - j / 8 = max_index N - i / 8 ∧ max_index N - j / 8 < N
  · rw [if_pos hb]
    have hdiv : j / 8 = i / 8 := byte_pos_inj hj hi hb.1
    rw [Nat.testBit_land, Nat.testBit_xor]
    have h255 : Nat.testBit 255 (j % 8) = true := by
      have : (255 : Nat) = 2 ^ 8 - 1 := by norm_num
      rw [this, Nat.testBit_two_pow_sub_one]
      simp [Nat.mod_lt j (show 0 < 8 by omega)]
    by_cases hji : j = i
    · subst hji
      rw [if_pos rfl]
      have : Nat.testBit (1 <<< (j % 8)) (j % 8) = true := by
        rw [Nat.shiftLeft_eq, one_mul, Nat.testBit_two_pow_self]
      simp [this, h255]
    · rw [if_neg hji]
      have hm : j % 8 ≠ i % 8 := by omega
      have : Nat.testBit (1 <<< (i % 8)) (j % 8) = false := by
        rw [Nat.shiftLeft_eq, one_mul, Nat.testBit_two_pow_of_ne (by omega)]
      simp [this, h255]
  · rw [if_neg hb]
    have hji : j ≠ i := by
      intro h
      subst h
      exact hb ⟨rfl, by unfold max_index; omega⟩
    rw [if_neg hji]

/-- Keys are determined by their bits: extensionality. -/
theorem ext_bits {a b : InternalKey N}
    (h : ∀ i, i < 8 * N → a.get_bit i = b.get_bit i) : a = b := by
  apply Subtype.ext
  apply List.ext_getElem (by rw [a.property.1, b.property.1])
  intro j hj1 hj2
  have hjN : j < N := by simpa [a.property.1] using hj1
  apply Nat.eq_of_testBit_eq
  intro p
  by_cases hp : p < 8
  · have hi : (N - 1 - j) * 8 + p < 8 * N := by omega
    have := h ((N - 1 - j) * 8 + p) hi
    unfold get_bit max_index at this
    have hdiv : ((N - 1 - j) * 8 + p) / 8 = N - 1 - j := by omega
    have hmod : ((N - 1 - j) * 8 + p) % 8 = p := by omega
    rw [hdiv, hmod] at this
    have hback : N - 1 - (N - 1 - j) = j := by omega
    rw [hback] at this
    have ha : a.byte j = a.val[j] := by
      rw [byte, List.getD_eq_getElem _ _ (by omega)]
    have hb' : b.byte j = b.val[j] := by
      rw [byte, List.getD_eq_getElem _ _ (by rw [b.property.1]; omega)]
    rw [ha, hb'] at this
    exact this
  · have ha : a.val[j] < 2 ^ p := by
      have h1 : a.val[j] < 256 := a.property.2 _ (List.getElem_mem _)
      have : (256 : Nat) ≤ 2 ^ p := by
        calc (256 : Nat) = 2 ^ 8 := by norm_num
        _ ≤ 2 ^ p := Nat.pow_le_pow_right (by omega) (by omega)
      omega
    have hbv : b.val[j] < 2 ^ p := by
      have h1 : b.val[j] < 256 := b.property.2 _ (List.getElem_mem _)
      have : (256 : Nat) ≤ 2 ^ p := by
        calc (256 : Nat) = 2 ^ 8 := by norm_num
        _ ≤ 2 ^ p := Nat.pow_le_pow_right (by omega) (by omega)
      omega
    rw [Nat.testBit_eq_false_of_lt ha, Nat.testBit_eq_false_of_lt hbv]

theorem findTop_lt {p : Nat → Bool} {n : Nat} (h : 0 < n) : findTop p n < n := by
  induction n with
  | zero => omega
  | succ m ih =>
      unfold findTop
      by_cases hp : p m
      · simp [hp]
      · simp only [hp, if_neg]
        rcases Nat.eq_zero_or_pos m with h0 | h0
        · subst h0
          simp [findTop]
        · exact Nat.lt_succ_of_lt (ih h0)

theorem findTop_le {p : Nat → Bool} (n : Nat) : findTop p n ≤ n := by
  rcases Nat.eq_zero_or_pos n with h | h
  · subst h
    simp [findTop]
  · exact Nat.le_of_lt (findTop_lt h)

/-- Everything strictly above the returned index (within range) fails `p`. -/
theorem findTop_above {p : Nat → Bool} {n i : Nat} (h1 : findTop p n < i) (h2 : i < n) :
    p i = false := by
  induction n with
  | zero => omega
  | succ m ih =>
      unfold findTop at h1
      by_cases hp : p m
      · rw [if_pos hp] at h1
        omega
      · rw [if_neg hp] at h1
        by_cases him : i = m
        · subst him
          exact Bool.eq_false_iff.mpr hp
        · exact ih h1 (by omega)

/-- If some index below `n` satisfies `p`, the returned index does. -/
theorem findTop_found {p : Nat → Bool} {n i : Nat} (h1 : i < n) (h2 : p i = true) :
    p (findTop p n) = true := by
  induction n with
  | zero => omega
  | succ m ih =>
      unfold findTop
      by_cases hp : p m
      · simpa [hp]
      · rw [if_neg hp]
        by_cases him : i = m
        · subst him
          exact absurd h2 (by simp [hp])
        · exact ih (by omega)

/-- Bits strictly above the fork height agree. -/
theorem agree_above_fork (a b : InternalKey N) {i : Nat}
    (h1 : fork_height a b < i) (h2 : i < 8 * N) : a.get_bit i = b.get_bit i := by
  have := findTop_above (p := fun h => a.get_bit h != b.get_bit h) h1 h2
  simpa using this

/-- Distinct keys genuinely differ at their fork height. -/
theorem get_bit_fork_ne {a b : InternalKey N} (h : a ≠ b) :
    a.get_bit (fork_height a b) ≠ b.get_bit (fork_height a b) := by
  have hex : ∃ i, i < 8 * N ∧ a.get_bit i ≠ b.get_bit i := by
    by_contra hno
    push_neg at hno
    exact h (ext_bits hno)
  rcases hex with ⟨i, hi, hne⟩
  have := findTop_found (p := fun h => a.get_bit h != b.get_bit h) hi (by simpa using hne)
  simpa using this

theorem fork_height_lt {a b : InternalKey N} (hN : 0 < N) : fork_height a b < 8 * N :=
  findTop_lt (by omega)

theorem fork_height_self (a : InternalKey N) : fork_height a a = 0 := by
  unfold fork_height
  induction (8 * N) with
  | zero => simp [findTop]
  | succ m ih => simpa [findTop] using ih

theorem fork_height_comm (a b : InternalKey N) : fork_height a b = fork_height b a := by
  unfold fork_height
  congr 1
  funext h
  simp [bne, Bool.beq_comm]

theorem mem_rangeList {a b i : Nat} : i ∈ rangeList a b ↔ a ≤ i ∧ i < b := by
  unfold rangeList
  constructor
  · intro h
    rcases List.mem_map.mp h with ⟨j, hj, rfl⟩
    have := List.mem_range.mp hj
    omega
  · intro h
    refine List.mem_map.mpr ⟨i - a, List.mem_range.mpr (by omega), by omega⟩

theorem get_bit_setLoop (k t : InternalKey N) (L : List Nat) (i : Nat)
    (hi : i < 8 * N) (hL : ∀ j ∈ L, j < 8 * N) :
    (L.foldl (fun t i => if k.get_bit i then t.set_bit i else t) t).get_bit i =
      ((decide (i ∈ L) && k.get_bit i) || t.get_bit i) := by
  induction L generalizing t with
  | nil => simp
  | cons x xs ih =>
      have hx : x < 8 * N := hL x (by simp)
      have hxs : ∀ j ∈ xs, j < 8 * N := fun j hj => hL j (by simp [hj])
      rw [List.foldl_cons, ih _ hxs]
      by_cases hk : k.get_bit x
      · rw [if_pos hk, get_bit_set_bit _ _ _ hx hi]
        by_cases hix : i = x
        · subst hix
          simp [hk]
        · simp only [if_neg hix, List.mem_cons]
          by_cases him : i ∈ xs <;> simp [him, hix]
      · rw [if_neg hk]
        by_cases hix : i = x
        · subst hix
          simp [hk]
        · by_cases him : i ∈ xs <;> simp [him, hix]

theorem getD_map_range (f : Nat → Nat) (j : Nat) :
    ((List.range N).map f).getD j 0 = if j < N then f j else 0 := by
  by_cases hj : j < N
  · rw [if_pos hj, List.getD_eq_getElem _ _ (by simpa using hj)]
    simp
  · rw [if_neg hj, List.getD_eq_default _ _ (by simpa using Nat.le_of_not_lt hj)]

/-- The central `copy_bits` characterisation: a pure bit projection.
Requires `endB ≤ 8*N` (the only calls are `s..s+size` with
`s+size ≤ 8*N`, and `i..` where the code clamps to `8*N`). -/
theorem get_bit_copyTarget (k : InternalKey N) (sb eb i : Nat) (hi : i < 8 * N) :
    (copyTarget k sb eb).get_bit i =
      if sb ≤ max_index N - i / 8 ∧ max_index N - i / 8 < eb ∧ sb < N then
        k.get_bit i else false := by
  have hN : 0 < N := by omega
  show Nat.testBit
      (((List.range N).map
        (fun j => if sb ≤ j ∧ j < eb ∧ sb < N then k.byte j else 0)).getD
          (max_index N - i / 8) 0) (i % 8) = _
  rw [getD_map_range]
  have hjN : max_index N - i / 8 < N := by
    unfold max_index
    omega
  rw [if_pos hjN]
  by_cases hc : sb ≤ max_index N - i / 8 ∧ max_index N - i / 8 < eb ∧ sb < N
  · rw [if_pos hc, if_pos hc]
    rfl
  · rw [if_neg hc, if_neg hc]
    simp

/-- Unfolding equation for `copy_bits` (pure `rfl` over the lets). -/
theorem copy_bits_eq (k : InternalKey N) (s e : Nat) :
    k.copy_bits s e =
      if s ≥ 8 * N then zero N
      else if min e (8 * N) < s then zero N
      else
        (rangeList s (min ((N - (N - s / 8 - (if s % 8 ≠ 0 then 1 else 0))) * 8)
            (min e (8 * N))) ++
         rangeList (max ((N - (N - min e (8 * N) / 8)) * 8) s) (min e (8 * N)))
          |>.foldl (fun t i => if k.get_bit i then t.set_bit i else t)
            (copyTarget k (N - min e (8 * N) / 8)
              (N - s / 8 - (if s % 8 ≠ 0 then 1 else 0))) := rfl

/-- The central `copy_bits` characterisation: a pure bit projection.
Requires `e ≤ 8*N` (the only calls are `s..s+size` with
`s+size ≤ 8*N`, and `i..` where the code clamps to `8*N`). -/
theorem get_bit_copy_bits (k : InternalKey N) (s e i : Nat)
    (he : e ≤ 8 * N) (hi : i < 8 * N) :
    (k.copy_bits s e).get_bit i = if s ≤ i ∧ i < e then k.get_bit i else false := by
  rw [copy_bits_eq]
  by_cases hs : s ≥ 8 * N
  · rw [if_pos hs, get_bit_zero, if_neg (by omega)]
  · rw [if_neg hs]
    have hmin : min e (8 * N) = e := by omega
    rw [hmin]
    by_cases hes : e < s
    · rw [if_pos hes, get_bit_zero, if_neg (by omega)]
    · rw [if_neg hes]
      have hN : 0 < N := by omega
      set r : Nat := if s % 8 ≠ 0 then 1 else 0 with hr
      have hr01 : r = 0 ∧ s % 8 = 0 ∨ r = 1 ∧ s % 8 ≠ 0 := by
        by_cases h8 : s % 8 = 0 <;> simp [hr, h8]
      set eb : Nat := N - s / 8 - r with heb
      set sb : Nat := N - e / 8 with hsb
      rw [get_bit_setLoop _ _ _ _ hi]
      · rw [get_bit_copyTarget _ _ _ _ hi]
        by_cases hk : k.get_bit i
        · simp only [hk, Bool.and_true, Bool.or_false, Bool.if_true_right]
          by_cases hgoal : s ≤ i ∧ i < e
          · rw [if_pos hgoal]
            have : (i ∈ rangeList s (min ((N - eb) * 8) e) ++
                rangeList (max ((N - sb) * 8) s) e) ∨
                (sb ≤ max_index N - i / 8 ∧ max_index N - i / 8 < eb ∧ sb < N) := by
              rw [List.mem_append, mem_rangeList, mem_rangeList]
              unfold max_index
              omega
            rcases this with h | h
            · simp [h]
            · simp [h]
          · rw [if_neg hgoal]
            have h1 : ¬ (i ∈ rangeList s (min ((N - eb) * 8) e) ++
                rangeList (max ((N - sb) * 8) s) e) := by
              rw [List.mem_append, mem_rangeList, mem_rangeList]
              omega
            have h2 : ¬ (sb ≤ max_index N - i / 8 ∧ max_index N - i / 8 < eb ∧ sb < N) := by
              unfold max_index
              omega
            simp [h1, h2]
        · simp only [Bool.not_eq_true] at hk
          simp [hk]
      · intro j hj
        rw [List.mem_append, mem_rangeList, mem_rangeList] at hj
        omega

/-- Characterisation: if `a` and `b` agree above `t` and differ at `t`,
then `t` is the fork height. -/
theorem fork_height_eq {a b : InternalKey N} {t : Nat} (ht : t < 8 * N)
    (hdiff : a.get_bit t ≠ b.get_bit t)
    (habove : ∀ i, t < i → i < 8 * N → a.get_bit i = b.get_bit i) :
    fork_height a b = t := by
  have hne : a ≠ b := by
    intro h
    subst h
    exact hdiff rfl
  have h1 : ¬ (fork_height a b < t) := by
    intro hlt
    exact hdiff (agree_above_fork a b hlt ht)
  have h2 : ¬ (t < fork_height a b) := by
    intro hlt
    exact get_bit_fork_ne hne (habove _ hlt (fork_height_lt (by omega)))
  omega

end InternalKey

/-- Modelled from the spec: §7 lists the error kinds of `error.rs`,
which is not under `src/`. -/
inductive Error where
  | StoreError
  | EmptyKeys
  | IncorrectNumberOfLeaves (expected actual : Nat)
  | CorruptedProof
  | ExistenceProof
  | NonExistenceProof
  | KeyTooLarge
deriving DecidableEq

/-- `PaddedKey<N>` of `padded_key.rs`: bytes right-padded with `0xFF`
to an `N`-byte internal key, remembering the unpadded length. -/
structure PaddedKey (N : Nat) where
  padded : InternalKey N
  length : Nat
deriving DecidableEq

namespace PaddedKey

variable {N : Nat}

/-- The padded key built from an in-range byte vector:
`[0xFF; N]` overwritten on the left by `v`. -/
def mkPadded (v : List Nat) (hv : ∀ b ∈ v, b < 256) (h : v.length ≤ N) :
    PaddedKey N :=
  { padded := ⟨v ++ List.replicate (N - v.length) 0xFF, by
      constructor
      · simp
        omega
      · intro b hb
        rcases List.mem_append.mp hb with h1 | h1
        · exact hv b h1
        · have := List.eq_of_mem_replicate h1
          omega⟩
    length := v.length }

/-- `TryFrom<Vec<u8>> for PaddedKey<N>` (`padded_key.rs`).  The input
byte vector carries the `u8` bound. -/
def tryFromBytes (v : List Nat) (hv : ∀ b ∈ v, b < 256) :
    Except Error (PaddedKey N) :=
  if h : v.length > N then Except.error Error.KeyTooLarge
  else Except.ok (mkPadded v hv (by omega))

/-- `Key::to_vec` for `PaddedKey` (`padded_key.rs`): the first
`length` bytes of the padded array. -/
def to_vec (k : PaddedKey N) : List Nat :=
  k.padded.val.take k.length

end PaddedKey

/-- The 32-byte digest type `H256` (`h256.rs`, not under `src/`).
Modelled from the spec: a 32-byte value with a distinguished zero;
structurally the same byte-array type as a 32-byte key. -/
def H256B : Type := InternalKey 32

/-- `H256::zero()`. -/
def H256B.zero : H256B := InternalKey.zero 32

instance : DecidableEq H256B := fun a b =>
  inferInstanceAs (Decidable (Subtype.mk a.val a.property = ⟨b.val, b.property⟩))

/-- The hashing capability of `traits.rs`: streamed byte absorption
with a final digest.  Kept fully abstract. -/
structure HasherImpl where
  State : Type
  default : State
  write_bytes : State → List Nat → State
  finish : State → H256B

/-- `merge` of `merge.rs`: zero short-circuits, otherwise absorb
`lhs` then `rhs` and finish. -/
def merge (H : HasherImpl) (lhs rhs : H256B) : H256B :=
  if lhs = H256B.zero then rhs
  else if rhs = H256B.zero then lhs
  else H.finish (H.write_bytes (H.write_bytes H.default lhs.val) rhs.val)

/-- `hash_leaf` of `merge.rs`: zero value short-circuits to the zero
digest, otherwise absorb a 32-byte zero prefix, the key's canonical
bytes, then the value's bytes. -/
def hash_leaf (H : HasherImpl) (keyBytes : List Nat) (value : H256B) : H256B :=
  if value = H256B.zero then H256B.zero
  else
    H.finish (H.write_bytes (H.write_bytes (H.write_bytes H.default H256B.zero.val)
      keyBytes) value.val)

/-- `TREE_HEIGHT` of `lib.rs`. -/
def TREE_HEIGHT : Nat := 256

/-- `ics23::LeafOp` (external protobuf message; enums as their wire
numbers, `NoHash = 0`, `NoPrefix = 0`; the `prefix` field is named
`prefix_data` here). -/
structure LeafOp where
  hash : Int
  prehash_key : Int
  prehash_value : Int
  length : Int
  prefix_data : List Nat
deriving DecidableEq

/-- `ics23::InnerSpec`. -/
structure InnerSpec where
  child_order : List Int
  child_size : Int
  min_prefix_length : Int
  max_prefix_length : Int
  empty_child : List Nat
  hash : Int
deriving DecidableEq

/-- `ics23::ProofSpec`. -/
structure ProofSpec where
  leaf_spec : Option LeafOp
  inner_spec : Option InnerSpec
  max_depth : Int
  min_depth : Int
  prehash_key_before_comparison : Bool
deriving DecidableEq

/-- `get_leaf_op` of `proof_ics23.rs`. -/
def get_leaf_op (hash_op : Int) : LeafOp :=
  { hash := hash_op
    prehash_key := 0
    prehash_value := 0
    length := 0
    prefix_data := H256B.zero.val }

/-- `get_inner_spec` of `proof_ics23.rs`. -/
def get_inner_spec (hash_op : Int) : InnerSpec :=
  { child_order := [0, 1]
    child_size := 32
    min_prefix_length := 0
    max_prefix_length := 32
    empty_child := []
    hash := hash_op }

/-- `get_spec` of `proof_ics23.rs`. -/
def get_spec (hash_op : Int) : ProofSpec :=
  { leaf_spec := some (get_leaf_op hash_op)
    inner_spec := some (get_inner_spec hash_op)
    max_depth := (TREE_HEIGHT : Int)
    min_depth := 0
    prehash_key_before_comparison := false }

/-! ### The tree (`tree.rs`) over the ideal hasher

The tree-level claims quantify over the behaviour of
`SparseMerkleTree<H, K, V, S, N>` for a collision-resistant hasher
(spec §4.2).  We instantiate the hasher capability with the ideal
(collision-free) model: digests form the free algebra generated by
`hash_leaf` and the two-argument merge combinator.  `merge` and
`hash_leaf` below are `merge.rs`'s functions with the hash calls
replaced by the free constructors; everything else is a line-by-line
translation of `tree.rs`. -/

/-- Digests (`H256` as used by `tree.rs`) under the ideal hasher. -/
inductive Digest (N : Nat) (Val : Type) where
  | zero
  | leafHash (key : InternalKey N) (value : Val)
  | nodeHash (l r : Digest N Val)
deriving DecidableEq

namespace Digest

/-- `H256::is_zero`. -/
def is_zero {N : Nat} {Val : Type} : Digest N Val → Bool
  | .zero => true
  | _ => false

theorem is_zero_iff {N : Nat} {Val : Type} (d : Digest N Val) :
    d.is_zero = true ↔ d = .zero := by
  cases d <;> simp [is_zero]

end Digest

variable {N : Nat} {Val : Type}

/-- `merge` (`merge.rs`) at the ideal hasher: the digest of
`lhs ‖ rhs` is the free node constructor. -/
def mergeF [DecidableEq Val] (lhs rhs : Digest N Val) : Digest N Val :=
  if lhs.is_zero then rhs
  else if rhs.is_zero then lhs
  else .nodeHash lhs rhs

/-- `hash_leaf` (`merge.rs`) at the ideal hasher: zero values hash to
zero, other leaves to the free leaf constructor. -/
def hash_leafF [DecidableEq Val] (zeroV : Val) (key : InternalKey N) (value : Val) :
    Digest N Val :=
  if value = zeroV then .zero else .leafHash key value

/-- `BranchNode` of `tree.rs`. -/
structure BranchNode (N : Nat) (Val : Type) where
  fork_height : Nat
  key : InternalKey N
  node : Digest N Val
  sibling : Digest N Val
deriving DecidableEq

/-- `LeafNode` of `tree.rs`. -/
structure LeafNode (N : Nat) (Val : Type) where
  key : InternalKey N
  value : Val
deriving DecidableEq

/-- `BranchNode::branch`: order the two children as `(left, right)`
using the witness key's bit at `height`. -/
def BranchNode.branch (b : BranchNode N Val) (height : Nat) :
    Digest N Val × Digest N Val :=
  if b.key.get_bit height then (b.sibling, b.node) else (b.node, b.sibling)

/-- The branch map of `DefaultStore`, modelled extensionally. -/
def BranchMap (N : Nat) (Val : Type) : Type :=
  Digest N Val → Option (BranchNode N Val)

/-- The leaf map of `DefaultStore`, modelled extensionally. -/
def LeafMap (N : Nat) (Val : Type) : Type :=
  Digest N Val → Option (LeafNode N Val)

/-- `HashMap::insert` (pointwise). -/
def mapInsert {α β : Type} [DecidableEq α] (m : α → Option β) (k : α) (v : β) :
    α → Option β :=
  fun x => if x = k then some v else m x

/-- `HashMap::remove` (pointwise). -/
def mapRemove {α β : Type} [DecidableEq α] (m : α → Option β) (k : α) :
    α → Option β :=
  fun x => if x = k then none else m x

/-- The empty map. -/
def mapEmpty {α β : Type} : α → Option β := fun _ => none

/-- `SparseMerkleTree` with its `DefaultStore` (root + the two maps). -/
structure SMTree (N : Nat) (Val : Type) where
  branches_map : BranchMap N Val
  leaves_map : LeafMap N Val
  root : Digest N Val

/-- `SparseMerkleTree::default()`: zero root, empty store. -/
def SMTree.default (N : Nat) (Val : Type) : SMTree N Val :=
  { branches_map := mapEmpty, leaves_map := mapEmpty, root := .zero }

/-- The `path` accumulator of `update`: a `BTreeMap<usize, H256>`,
modelled as a sorted association list (ascending, unique heights). -/
def PathMap (N : Nat) (Val : Type) : Type := List (Nat × Digest N Val)

/-- `BTreeMap::insert` (overwrite), keeping the list sorted. -/
def pathInsert : PathMap N Val → Nat → Digest N Val → PathMap N Val
  | [], h, d => [(h, d)]
  | (h', d') :: rest, h, d =>
      if h < h' then (h, d) :: (h', d') :: rest
      else if h = h' then (h, d) :: rest
      else (h', d') :: pathInsert rest h d

/-- The top-down walk of `SparseMerkleTree::update` (`tree.rs`
124–171), fuel-indexed.  Returns the updated branch map, the collected
`path`, and the final `node`. -/
def updWalk [DecidableEq Val] (key : InternalKey N) :
    Nat → BranchMap N Val → Digest N Val → Nat → PathMap N Val →
    Option (BranchMap N Val × PathMap N Val × Digest N Val)
  | 0, _, _, _, _ => none
  | fuel + 1, branches, node, height, path =>
    match branches node with
    | none => some (branches, path, node)
    | some branch_node =>
        let fork_height' := max (InternalKey.fork_height key branch_node.key)
          branch_node.fork_height
        if height > branch_node.fork_height then
          some (branches, pathInsert path fork_height' node, node)
        else
          let branches' := if branch_node.fork_height > 0 then mapRemove branches node
            else branches
          let lr := branch_node.branch height
          let is_right := key.get_bit height
          if is_right then
            if node = lr.2 then some (branches', path, node)
            else
              let node' := lr.2
              let path' := pathInsert path height lr.1
              let height' :=
                match branches' node' with
                | some bn => max (InternalKey.fork_height key bn.key) bn.fork_height
                | none => height
              updWalk key fuel branches' node' height' path'
          else
            if node = lr.1 then some (branches', path, node)
            else
              let node' := lr.1
              let path' := pathInsert path height lr.2
              let height' :=
                match branches' node' with
                | some bn => max (InternalKey.fork_height key bn.key) bn.fork_height
                | none => height
              updWalk key fuel branches' node' height' path'

/-- The bottom-up rebuild of `SparseMerkleTree::update` (`tree.rs`
198–222): pop the lowest entry of `path`, merge, store a branch when
the running node is non-zero. -/
def buildUp [DecidableEq Val] (key : InternalKey N) :
    PathMap N Val → Digest N Val → BranchMap N Val → Digest N Val × BranchMap N Val
  | [], node, branches => (node, branches)
  | (height, sibling) :: rest, node, branches =>
      let is_right := key.get_bit height
      let parent := if is_right then mergeF sibling node else mergeF node sibling
      let branches' :=
        if node.is_zero then branches
        else mapInsert branches parent
          { fork_height := height, sibling := sibling, node := node, key := key }
      buildUp key rest parent branches'

/-- The initial `height` of the update walk (`tree.rs` 128–133). -/
def initialHeight [DecidableEq Val] (B : BranchMap N Val) (key : InternalKey N)
    (node : Digest N Val) : Nat :=
  match B node with
  | some b => max (InternalKey.fork_height b.key key) b.fork_height
  | none => 0

/-- The previous-leaf deletion step of `update` (`tree.rs` 175–186). -/
def delStep [DecidableEq Val] (leaves : LeafMap N Val) (key : InternalKey N)
    (branches : BranchMap N Val) (node : Digest N Val) :
    BranchMap N Val × LeafMap N Val :=
  match leaves node with
  | some leaf =>
      if leaf.key = key then (mapRemove branches node, mapRemove leaves node)
      else (branches, leaves)
  | none => (branches, leaves)

/-- `SparseMerkleTree::update` (`tree.rs` 124–225).  `none` models a
non-terminating walk (possible only on adversarial stores); the walk
fuel `8*N + 2` is shown sufficient on reachable states. -/
def update [DecidableEq Val] (zeroV : Val) (t : SMTree N Val) (key : InternalKey N)
    (value : Val) : Option (SMTree N Val) :=
  let node := t.root
  let height := initialHeight t.branches_map key node
  match updWalk key (8 * N + 2) t.branches_map node height [] with
  | none => none
  | some (branches, path, node) =>
      -- delete previous leaf
      let del := delStep t.leaves_map key branches node
      let branches := del.1
      let leaves := del.2
      -- compute and store new leaf
      let node' := hash_leafF zeroV key value
      let leaves' := if node'.is_zero then leaves
        else mapInsert leaves node' { key := key, value := value }
      let branches' := if node'.is_zero then branches
        else mapInsert branches node'
          { key := key, fork_height := 0, node := node', sibling := .zero }
      -- recompute the tree from bottom to top
      let fin := buildUp key path node' branches'
      some { branches_map := fin.2, leaves_map := leaves', root := fin.1 }

/-- The descent loop of `SparseMerkleTree::get` (`tree.rs` 229–245),
fuel-indexed; returns the digest at which the descent stops. -/
def getLoop [DecidableEq Val] (key : InternalKey N) (branches : BranchMap N Val) :
    Nat → Digest N Val → Option (Digest N Val)
  | 0, _ => none
  | fuel + 1, node =>
    if node.is_zero then some node
    else
      match branches node with
      | none => some node
      | some branch_node =>
          let is_right := key.get_bit branch_node.fork_height
          let lr := branch_node.branch branch_node.fork_height
          let node' := if is_right then lr.2 else lr.1
          if branch_node.fork_height = 0 then some node'
          else getLoop key branches fuel node'

/-- `SparseMerkleTree::get` (`tree.rs` 229–256). -/
def get [DecidableEq Val] (zeroV : Val) (t : SMTree N Val) (key : InternalKey N) :
    Option Val :=
  (getLoop key t.branches_map (8 * N + 2) t.root).map fun node =>
    if node.is_zero then zeroV
    else
      match t.leaves_map node with
      | some leaf => if leaf.key = key then leaf.value else zeroV
      | none => zeroV

/-- Apply a sequence of `update` calls (each must succeed). -/
def applyOps [DecidableEq Val] (zeroV : Val) :
    SMTree N Val → List (InternalKey N × Val) → Option (SMTree N Val)
  | t, [] => some t
  | t, op :: rest =>
      match update zeroV t op.1 op.2 with
      | none => none
      | some t' => applyOps zeroV t' rest

/-- `usize::MAX` at the 64-bit width used by the crate. -/
def usizeMax : Nat := 2 ^ 64 - 1

/-- Modelled from the spec: BitKey order — keys compare as the
`8*N`-bit numbers they encode, i.e. the smaller key carries bit
`false` at the highest differing bit index (the fork height).  This
is the enumeration order of `Store::sorted_leaves`. -/
def keyLtB (a b : InternalKey N) : Bool :=
  a != b && !(a.get_bit (InternalKey.fork_height a b))

/-- The inner `loop` of `validate` (`tree.rs` 553–569): repeatedly
merge `leaves[left]` into `leaves[right]`, popping pending `prev`
indexes whose join height is below `leaves[right]`'s.  Recursion is
structural on `prev`. -/
def vLoopInner [DecidableEq Val] (right : Nat) :
    List Nat → List (Digest N Val × Nat) → Nat →
    List (Digest N Val × Nat) × List Nat × Digest N Val
  | [], leaves, left =>
      let dflt : Digest N Val × Nat := (.zero, 0)
      let merged := mergeF (leaves.getD left dflt).1 (leaves.getD right dflt).1
      (leaves.set right (merged, (leaves.getD right dflt).2), [], merged)
  | idx :: prevRest, leaves, left =>
      let dflt : Digest N Val × Nat := (.zero, 0)
      let merged := mergeF (leaves.getD left dflt).1 (leaves.getD right dflt).1
      let leaves' := leaves.set right (merged, (leaves.getD right dflt).2)
      if (leaves'.getD idx dflt).2 < (leaves'.getD right dflt).2 then
        vLoopInner right prevRest leaves' idx
      else (leaves', idx :: prevRest, merged)

/-- The outer `while right < leaves.len()` loop of `validate`
(`tree.rs` 541–575), fuel-indexed (the fuel `leaves.len() + 1` used
by `validate` is provably sufficient: `right` advances every
iteration and the length never changes). -/
def vLoopOuter [DecidableEq Val] :
    Nat → List (Digest N Val × Nat) → Nat → Nat → List Nat → Digest N Val →
    Digest N Val
  | 0, _, _, _, _, merged => merged
  | fuel + 1, leaves, left, right, prev, merged =>
      if right < leaves.length then
        let dflt : Digest N Val × Nat := (.zero, 0)
        if (leaves.getD left dflt).2 < (leaves.getD right dflt).2 then
          let res := vLoopInner right prev leaves left
          vLoopOuter fuel res.1 right (right + 1) res.2.1 res.2.2
        else vLoopOuter fuel leaves right (right + 1) (left :: prev) merged
      else merged

/-- `SparseMerkleTree::validate` (`tree.rs` 509–578).  The store's
leaf enumeration (`sorted_leaves()`, `size()` — Store members not
under `src/`, modelled from the spec as the leaves listed in BitKey
order) is passed as the list `sl`. -/
def validate [DecidableEq Val] (zeroV : Val) (sl : List (InternalKey N × Val))
    (root : Digest N Val) : Bool :=
  if sl.length = 0 then root == Digest.zero
  else
    let pairs := sl.zip (sl.drop 1)
    let leaves := pairs.map (fun pq =>
      ((hash_leafF zeroV pq.1.1 pq.1.2 : Digest N Val),
        InternalKey.fork_height pq.1.1 pq.2.1))
    let last := match sl with
      | [] => (Digest.zero : Digest N Val)
      | p :: rest => hash_leafF zeroV (rest.getLastD p).1 (rest.getLastD p).2
    if leaves.isEmpty then root == last
    else
      let leavesFull := leaves ++ [(last, usizeMax)]
      vLoopOuter (leavesFull.length + 1) leavesFull 0 1 [] Digest.zero == root

/-- The `(leaf digest, join height)` items `validate` feeds its merge
loop: consecutive fork heights, `X` for the last element. -/
def itemsOf [DecidableEq Val] (zeroV : Val) (X : Nat) :
    List (InternalKey N × Val) → List (Digest N Val × Nat)
  | [] => []
  | [p] => [(hash_leafF zeroV p.1 p.2, X)]
  | p :: q :: rest =>
      (hash_leafF zeroV p.1 p.2, InternalKey.fork_height p.1 q.1) ::
        itemsOf zeroV X (q :: rest)

/-- Pure model of one outer iteration of `validate`'s merge loop: the
item is pushed onto the stack after absorbing every stack entry whose
join height is below the item's; the last performed merge is
returned alongside. -/
def collapseM [DecidableEq Val] :
    Digest N Val × Nat → List (Digest N Val × Nat) → Digest N Val →
    List (Digest N Val × Nat) × Digest N Val
  | item, [], mrg => ([item], mrg)
  | item, top :: rest, mrg =>
      if top.2 < item.2 then
        collapseM (mergeF top.1 item.1, item.2) rest (mergeF top.1 item.1)
      else (item :: top :: rest, mrg)

/-- Pure model of `validate`'s merge loop: fold `collapseM` over the
item list. -/
def mrun [DecidableEq Val] (items : List (Digest N Val × Nat))
    (st : List (Digest N Val × Nat)) (mrg : Digest N Val) :
    List (Digest N Val × Nat) × Digest N Val :=
  items.foldl (fun acc it => collapseM it acc.1 acc.2) (st, mrg)

/-- Modelled from the spec: `MerkleProof` (`merkle_proof.rs` is not
under `src/`): the flat proof of §4.9 — per-key merge-height lists
and the non-zero siblings with their heights, as handed from
`merkle_proof` to `convert`. -/
structure MerkleProofE (N : Nat) (Val : Type) where
  leaves_path : List (List Nat)
  proof : List (Digest N Val × Nat)

/-- The `BTreeMap<(usize, InternalKey<N>), H256>` sibling cache of
`fetch_merkle_path`, as an association list with unique keys. -/
def Cache (N : Nat) (Val : Type) : Type :=
  List ((Nat × InternalKey N) × Digest N Val)

def cacheLookup [DecidableEq Val] (c : Cache N Val) (k : Nat × InternalKey N) :
    Option (Digest N Val) :=
  (c.find? (fun e => e.1 == k)).map (fun e => e.2)

/-- `BTreeMap::insert` (replaces an existing binding). -/
def cacheInsert [DecidableEq Val] (c : Cache N Val) (k : Nat × InternalKey N)
    (v : Digest N Val) : Cache N Val :=
  (k, v) :: c.filter (fun e => !(e.1 == k))

/-- `BTreeMap::entry(k).or_insert(v)` (keeps an existing binding). -/
def cacheOrInsert [DecidableEq Val] (c : Cache N Val) (k : Nat × InternalKey N)
    (v : Digest N Val) : Cache N Val :=
  match cacheLookup c k with
  | some _ => c
  | none => (k, v) :: c

/-- `BTreeMap::remove`. -/
def cacheRemove [DecidableEq Val] (c : Cache N Val) (k : Nat × InternalKey N) :
    Cache N Val :=
  c.filter (fun e => !(e.1 == k))

/-- The walk of `fetch_merkle_path` (`tree.rs` 260–326), fuel-indexed
(the `while !node.is_zero()` loop can cycle on adversarial stores). -/
def fetchLoop [DecidableEq Val] (key : InternalKey N) (B : BranchMap N Val) :
    Nat → Digest N Val → Nat → Cache N Val → Option (Cache N Val)
  | 0, _, _, _ => none
  | fuel + 1, node, height, cache =>
      if node.is_zero then some cache
      else
        match B node with
        | none => some cache
        | some branch_node =>
            if height > branch_node.fork_height then
              let fork_height := max (InternalKey.fork_height key branch_node.key)
                branch_node.fork_height
              let is_right := key.get_bit fork_height
              let sibling_key := if is_right then key.parent_path fork_height
                else (key.parent_path fork_height).set_bit height
              some (if node.is_zero then cache
                else cacheOrInsert cache (fork_height, sibling_key) node)
            else
              let lr := branch_node.branch height
              let is_right := key.get_bit height
              if is_right then
                if node = lr.2 then some cache
                else
                  let cache' := cacheInsert cache (height, key.parent_path height) lr.1
                  let height' := match B lr.2 with
                    | some bn => max (InternalKey.fork_height key bn.key) bn.fork_height
                    | none => height
                  fetchLoop key B fuel lr.2 height' cache'
              else
                if node = lr.1 then some cache
                else
                  let cache' := cacheInsert cache
                    (height, (key.parent_path height).set_bit height) lr.2
                  let height' := match B lr.1 with
                    | some bn => max (InternalKey.fork_height key bn.key) bn.fork_height
                    | none => height
                  fetchLoop key B fuel lr.1 height' cache'

/-- `SparseMerkleTree::fetch_merkle_path` (`tree.rs` 260–326). -/
def fetch_merkle_path [DecidableEq Val] (t : SMTree N Val) (key : InternalKey N)
    (cache : Cache N Val) : Option (Cache N Val) :=
  fetchLoop key t.branches_map (8 * N + 2) t.root
    (initialHeight t.branches_map key t.root) cache

/-- One insertion step of `keys.sort_unstable_by_key(|k| **k)`
(BitKey order). -/
def insertKeyBy (k : InternalKey N) : List (InternalKey N) → List (InternalKey N)
  | [] => [k]
  | a :: l => if keyLtB k a then k :: a :: l else a :: insertKeyBy k l

/-- `keys.sort_unstable_by_key(|k| **k)` of `merkle_proof`, modelled
as insertion sort in BitKey order. -/
def sortKeys (ks : List (InternalKey N)) : List (InternalKey N) :=
  ks.foldr insertKeyBy []

/-- The `for k in &keys { self.fetch_merkle_path(k, &mut cache)? }`
loop of `merkle_proof`. -/
def fetchAll [DecidableEq Val] (t : SMTree N Val) :
    List (InternalKey N) → Cache N Val → Option (Cache N Val)
  | [], cache => some cache
  | k :: ks, cache =>
      match fetch_merkle_path t k cache with
      | none => none
      | some cache' => fetchAll t ks cache'

/-- The bottom-up queue loop of `merkle_proof` (`tree.rs` 358–410),
fuel-indexed.  Queue entries are `(key, height, leaf_index)`. -/
def mpLoop [DecidableEq Val] :
    Nat → List (InternalKey N × Nat × Nat) → Cache N Val → List (List Nat) →
    List (Digest N Val × Nat) →
    Option (List (List Nat) × List (Digest N Val × Nat))
  | 0, _, _, _, _ => none
  | fuel + 1, queue, cache, leaves_path, proof =>
      match queue with
      | [] => some (leaves_path, proof)
      | (key, height, leaf_index) :: rest =>
          if (rest.isEmpty && cache.isEmpty) || height = 8 * N then
            some ((if (leaves_path.getD leaf_index []).isEmpty
              then leaves_path.set leaf_index [8 * N - 1] else leaves_path), proof)
          else
            let is_right := key.get_bit height
            let sibling_key := if is_right
              then (key.parent_path height).clear_bit height
              else (key.parent_path height).set_bit height
            let front_match : Bool := match rest with
              | (fkey, fheight, _) :: _ => fkey == sibling_key && fheight == height
              | [] => false
            if front_match then
              match rest with
              | (_, fheight, findex) :: rest2 =>
                  -- drop the queued sibling, record its merge height
                  let lp1 := leaves_path.set findex
                    (leaves_path.getD findex [] ++ [fheight])
                  let lp2 := lp1.set leaf_index (lp1.getD leaf_index [] ++ [height])
                  if height < 8 * N then
                    mpLoop fuel
                      (rest2 ++ [(if is_right then sibling_key else key,
                        height + 1, leaf_index)]) cache lp2 proof
                  else mpLoop fuel rest2 cache lp2 proof
              | [] => none   -- unreachable: `front_match` implies a nonempty rest
            else
              match cacheLookup cache (height, sibling_key) with
              | some sibling =>
                  let cache' := cacheRemove cache (height, sibling_key)
                  let proof' := proof ++ [(sibling, height)]
                  let lp1 := leaves_path.set leaf_index
                    (leaves_path.getD leaf_index [] ++ [height])
                  if height < 8 * N then
                    mpLoop fuel
                      (rest ++ [(if is_right then sibling_key else key,
                        height + 1, leaf_index)]) cache' lp1 proof'
                  else mpLoop fuel rest cache' lp1 proof'
              | none =>
                  -- zero sibling: skip to the parent
                  mpLoop fuel
                    (rest ++ [(if is_right then sibling_key
                        else sibling_key.clear_bit height,
                      height + 1, leaf_index)]) cache leaves_path proof

/-- `SparseMerkleTree::merkle_proof` (`tree.rs` 329–413). -/
def merkle_proof [DecidableEq Val] (t : SMTree N Val) (keys : List (InternalKey N)) :
    Option (Except Error (MerkleProofE N Val)) :=
  if keys.isEmpty then some (.error .EmptyKeys)
  else
    let sorted := sortKeys keys
    match fetchAll t sorted [] with
    | none => none
    | some cache =>
        match mpLoop ((sorted.length + 1) * (8 * N + 2))
          (sorted.enum.map (fun ik => (ik.2, 0, ik.1))) cache
          (List.replicate sorted.length []) [] with
        | none => none
        | some lp => some (.ok ⟨lp.1, lp.2⟩)

/-- `ics23::InnerOp` under the ideal hasher: the sibling digest
stands in for its byte serialization, in the prefix for a right node
and in the suffix for a left node. -/
structure InnerOpE (N : Nat) (Val : Type) where
  hash : Int
  pfx : Option (Digest N Val)
  sfx : Option (Digest N Val)

/-- `get_inner_op` of `proof_ics23.rs`. -/
def get_inner_opF (hash_op : Int) (sibling : Digest N Val) (is_right_node : Bool) :
    InnerOpE N Val :=
  if is_right_node then ⟨hash_op, some sibling, none⟩
  else ⟨hash_op, none, some sibling⟩

/-- `ics23::ExistenceProof` under the ideal hasher. -/
structure ExistenceProofE (N : Nat) (Val : Type) where
  key : List Nat
  value : Val
  leaf : LeafOp
  path : List (InnerOpE N Val)

/-- The conversion loop of `proof_ics23::convert` (lines 27–54),
fuel-indexed (it always terminates within `2·|proof| + 2` steps). -/
def convertLoop [DecidableEq Val] (hash_op : Int) :
    Nat → List Nat → List (Digest N Val × Nat) → InternalKey N → Nat →
    List (InnerOpE N Val) → Option (Except Error (List (InnerOpE N Val)))
  | 0, _, _, _, _, _ => none
  | fuel + 1, merge_heights, proof, cur_key, height, path =>
      match proof with
      | [] => some (.ok path)
      | (sibling, sibling_height) :: proof' =>
          if height = TREE_HEIGHT then some (.error .CorruptedProof)
          else
            let merge_height := match merge_heights with
              | mh :: _ => mh
              | [] => height
            if height ≠ merge_height then
              convertLoop hash_op fuel merge_heights proof cur_key merge_height path
            else
              let height' := if height < sibling_height then sibling_height else height
              let path' := path ++
                [get_inner_opF hash_op sibling (cur_key.get_bit height')]
              convertLoop hash_op fuel (merge_heights.drop 1) proof'
                (cur_key.parent_path height') (height' + 1) path'

/-- `proof_ics23::convert` (lines 7–62).  The
`leaves_path.get(0).expect(..)` panic is modelled as `none`. -/
def convert [DecidableEq Val] (mp : MerkleProofE N Val) (key : InternalKey N)
    (value : Val) (hash_op : Int) :
    Option (Except Error (ExistenceProofE N Val)) :=
  match mp.leaves_path with
  | [] => none
  | mh :: _ =>
      match convertLoop hash_op (2 * mp.proof.length + 2) mh mp.proof key 0 [] with
      | none => none
      | some (.error e) => some (.error e)
      | some (.ok path) => some (.ok ⟨key.val, value, get_leaf_op hash_op, path⟩)

/-- `ics23::commitment_proof::Proof` — only the variant that
`membership_proof` constructs is modelled. -/
inductive ProofE (N : Nat) (Val : Type) where
  | Exist (p : ExistenceProofE N Val)

/-- `ics23::CommitmentProof`. -/
structure CommitmentProofE (N : Nat) (Val : Type) where
  proof : Option (ProofE N Val)

/-- `SparseMerkleTree::membership_proof` (`tree.rs` 416–427). -/
def membership_proof [DecidableEq Val] (zeroV : Val) (hash_op : Int)
    (t : SMTree N Val) (key : InternalKey N) :
    Option (Except Error (CommitmentProofE N Val)) :=
  match get zeroV t key with
  | none => none
  | some value =>
      if value = zeroV then some (.error .ExistenceProof)
      else
        match merkle_proof t [key] with
        | none => none
        | some (.error e) => some (.error e)
        | some (.ok mp) =>
            match convert mp key value hash_op with
            | none => none
            | some (.error e) => some (.error e)
            | some (.ok ep) => some (.ok ⟨some (.Exist ep)⟩)

/-! ### Canonical-root algebra

The correctness proofs for `update`/`get` relate the imperative tree
to a canonical root function over the abstract list of bindings. -/

/-- The multiset of leaves of a digest term. -/
def leafListD : Digest N Val → List (InternalKey N × Val)
  | .zero => []
  | .leafHash k v => [(k, v)]
  | .nodeHash l r => leafListD l ++ leafListD r

/-- `a` and `b` agree on every bit index in `[h, 8*N)`. -/
def agreeAbove (a b : InternalKey N) (h : Nat) : Prop :=
  ∀ i, h ≤ i → i < 8 * N → a.get_bit i = b.get_bit i

/-- Boolean form of `agreeAbove`. -/
def agreeAboveB (a b : InternalKey N) (h : Nat) : Bool :=
  (rangeList h (8 * N)).all (fun i => a.get_bit i == b.get_bit i)

/-- The bucket of `m` at `(k, h)`: the bindings whose keys agree with
`k` on all bits `≥ h` — the subtree of the trie that `k`'s path
inhabits at level `h`. -/
def bucket (m : List (InternalKey N × Val)) (k : InternalKey N) (h : Nat) :
    List (InternalKey N × Val) :=
  m.filter (fun p => agreeAboveB p.1 k h)

/-- The canonical root of a set of bindings over the bottom `h` bits:
split at bit `h-1`, merge (with the zero-identity collapsing), leaves
at the bottom. -/
def subRoot [DecidableEq Val] : Nat → List (InternalKey N × Val) → Digest N Val
  | 0, [] => .zero
  | 0, p :: _ => .leafHash p.1 p.2
  | h + 1, S =>
      mergeF (subRoot h (S.filter (fun p => !(p.1.get_bit h))))
             (subRoot h (S.filter (fun p => p.1.get_bit h)))

/-- The half of the bit-`h` split that `k`'s path continues into. -/
def mineSide (k : InternalKey N) (h : Nat) (S : List (InternalKey N × Val)) :
    List (InternalKey N × Val) :=
  if k.get_bit h then S.filter (fun p => p.1.get_bit h)
  else S.filter (fun p => !(p.1.get_bit h))

/-- The half of the bit-`h` split opposite to `k`'s path. -/
def otherSide (k : InternalKey N) (h : Nat) (S : List (InternalKey N × Val)) :
    List (InternalKey N × Val) :=
  if k.get_bit h then S.filter (fun p => !(p.1.get_bit h))
  else S.filter (fun p => p.1.get_bit h)

/-- The non-zero siblings along `k`'s path through the trie of `S`,
bottom-up (ascending heights). -/
def sibs [DecidableEq Val] (k : InternalKey N) :
    Nat → List (InternalKey N × Val) → List (Nat × Digest N Val)
  | 0, _ => []
  | h + 1, S =>
      sibs k h (mineSide k h S) ++
        (if (subRoot h (otherSide k h S)).is_zero then []
         else [(h, subRoot h (otherSide k h S))])

/-- The abstract effect of `update(k, v)` on the binding list. -/
def updList [DecidableEq Val] (zeroV : Val) (m : List (InternalKey N × Val))
    (k : InternalKey N) (v : Val) : List (InternalKey N × Val) :=
  (if v = zeroV then [] else [(k, v)]) ++ m.filter (fun p => p.1 != k)

/-- Fold a digest up along a sibling list (the pure shadow of
`buildUp`). -/
def mergePath [DecidableEq Val] (k : InternalKey N)
    (sl : List (Nat × Digest N Val)) (node : Digest N Val) : Digest N Val :=
  sl.foldl (fun node hs => if k.get_bit hs.1 then mergeF hs.2 node else mergeF node hs.2)
    node

/-- The abstract binding list produced by a sequence of update
operations starting from no bindings. -/
def bindings [DecidableEq Val] (zeroV : Val) (ops : List (InternalKey N × Val)) :
    List (InternalKey N × Val) :=
  ops.foldl (fun mm op => updList zeroV mm op.1 op.2) []

/-- Pairwise separation below `h`: any two bindings' keys differ at
some bit `< h` (implies distinct keys). -/
def Sep (h : Nat) (S : List (InternalKey N × Val)) : Prop :=
  S.Pairwise (fun a b => ∃ i, i < h ∧ a.1.get_bit i ≠ b.1.get_bit i)

/-- Every key of `S` other than `k` differs from `k` below `h`. -/
def SepBelowK (h : Nat) (k : InternalKey N) (S : List (InternalKey N × Val)) : Prop :=
  ∀ p ∈ S, p.1 ≠ k → ∃ i, i < h ∧ p.1.get_bit i ≠ k.get_bit i

/-- All values are non-zero. -/
def ValsOk (zeroV : Val) (S : List (InternalKey N × Val)) : Prop :=
  ∀ p ∈ S, p.2 ≠ zeroV

/-- The canonical leaf map: a digest resolves to a leaf exactly when
it is the leaf hash of one of the bindings. -/
def lookupLeafD [DecidableEq Val] (m : List (InternalKey N × Val)) (D : Digest N Val) :
    Option (LeafNode N Val) :=
  (m.find? (fun p => (Digest.leafHash p.1 p.2 : Digest N Val) == D)).map
    (fun p => ⟨p.1, p.2⟩)

/-- The value bound to `k` in `m` (`zeroV` when absent). -/
def valueOf (zeroV : Val) [DecidableEq Val] (m : List (InternalKey N × Val))
    (k : InternalKey N) : Val :=
  match m.find? (fun p => p.1 == k) with
  | some p => p.2
  | none => zeroV

/-- Well-formedness of one stored branch entry, as an absolute
property of the digest it is stored under (`D`).  Either a leaf
self-branch, or an internal split whose children are canonical
sub-roots and whose witness key shares the node's prefix and orients
`(node, sibling)` correctly. -/
def BranchWF [DecidableEq Val] (zeroV : Val) (D : Digest N Val)
    (e : BranchNode N Val) : Prop :=
  (∃ k v, v ≠ zeroV ∧ D = .leafHash k v ∧
     e = ⟨0, k, D, .zero⟩) ∨
  (∃ h S0 S1,
     h < 8 * N ∧
     Sep h S0 ∧ Sep h S1 ∧ ValsOk zeroV S0 ∧ ValsOk zeroV S1 ∧
     S0 ≠ [] ∧ S1 ≠ [] ∧
     (∀ p ∈ S0, p.1.get_bit h = false) ∧
     (∀ p ∈ S1, p.1.get_bit h = true) ∧
     (∀ p ∈ S0 ++ S1, ∀ i, h < i → i < 8 * N → p.1.get_bit i = e.key.get_bit i) ∧
     e.fork_height = h ∧
     D = mergeF (subRoot h S0) (subRoot h S1) ∧
     ((e.key.get_bit h = true ∧ e.node = subRoot h S1 ∧ e.sibling = subRoot h S0) ∨
      (e.key.get_bit h = false ∧ e.node = subRoot h S0 ∧ e.sibling = subRoot h S1)))

/-- Coverage: every leaf of `m` has its self-branch, and every
two-sided split of the trie of `m` has a branch entry under its merge
digest. -/
def Cover [DecidableEq Val] (m : List (InternalKey N × Val)) (B : BranchMap N Val) :
    Prop :=
  (∀ p ∈ m, ∃ e, B (.leafHash p.1 p.2) = some e) ∧
  (∀ (k' : InternalKey N) (h' : Nat), h' < 8 * N →
     (bucket m k' (h' + 1)).filter (fun p => !(p.1.get_bit h')) ≠ [] →
     (bucket m k' (h' + 1)).filter (fun p => p.1.get_bit h') ≠ [] →
     ∃ e, B (mergeF
       (subRoot h' ((bucket m k' (h' + 1)).filter (fun p => !(p.1.get_bit h'))))
       (subRoot h' ((bucket m k' (h' + 1)).filter (fun p => p.1.get_bit h')))) = some e)

/-- The store/root invariant tying a tree state to its abstract
binding list. -/
structure Inv [DecidableEq Val] (zeroV : Val) (m : List (InternalKey N × Val))
    (t : SMTree N Val) : Prop where
  sep_m : Sep (8 * N) m
  vals_m : ValsOk zeroV m
  root_eq : t.root = subRoot (8 * N) m
  leaves_eq : ∀ D, t.leaves_map D = lookupLeafD m D
  branches_wf : ∀ D e, t.branches_map D = some e → BranchWF zeroV D e
  branches_cover : Cover m t.branches_map

/-- The largest fork height between `k0` and any key of `S` (0 when
`S` is empty). -/
def maxFork (k0 : InternalKey N) (S : List (InternalKey N × Val)) : Nat :=
  S.foldr (fun p acc => max (InternalKey.fork_height k0 p.1) acc) 0

/-- The loop-carried `height` of the update walk, as a function of the
store and current node. -/
def heightOf [DecidableEq Val] (B : BranchMap N Val) (k : InternalKey N)
    (node : Digest N Val) : Nat :=
  match B node with
  | some b => max (InternalKey.fork_height k b.key) b.fork_height
  | none => 0

/-- Structural size of a digest term. -/
def dsize : Digest N Val → Nat
  | .zero => 1
  | .leafHash _ _ => 1
  | .nodeHash l r => dsize l + dsize r + 1

/-- `D` is the two-sided split digest of `k`'s bucket at some height
`t`: exactly the digests whose branch entries `update` removes on the
way down and re-creates (for the updated list) on the way up. -/
def SplitAt [DecidableEq Val] (m : List (InternalKey N × Val)) (k : InternalKey N)
    (D : Digest N Val) : Prop :=
  ∃ t, t < 8 * N ∧
    (bucket m k (t + 1)).filter (fun p => !(p.1.get_bit t)) ≠ [] ∧
    (bucket m k (t + 1)).filter (fun p => p.1.get_bit t) ≠ [] ∧
    D = mergeF (subRoot t ((bucket m k (t + 1)).filter (fun p => !(p.1.get_bit t))))
               (subRoot t ((bucket m k (t + 1)).filter (fun p => p.1.get_bit t)))

/-- A trivial hasher instance (used to instantiate universally
quantified hasher statements at a concrete point). -/
def unitHasher : HasherImpl :=
  { State := List (List Nat)
    default := []
    write_bytes := fun s l => s ++ [l]
    finish := fun _ => H256B.zero }

/-- A concrete non-zero digest. -/
def oneH : H256B :=
  ⟨1 :: List.replicate 31 0, by decide⟩

/-- A concrete two-byte key `0xABCD`. -/
def keyAB : InternalKey 2 := ⟨[0xAB, 0xCD], by decide⟩

/-- The one-byte key `0x00`. -/
def key0 : InternalKey 1 := ⟨[0], by decide⟩

/-- The one-byte key `0x01` (adjacent to `key0`: differs at bit 0). -/
def key1 : InternalKey 1 := ⟨[1], by decide⟩

/-- A reachable one-leaf tree: `update(key0, 1)` on the empty tree. -/
def C2t0 : SMTree 1 Nat := (update 0 (SMTree.default 1 Nat) key0 1).get rfl

/-- `C2t0` after `update(key1, 1)`. -/
def C2t1 : SMTree 1 Nat := (update 0 C2t0 key1 1).get rfl

/-- `C2t1` after the deleting `update(key1, 0)`. -/
def C2t2 : SMTree 1 Nat := (update 0 C2t1 key1 0).get rfl

/-- An adversarial store state (constructible through
`SparseMerkleTree::new`): the root is `key0`'s leaf and the leaf map
resolves it, but the branch entry stored at the root is corrupt
(fork height 5, zero child). -/
def C3tree : SMTree 1 Nat :=
  { branches_map :=
      mapInsert mapEmpty (.leafHash key0 42) ⟨5, key0, .zero, .leafHash key0 42⟩
    leaves_map := mapInsert mapEmpty (.leafHash key0 42) ⟨key0, 42⟩
    root := .leafHash key0 42 }

/-- The tree produced by `update(key0, 5)` on the empty tree. -/
def C3updTree : SMTree 1 Nat := (update 0 (SMTree.default 1 Nat) key0 5).get rfl

/-- The two-leaf tree `{key0 ↦ 1, key1 ↦ 2}` built by updates. -/
def C4tree : SMTree 1 Nat :=
  (applyOps 0 (SMTree.default 1 Nat) [(key0, 1), (key1, 2)]).get rfl

/-- The `N = 33` keys of the C9 counterexample: `keyA33` is the
all-zero key. -/
def keyA33 : InternalKey 33 := ⟨List.replicate 33 0, by decide⟩

/-- The second `N = 33` key: only bit `256` is set (byte 0 is `1`),
so `keyA33` and `keyB33` fork exactly at height `256 = TREE_HEIGHT`. -/
def keyB33 : InternalKey 33 := ⟨1 :: List.replicate 32 0, by decide⟩

/-- The sibling cache produced by `fetch_merkle_path` on the C9
counterexample tree: one entry at the fork height `256`. -/
def cache33 : Cache 33 Nat := [((256, keyA33), Digest.leafHash keyA33 1)]

set_option maxRecDepth 40000 in
/-- The reachable two-leaf tree `{keyA33 ↦ 1, keyB33 ↦ 1}` at key
width `N = 33`. -/
def t33 : SMTree 33 Nat :=
  (applyOps 0 (SMTree.default 33 Nat) [(keyA33, 1), (keyB33, 1)]).get rfl

/-- C5: `copy_bits(start..start+size)` (identical in
`internal_key.rs` and `key.rs`) is a bit projection: bits inside the
range are copied from the source, all others are zero. -/
theorem claim_C5 (N : Nat) (k : InternalKey N) (start size : Nat)
    (h : start + size ≤ 8 * N) :
    (∀ i, start ≤ i → i < start + size →
       (k.copy_bits start (start + size)).get_bit i = k.get_bit i) ∧
    (∀ i, i < 8 * N → (i < start ∨ start + size ≤ i) →
       (k.copy_bits start (start + size)).get_bit i = false) := by
  constructor
  · intro i h1 h2
    rw [InternalKey.get_bit_copy_bits _ _ _ _ h (by omega), if_pos ⟨h1, h2⟩]
  · intro i h1 h2
    rw [InternalKey.get_bit_copy_bits _ _ _ _ h h1, if_neg (by omega)]

theorem claim_C5_witness :
    (∀ i, 3 ≤ i → i < 11 →
       (keyAB.copy_bits 3 11).get_bit i = keyAB.get_bit i) ∧
    (∀ i, i < 16 → (i < 3 ∨ 11 ≤ i) →
       (keyAB.copy_bits 3 11).get_bit i = false) :=
  claim_C5 2 keyAB 3 8 (by decide)

/-- C6: `hash_leaf` short-circuits zero values to the zero digest and
otherwise absorbs a 32-byte zero prefix, the key bytes, then the value
bytes. -/
theorem claim_C6 :
    (∀ (H : HasherImpl) (kb : List Nat), hash_leaf H kb H256B.zero = H256B.zero) ∧
    (∀ (H : HasherImpl) (kb : List Nat) (v : H256B), v ≠ H256B.zero →
       hash_leaf H kb v =
         H.finish (H.write_bytes (H.write_bytes
           (H.write_bytes H.default (List.replicate 32 0)) kb) v.val)) := by
  constructor
  · intro H kb
    rw [hash_leaf, if_pos rfl]
  · intro H kb v hv
    rw [hash_leaf, if_neg hv]
    rfl

theorem claim_C6_witness :
    hash_leaf unitHasher [1, 2] oneH =
      unitHasher.finish (unitHasher.write_bytes (unitHasher.write_bytes
        (unitHasher.write_bytes unitHasher.default (List.replicate 32 0)) [1, 2])
          oneH.val) :=
  claim_C6.2 unitHasher [1, 2] oneH (by decide)

/-- C7: the zero digest is a two-sided identity for `merge`, and for
non-zero operands `merge` is the hasher digest of `lhs ‖ rhs`. -/
theorem claim_C7 :
    (∀ (H : HasherImpl) (x : H256B),
       merge H H256B.zero x = x ∧ merge H x H256B.zero = x) ∧
    (∀ (H : HasherImpl) (lhs rhs : H256B), lhs ≠ H256B.zero → rhs ≠ H256B.zero →
       merge H lhs rhs =
         H.finish (H.write_bytes (H.write_bytes H.default lhs.val) rhs.val)) := by
  constructor
  · intro H x
    constructor
    · rw [merge, if_pos rfl]
    · rw [merge]
      by_cases hx : x = H256B.zero
      · rw [if_pos hx, hx]
      · rw [if_neg hx, if_pos rfl]
  · intro H lhs rhs h1 h2
    rw [merge, if_neg h1, if_neg h2]

theorem claim_C7_witness :
    merge unitHasher oneH oneH =
      unitHasher.finish (unitHasher.write_bytes
        (unitHasher.write_bytes unitHasher.default oneH.val) oneH.val) :=
  claim_C7.2 unitHasher oneH oneH (by decide) (by decide)

/-- C8 fails as stated: `get_spec` always reports
`max_depth = TREE_HEIGHT = 256`, which is `8·N` only for `N = 32`;
at key width `N = 1` the claim is false. -/
theorem claim_C8_counterexample :
    ¬ (∀ (hash_op : Int) (N : Nat),
        (get_spec hash_op).inner_spec = some
          { child_order := [0, 1], child_size := 32, min_prefix_length := 0,
            max_prefix_length := 32, empty_child := [], hash := hash_op } ∧
        (get_spec hash_op).max_depth = 8 * (N : Int) ∧
        (get_spec hash_op).min_depth = 0 ∧
        (get_spec hash_op).prehash_key_before_comparison = false ∧
        (get_spec hash_op).leaf_spec = some
          { hash := hash_op, prehash_key := 0, prehash_value := 0, length := 0,
            prefix_data := List.replicate 32 0 }) := by
  intro h
  have hd := (h 0 1).2.1
  rw [show (get_spec 0).max_depth = (256 : Int) from rfl] at hd
  norm_num at hd

/-- C8 amended: `get_spec(hash_op)` returns exactly the claimed
`ProofSpec` fields, except that `max_depth` is the constant
`TREE_HEIGHT = 256` (which equals `8·N` only for `N = 32`). -/
theorem claim_C8_amended (hash_op : Int) :
    (get_spec hash_op).inner_spec = some
      { child_order := [0, 1], child_size := 32, min_prefix_length := 0,
        max_prefix_length := 32, empty_child := [], hash := hash_op } ∧
    (get_spec hash_op).max_depth = ((TREE_HEIGHT : Nat) : Int) ∧
    (get_spec hash_op).max_depth = 256 ∧
    (get_spec hash_op).min_depth = 0 ∧
    (get_spec hash_op).prehash_key_before_comparison = false ∧
    (get_spec hash_op).leaf_spec = some
      { hash := hash_op, prehash_key := 0, prehash_value := 0, length := 0,
        prefix_data := List.replicate 32 0 } := by
  refine ⟨rfl, rfl, rfl, rfl, rfl, ?_⟩
  rw [show (get_spec hash_op).leaf_spec = some (get_leaf_op hash_op) from rfl]
  rfl

/-- C10: `PaddedKey::try_from` succeeds on inputs of length `≤ N` and
`to_vec` recovers the input exactly; hence the mapping is injective on
byte strings of length at most `N`. -/
theorem claim_C10 :
    (∀ (N : Nat) (v : List Nat) (hv : ∀ b ∈ v, b < 256), v.length ≤ N →
       ∃ k : PaddedKey N, PaddedKey.tryFromBytes v hv = Except.ok k ∧ k.to_vec = v) ∧
    (∀ (N : Nat) (v1 v2 : List Nat) (hv1 : ∀ b ∈ v1, b < 256)
       (hv2 : ∀ b ∈ v2, b < 256), v1.length ≤ N → v2.length ≤ N →
       PaddedKey.tryFromBytes (N := N) v1 hv1 = PaddedKey.tryFromBytes (N := N) v2 hv2 →
       v1 = v2) := by
  have main : ∀ (N : Nat) (v : List Nat) (hv : ∀ b ∈ v, b < 256), v.length ≤ N →
      ∃ k : PaddedKey N, PaddedKey.tryFromBytes v hv = Except.ok k ∧ k.to_vec = v := by
    intro N v hv hle
    refine ⟨PaddedKey.mkPadded v hv hle, ?_, ?_⟩
    · rw [PaddedKey.tryFromBytes, dif_neg (by omega)]
    · show (v ++ List.replicate (N - v.length) 0xFF).take v.length = v
      exact List.take_left v _
  constructor
  · exact main
  · intro N v1 v2 hv1 hv2 h1 h2 heq
    rcases main N v1 hv1 h1 with ⟨k1, hk1, hv1'⟩
    rcases main N v2 hv2 h2 with ⟨k2, hk2, hv2'⟩
    rw [hk1, hk2] at heq
    cases heq
    rw [← hv1', ← hv2']

theorem claim_C10_witness :
    ∃ k : PaddedKey 4, PaddedKey.tryFromBytes [7, 9] (by decide) = Except.ok k ∧
      k.to_vec = [7, 9] :=
  claim_C10.1 4 [7, 9] (by decide) (by decide)

/-! ### Algebra lemmas for the canonical root -/

section Algebra

variable {N : Nat} {Val : Type} [DecidableEq Val]

theorem mergeF_zero_left (x : Digest N Val) : mergeF .zero x = x := by
  rw [mergeF]
  simp [Digest.is_zero]

theorem mergeF_zero_right (x : Digest N Val) : mergeF x .zero = x := by
  rw [mergeF]
  cases x <;> simp [Digest.is_zero]

theorem mergeF_nonzero {a b : Digest N Val} (ha : a ≠ .zero) (hb : b ≠ .zero) :
    mergeF a b = .nodeHash a b := by
  rw [mergeF]
  rw [if_neg (by simpa [Digest.is_zero_iff] using ha),
    if_neg (by simpa [Digest.is_zero_iff] using hb)]

theorem mergeF_eq_zero_iff {a b : Digest N Val} :
    mergeF a b = .zero ↔ a = .zero ∧ b = .zero := by
  constructor
  · intro h
    by_cases ha : a = .zero
    · subst ha
      rw [mergeF_zero_left] at h
      exact ⟨rfl, h⟩
    · by_cases hb : b = .zero
      · exact ⟨by rw [hb, mergeF_zero_right] at h; exact h, hb⟩
      · rw [mergeF_nonzero ha hb] at h
        cases h
  · rintro ⟨rfl, rfl⟩
    exact mergeF_zero_left _

theorem subRoot_nil (h : Nat) : (subRoot h [] : Digest N Val) = .zero := by
  induction h with
  | zero => rfl
  | succ n ih => simp [subRoot, ih, mergeF_zero_left]

theorem subRoot_eq_zero_iff {h : Nat} {S : List (InternalKey N × Val)} :
    subRoot h S = (.zero : Digest N Val) ↔ S = [] := by
  induction h generalizing S with
  | zero =>
      cases S with
      | nil => simp [subRoot]
      | cons p rest => simp [subRoot]
  | succ n ih =>
      rw [subRoot, mergeF_eq_zero_iff, ih, ih]
      constructor
      · rintro ⟨h0, h1⟩
        cases S with
        | nil => rfl
        | cons p rest =>
            by_cases hb : p.1.get_bit n
            · have hmem : p ∈ (p :: rest).filter (fun p => p.1.get_bit n) := by
                simp [List.mem_filter, hb]
              rw [h1] at hmem
              cases hmem
            · have hmem : p ∈ (p :: rest).filter (fun p => !(p.1.get_bit n)) := by
                simp [List.mem_filter, hb]
              rw [h0] at hmem
              cases hmem
      · rintro rfl
        simp

theorem subRoot_single (h : Nat) (p : InternalKey N × Val) :
    subRoot h [p] = (.leafHash p.1 p.2 : Digest N Val) := by
  induction h with
  | zero => rfl
  | succ n ih =>
      rw [subRoot]
      by_cases hb : p.1.get_bit n
      · rw [show ([p].filter (fun p => !(p.1.get_bit n))) = [] by simp [hb],
          show ([p].filter (fun p => p.1.get_bit n)) = [p] by simp [hb],
          subRoot_nil, mergeF_zero_left, ih]
      · rw [show ([p].filter (fun p => !(p.1.get_bit n))) = [p] by simp [hb],
          show ([p].filter (fun p => p.1.get_bit n)) = [] by simp [hb],
          subRoot_nil, mergeF_zero_right, ih]

theorem Sep_sublist {h : Nat} {S S' : List (InternalKey N × Val)}
    (hs : S'.Sublist S) (hS : Sep h S) : Sep h S' :=
  List.Pairwise.sublist hs hS

theorem Sep_filter {h : Nat} {S : List (InternalKey N × Val)}
    (p : InternalKey N × Val → Bool) (hS : Sep h S) : Sep h (S.filter p) :=
  Sep_sublist (List.filter_sublist _) hS

/-- Separation descends through a one-bit split: inside the bit-`n`
side, the witnessing bit cannot be `n` itself. -/
theorem Sep_filter_bit {n : Nat} {S : List (InternalKey N × Val)}
    (hS : Sep (n + 1) S) (b : Bool) :
    Sep n (S.filter (fun p => p.1.get_bit n == b)) := by
  have h1 : Sep (n + 1) (S.filter (fun p => p.1.get_bit n == b)) :=
    Sep_filter _ hS
  unfold Sep at h1 ⊢
  refine List.Pairwise.imp_of_mem ?_ h1
  intro a c ha hc ⟨i, hi, hne⟩
  have hab : a.1.get_bit n = b := by simpa using (List.mem_filter.mp ha).2
  have hcb : c.1.get_bit n = b := by simpa using (List.mem_filter.mp hc).2
  refine ⟨i, ?_, hne⟩
  rcases Nat.lt_succ_iff_lt_or_eq.mp hi with h | h
  · exact h
  · subst h
    rw [hab, hcb] at hne
    exact absurd rfl hne

theorem Sep_zero {S : List (InternalKey N × Val)} (hS : Sep 0 S) :
    S = [] ∨ ∃ p, S = [p] := by
  cases S with
  | nil => exact Or.inl rfl
  | cons p rest =>
      cases rest with
      | nil => exact Or.inr ⟨p, rfl⟩
      | cons q rest' =>
          rcases (List.pairwise_cons.mp hS).1 q (by simp) with ⟨i, hi, _⟩
          omega

/-- Rewriting the two split filters in the `== b` form. -/
theorem filter_bit_true (n : Nat) (S : List (InternalKey N × Val)) :
    S.filter (fun p => p.1.get_bit n) =
      S.filter (fun p => p.1.get_bit n == true) := by
  congr 1
  funext p
  cases hb : p.1.get_bit n <;> simp [hb]

theorem filter_bit_false (n : Nat) (S : List (InternalKey N × Val)) :
    S.filter (fun p => !(p.1.get_bit n)) =
      S.filter (fun p => p.1.get_bit n == false) := by
  congr 1
  funext p
  cases hb : p.1.get_bit n <;> simp [hb]

theorem leafListD_subRoot {h : Nat} {S : List (InternalKey N × Val)}
    (hS : Sep h S) : (leafListD (subRoot h S)).Perm S := by
  induction h generalizing S with
  | zero =>
      rcases Sep_zero hS with rfl | ⟨p, rfl⟩
      · simp [subRoot, leafListD]
      · simp [subRoot, leafListD]
  | succ n ih =>
      rw [subRoot]
      have hS0 : Sep n (S.filter (fun p => !(p.1.get_bit n))) := by
        rw [filter_bit_false]
        exact Sep_filter_bit hS false
      have hS1 : Sep n (S.filter (fun p => p.1.get_bit n)) := by
        rw [filter_bit_true]
        exact Sep_filter_bit hS true
      have hneg : S.filter (fun p => !(!(p.1.get_bit n))) =
          S.filter (fun p => p.1.get_bit n) := by
        congr 1
        funext p
        simp
      have hpart : ((S.filter (fun p => !(p.1.get_bit n))) ++
          (S.filter (fun p => p.1.get_bit n))).Perm S := by
        have h := List.filter_append_perm (fun p => !(p.1.get_bit n)) S
        rwa [hneg] at h
      by_cases h0 : subRoot n (S.filter (fun p => !(p.1.get_bit n))) =
          (.zero : Digest N Val)
      · rw [h0, mergeF_zero_left]
        have he : S.filter (fun p => !(p.1.get_bit n)) = [] :=
          subRoot_eq_zero_iff.mp h0
        rw [he] at hpart
        simp only [List.nil_append] at hpart
        exact (ih hS1).trans hpart
      · by_cases h1 : subRoot n (S.filter (fun p => p.1.get_bit n)) =
            (.zero : Digest N Val)
        · rw [h1, mergeF_zero_right]
          have he : S.filter (fun p => p.1.get_bit n) = [] :=
            subRoot_eq_zero_iff.mp h1
          rw [he] at hpart
          simp only [List.append_nil] at hpart
          exact (ih hS0).trans hpart
        · rw [mergeF_nonzero h0 h1, leafListD]
          exact ((ih hS0).append (ih hS1)).trans hpart

theorem subRoot_perm {h : Nat} {S S' : List (InternalKey N × Val)}
    (hperm : S.Perm S') (hS : Sep h S) : subRoot h S = subRoot h S' := by
  induction h generalizing S S' with
  | zero =>
      rcases Sep_zero hS with rfl | ⟨p, rfl⟩
      · rw [List.nil_perm.mp hperm]
      · rw [List.perm_singleton.mp hperm.symm]
  | succ n ih =>
      rw [subRoot, subRoot]
      have h0 : Sep n (S.filter (fun p => !(p.1.get_bit n))) := by
        rw [filter_bit_false]
        exact Sep_filter_bit hS false
      have h1 : Sep n (S.filter (fun p => p.1.get_bit n)) := by
        rw [filter_bit_true]
        exact Sep_filter_bit hS true
      rw [ih (hperm.filter _) h0, ih (hperm.filter _) h1]

/-- If every pair of keys in `S` agrees on the bit band `[h, h')`,
the canonical roots at the two levels coincide (the zero-identity of
`merge` collapses one-sided levels). -/
theorem subRoot_collapse {S : List (InternalKey N × Val)} :
    ∀ h' h, h ≤ h' →
    (∀ p ∈ S, ∀ q ∈ S, ∀ i, h ≤ i → i < h' → p.1.get_bit i = q.1.get_bit i) →
    subRoot h' S = subRoot h S := by
  intro h'
  induction h' with
  | zero =>
      intro h hh _
      interval_cases h
      rfl
  | succ n ih =>
      intro h hh hagree
      by_cases hhn : h = n + 1
      · subst hhn
        rfl
      · have hh' : h ≤ n := by omega
        cases S with
        | nil => rw [subRoot_nil, subRoot_nil]
        | cons p rest =>
            rw [subRoot]
            by_cases hb : p.1.get_bit n
            · have hf1 : (p :: rest).filter (fun q => q.1.get_bit n) = p :: rest := by
                rw [List.filter_eq_self]
                intro q hq
                have := hagree q hq p (by simp) n hh' (by omega)
                simp [this, hb]
              have hf0 : (p :: rest).filter (fun q => !(q.1.get_bit n)) = [] := by
                rw [List.filter_eq_nil_iff]
                intro q hq
                have := hagree q hq p (by simp) n hh' (by omega)
                simp [this, hb]
              rw [hf0, hf1, subRoot_nil, mergeF_zero_left]
              exact ih h hh' (fun p hp q hq i hi1 hi2 => hagree p hp q hq i hi1 (by omega))
            · have hf0 : (p :: rest).filter (fun q => !(q.1.get_bit n)) = p :: rest := by
                rw [List.filter_eq_self]
                intro q hq
                have := hagree q hq p (by simp) n hh' (by omega)
                simp [this, hb]
              have hf1 : (p :: rest).filter (fun q => q.1.get_bit n) = [] := by
                rw [List.filter_eq_nil_iff]
                intro q hq
                have := hagree q hq p (by simp) n hh' (by omega)
                simp [this, hb]
              rw [hf0, hf1, subRoot_nil, mergeF_zero_right]
              exact ih h hh' (fun p hp q hq i hi1 hi2 => hagree p hp q hq i hi1 (by omega))

/-- Canonical roots are injective (up to permutation) on separated
lists. -/
theorem subRoot_inj {h h' : Nat} {S S' : List (InternalKey N × Val)}
    (hS : Sep h S) (hS' : Sep h' S')
    (heq : subRoot h S = subRoot h' S') : S.Perm S' := by
  have h1 := leafListD_subRoot hS
  have h2 := leafListD_subRoot hS'
  rw [heq] at h1
  exact h1.symm.trans h2

theorem sibs_heights {k : InternalKey N} :
    ∀ {h : Nat} {S : List (InternalKey N × Val)} {q}, q ∈ sibs k h S → q.1 < h := by
  intro h
  induction h with
  | zero =>
      intro S q hq
      simp [sibs] at hq
  | succ n ih =>
      intro S q hq
      rw [sibs] at hq
      rcases List.mem_append.mp hq with h1 | h1
      · have := ih h1
        omega
      · by_cases hz : (subRoot n (otherSide k n S)).is_zero
        · rw [if_pos hz] at h1
          cases h1
        · rw [if_neg hz] at h1
          rcases List.mem_singleton.mp h1 with rfl
          omega

theorem mergePath_append (k : InternalKey N) (A B : List (Nat × Digest N Val))
    (x : Digest N Val) :
    mergePath k (A ++ B) x = mergePath k B (mergePath k A x) := by
  unfold mergePath
  rw [List.foldl_append]

/-- The central update identity: the canonical root of the updated
binding list is the fold of the new leaf hash up `k`'s sibling path. -/
theorem subRoot_updList (zeroV : Val) (k : InternalKey N) (v : Val) :
    ∀ (h : Nat) (S : List (InternalKey N × Val)), SepBelowK h k S →
    subRoot h (updList zeroV S k v) =
      mergePath k (sibs k h S) (hash_leafF zeroV k v) := by
  intro h
  induction h with
  | zero =>
      intro S hsep
      have hfil : S.filter (fun p => p.1 != k) = [] := by
        rw [List.filter_eq_nil_iff]
        intro p hp
        by_cases hpk : p.1 = k
        · simp [hpk]
        · rcases hsep p hp hpk with ⟨i, hi, _⟩
          omega
      rw [updList, hfil, sibs, mergePath]
      by_cases hv : v = zeroV
      · rw [if_pos hv, hash_leafF, if_pos hv]
        rfl
      · rw [if_neg hv, hash_leafF, if_neg hv]
        rfl
  | succ n ih =>
      intro S hsep
      rw [subRoot, sibs]
      have hcomm0 : (updList zeroV S k v).filter (fun p => !(p.1.get_bit n)) =
          (if k.get_bit n = false then
            updList zeroV (S.filter (fun p => !(p.1.get_bit n))) k v
           else (S.filter (fun p => !(p.1.get_bit n))).filter (fun p => p.1 != k)) := by
        rw [updList, List.filter_append]
        by_cases hb : k.get_bit n
        · rw [if_neg (show ¬(k.get_bit n = false) by simp [hb])]
          have h1 : (if v = zeroV then ([] : List (InternalKey N × Val))
              else [(k, v)]).filter (fun p => !(p.1.get_bit n)) = [] := by
            by_cases hv : v = zeroV <;> simp [hv, hb]
          rw [h1, List.nil_append, List.filter_filter, List.filter_filter]
          congr 1
          funext p
          rw [Bool.and_comm]
        · rw [if_pos (show k.get_bit n = false by simpa using hb)]
          have h1 : (if v = zeroV then ([] : List (InternalKey N × Val))
              else [(k, v)]).filter (fun p => !(p.1.get_bit n)) =
              (if v = zeroV then [] else [(k, v)]) := by
            by_cases hv : v = zeroV <;> simp [hv, hb]
          rw [h1, updList, List.filter_filter, List.filter_filter]
          congr 2
          funext p
          rw [Bool.and_comm]
      have hcomm1 : (updList zeroV S k v).filter (fun p => p.1.get_bit n) =
          (if k.get_bit n = true then
            updList zeroV (S.filter (fun p => p.1.get_bit n)) k v
           else (S.filter (fun p => p.1.get_bit n)).filter (fun p => p.1 != k)) := by
        rw [updList, List.filter_append]
        by_cases hb : k.get_bit n
        · rw [if_pos hb]
          have h1 : (if v = zeroV then ([] : List (InternalKey N × Val))
              else [(k, v)]).filter (fun p => p.1.get_bit n) =
              (if v = zeroV then [] else [(k, v)]) := by
            by_cases hv : v = zeroV <;> simp [hv, hb]
          rw [h1, updList, List.filter_filter, List.filter_filter]
          congr 2
          funext p
          rw [Bool.and_comm]
        · rw [if_neg (show ¬(k.get_bit n = true) by simpa using hb)]
          have h1 : (if v = zeroV then ([] : List (InternalKey N × Val))
              else [(k, v)]).filter (fun p => p.1.get_bit n) = [] := by
            by_cases hv : v = zeroV <;> simp [hv, hb]
          rw [h1, List.nil_append, List.filter_filter, List.filter_filter]
          congr 1
          funext p
          rw [Bool.and_comm]
      -- keys on the opposite side of bit n cannot be k
      have hother0 : k.get_bit n = true →
          (S.filter (fun p => !(p.1.get_bit n))).filter (fun p => p.1 != k) =
          S.filter (fun p => !(p.1.get_bit n)) := by
        intro hb
        rw [List.filter_eq_self]
        intro p hp
        have hpb : p.1.get_bit n = false := by
          have := (List.mem_filter.mp hp).2
          simpa using this
        have : p.1 ≠ k := by
          intro he
          rw [he, hb] at hpb
          cases hpb
        simpa using this
      have hother1 : k.get_bit n = false →
          (S.filter (fun p => p.1.get_bit n)).filter (fun p => p.1 != k) =
          S.filter (fun p => p.1.get_bit n) := by
        intro hb
        rw [List.filter_eq_self]
        intro p hp
        have hpb : p.1.get_bit n = true := (List.mem_filter.mp hp).2
        have : p.1 ≠ k := by
          intro he
          rw [he, hb] at hpb
          cases hpb
        simpa using this
      -- separation descends on k's own side of the split
      have hsep0 : k.get_bit n = false →
          SepBelowK n k (S.filter (fun p => !(p.1.get_bit n))) := by
        intro hb p hp hpk
        rcases hsep p (List.mem_of_mem_filter hp) hpk with ⟨i, hi, hne⟩
        refine ⟨i, ?_, hne⟩
        rcases Nat.lt_succ_iff_lt_or_eq.mp hi with h | h
        · exact h
        · subst h
          have hpb : p.1.get_bit i = false := by
            simpa using (List.mem_filter.mp hp).2
          rw [hpb, hb] at hne
          exact absurd rfl hne
      have hsep1 : k.get_bit n = true →
          SepBelowK n k (S.filter (fun p => p.1.get_bit n)) := by
        intro hb p hp hpk
        rcases hsep p (List.mem_of_mem_filter hp) hpk with ⟨i, hi, hne⟩
        refine ⟨i, ?_, hne⟩
        rcases Nat.lt_succ_iff_lt_or_eq.mp hi with h | h
        · exact h
        · subst h
          have hpb : p.1.get_bit i = true := (List.mem_filter.mp hp).2
          rw [hpb, hb] at hne
          exact absurd rfl hne
      by_cases hb : k.get_bit n
      · have hmine : mineSide k n S = S.filter (fun p => p.1.get_bit n) := by
          rw [mineSide, if_pos hb]
        have hoth : otherSide k n S = S.filter (fun p => !(p.1.get_bit n)) := by
          rw [otherSide, if_pos hb]
        rw [hcomm0, hcomm1, if_neg (by simp [hb]), if_pos hb, hother0 hb,
          hmine, hoth, ih _ (hsep1 hb), mergePath_append]
        by_cases hz : (subRoot n (S.filter (fun p => !(p.1.get_bit n)))).is_zero
        · rw [if_pos hz]
          rw [(Digest.is_zero_iff _).mp hz, mergeF_zero_left]
          rfl
        · rw [if_neg hz]
          show _ = if k.get_bit n then _ else _
          rw [if_pos hb]
      · have hbf : k.get_bit n = false := by simpa using hb
        have hmine : mineSide k n S = S.filter (fun p => !(p.1.get_bit n)) := by
          rw [mineSide, if_neg hb]
        have hoth : otherSide k n S = S.filter (fun p => p.1.get_bit n) := by
          rw [otherSide, if_neg hb]
        rw [hcomm0, hcomm1, if_pos hbf, if_neg (by simp [hbf]),
          hother1 hbf, hmine, hoth, ih _ (hsep0 hbf), mergePath_append]
        by_cases hz : (subRoot n (S.filter (fun p => p.1.get_bit n))).is_zero
        · rw [if_pos hz]
          rw [(Digest.is_zero_iff _).mp hz, mergeF_zero_right]
          rfl
        · rw [if_neg hz]
          show _ = if k.get_bit n then _ else _
          rw [if_neg hb]

theorem sibs_nil (k : InternalKey N) : ∀ h, sibs k h ([] : List (InternalKey N × Val)) = [] := by
  intro h
  induction h with
  | zero => rfl
  | succ n ih =>
      rw [sibs]
      have h0 : mineSide k n ([] : List (InternalKey N × Val)) = [] := by
        rw [mineSide]
        by_cases hb : k.get_bit n <;> simp [hb]
      have h1 : otherSide k n ([] : List (InternalKey N × Val)) = [] := by
        rw [otherSide]
        by_cases hb : k.get_bit n <;> simp [hb]
      rw [h0, h1, ih, subRoot_nil]
      rfl

/-- When every key of `S` agrees with `k` on the bit band `[ℓ, h)`,
the sibling lists at levels `h` and `ℓ` coincide (all intermediate
levels are one-sided on `k`'s side). -/
theorem sibs_collapse {k : InternalKey N} {S : List (InternalKey N × Val)} :
    ∀ h ℓ, ℓ ≤ h →
    (∀ p ∈ S, ∀ i, ℓ ≤ i → i < h → p.1.get_bit i = k.get_bit i) →
    sibs k h S = sibs k ℓ S := by
  intro h
  induction h with
  | zero =>
      intro ℓ hl _
      interval_cases ℓ
      rfl
  | succ n ih =>
      intro ℓ hl hagree
      by_cases hln : ℓ = n + 1
      · subst hln
        rfl
      · have hl' : ℓ ≤ n := by omega
        have hmine : mineSide k n S = S := by
          rw [mineSide]
          by_cases hb : k.get_bit n
          · rw [if_pos hb, List.filter_eq_self]
            intro p hp
            rw [hagree p hp n hl' (by omega), hb]
          · rw [if_neg hb, List.filter_eq_self]
            intro p hp
            simp [hagree p hp n hl' (by omega), Bool.eq_false_iff.mpr hb]
        have hoth : otherSide k n S = [] := by
          rw [otherSide]
          by_cases hb : k.get_bit n
          · rw [if_pos hb, List.filter_eq_nil_iff]
            intro p hp
            simp [hagree p hp n hl' (by omega), hb]
          · rw [if_neg hb, List.filter_eq_nil_iff]
            intro p hp
            simp [hagree p hp n hl' (by omega), Bool.eq_false_iff.mpr hb]
        rw [sibs, hmine, hoth, subRoot_nil,
          show (Digest.is_zero (.zero : Digest N Val)) = true from rfl, if_pos rfl,
          List.append_nil]
        exact ih ℓ hl' (fun p hp i h1 h2 => hagree p hp i h1 (by omega))

theorem agreeAboveB_iff {a b : InternalKey N} {h : Nat} :
    agreeAboveB a b h = true ↔ agreeAbove a b h := by
  rw [agreeAboveB, agreeAbove, List.all_eq_true]
  constructor
  · intro hall i h1 h2
    have := hall i (InternalKey.mem_rangeList.mpr ⟨h1, h2⟩)
    simpa using this
  · intro hag i hi
    rcases InternalKey.mem_rangeList.mp hi with ⟨h1, h2⟩
    simp [hag i h1 h2]

theorem mem_bucket {m : List (InternalKey N × Val)} {k : InternalKey N} {h : Nat}
    {p : InternalKey N × Val} :
    p ∈ bucket m k h ↔ p ∈ m ∧ agreeAbove p.1 k h := by
  rw [bucket, List.mem_filter, agreeAboveB_iff]

theorem bucket_top (m : List (InternalKey N × Val)) (k : InternalKey N) :
    bucket m k (8 * N) = m := by
  rw [bucket, List.filter_eq_self]
  intro p _
  rw [agreeAboveB_iff]
  intro i h1 h2
  omega

/-- Buckets at equal-agreement levels coincide. -/
theorem bucket_congr {m : List (InternalKey N × Val)} {k : InternalKey N} {h h' : Nat}
    (hsub : ∀ p ∈ m, (agreeAbove p.1 k h ↔ agreeAbove p.1 k h')) :
    bucket m k h = bucket m k h' := by
  rw [bucket, bucket]
  refine List.filter_congr ?_
  intro p hp
  cases hB : agreeAboveB p.1 k h'
  · cases hA : agreeAboveB p.1 k h
    · rfl
    · rw [agreeAboveB_iff] at hA
      have := (hsub p hp).mp hA
      rw [← agreeAboveB_iff] at this
      rw [this] at hB
      cases hB
  · rw [agreeAboveB_iff] at hB
    have := (hsub p hp).mpr hB
    rw [← agreeAboveB_iff] at this
    rw [this]

theorem bool_eq_of_iff {a b : Bool} (h : a = true ↔ b = true) : a = b := by
  cases a <;> cases b <;> simp_all

/-- `k`'s side of the split of the level-`h+1` bucket is the level-`h`
bucket. -/
theorem mineSide_bucket (m : List (InternalKey N × Val)) (k : InternalKey N) (h : Nat)
    (hh : h < 8 * N) :
    mineSide k h (bucket m k (h + 1)) = bucket m k h := by
  rw [mineSide, bucket, bucket]
  by_cases hb : k.get_bit h
  · rw [if_pos hb, List.filter_filter]
    refine List.filter_congr ?_
    intro p _
    refine bool_eq_of_iff ?_
    rw [Bool.and_eq_true, agreeAboveB_iff, agreeAboveB_iff]
    constructor
    · rintro ⟨h1, h2⟩ i hi1 hi2
      rcases Nat.lt_or_ge h i with hlt | hge
      · exact h2 i (by omega) hi2
      · have : i = h := by omega
        subst this
        rw [h1, hb]
    · intro hag
      refine ⟨?_, fun i hi1 hi2 => hag i (by omega) hi2⟩
      rw [hag h (by omega) hh, hb]
  · rw [if_neg hb, List.filter_filter]
    refine List.filter_congr ?_
    intro p _
    refine bool_eq_of_iff ?_
    rw [Bool.and_eq_true, agreeAboveB_iff, agreeAboveB_iff]
    have hbf : k.get_bit h = false := by simpa using hb
    constructor
    · rintro ⟨h1, h2⟩ i hi1 hi2
      rcases Nat.lt_or_ge h i with hlt | hge
      · exact h2 i (by omega) hi2
      · have : i = h := by omega
        subst this
        rw [hbf]
        simpa using h1
    · intro hag
      refine ⟨?_, fun i hi1 hi2 => hag i (by omega) hi2⟩
      rw [show p.1.get_bit h = k.get_bit h from hag h (by omega) hh, hbf]
      rfl

theorem maxFork_le {k0 : InternalKey N} {S : List (InternalKey N × Val)} :
    ∀ p ∈ S, InternalKey.fork_height k0 p.1 ≤ maxFork k0 S := by
  induction S with
  | nil => intro p hp; cases hp
  | cons q rest ih =>
      intro p hp
      rcases List.mem_cons.mp hp with rfl | hp'
      · rw [maxFork, List.foldr_cons]
        exact Nat.le_max_left _ _
      · rw [maxFork, List.foldr_cons]
        exact Nat.le_trans (ih p hp') (Nat.le_max_right _ _)

theorem maxFork_attained {q : InternalKey N} {S : List (InternalKey N × Val)} :
    maxFork q S = 0 ∨ ∃ p ∈ S, InternalKey.fork_height q p.1 = maxFork q S := by
  induction S with
  | nil => exact Or.inl rfl
  | cons x rest ih =>
      rw [maxFork, List.foldr_cons]
      have hfold : List.foldr (fun p acc => max (InternalKey.fork_height q p.1) acc) 0 rest =
          maxFork q rest := rfl
      rw [hfold]
      rcases Nat.le_total (InternalKey.fork_height q x.1) (maxFork q rest) with hle | hle
      · rw [Nat.max_eq_right hle]
        rcases ih with h0 | ⟨p, hp, hf⟩
        · exact Or.inl h0
        · exact Or.inr ⟨p, List.mem_cons_of_mem _ hp, hf⟩
      · rw [Nat.max_eq_left hle]
        exact Or.inr ⟨x, List.mem_cons_self _ _, rfl⟩

theorem Sep_distinct {h : Nat} {S : List (InternalKey N × Val)} (hS : Sep h S) :
    S.Pairwise (fun a b => a.1 ≠ b.1) := by
  refine hS.imp ?_
  rintro a b ⟨i, _, hne⟩ heq
  rw [heq] at hne
  exact hne rfl

theorem Sep_of_distinct_agree {hsp : Nat} {S : List (InternalKey N × Val)}
    (hdist : S.Pairwise (fun a b => a.1 ≠ b.1))
    (hagree : ∀ p ∈ S, ∀ q ∈ S, ∀ i, hsp ≤ i → i < 8 * N →
      p.1.get_bit i = q.1.get_bit i) : Sep hsp S := by
  refine List.Pairwise.imp_of_mem ?_ hdist
  intro a b ha hb hne
  by_contra hno
  push_neg at hno
  refine hne (InternalKey.ext_bits ?_)
  intro i hi
  by_cases hlow : i < hsp
  · exact hno i hlow
  · exact hagree a ha b hb i (by omega) hi

/-- The split package for a bucket with at least two distinct keys:
its top fork height `hsp`, the two non-empty sides, agreement above
`hsp`, and the collapse of the canonical root to the split form. -/
theorem bucket_split {m : List (InternalKey N × Val)} {k : InternalKey N} {h : Nat}
    (hh : h ≤ 8 * N)
    {q0 q1 : InternalKey N × Val} (hq0 : q0 ∈ bucket m k h) (hq1 : q1 ∈ bucket m k h)
    (hqne : q0.1 ≠ q1.1) :
    ∃ hsp, hsp < h ∧
      (bucket m k h).filter (fun p => !(p.1.get_bit hsp)) ≠ [] ∧
      (bucket m k h).filter (fun p => p.1.get_bit hsp) ≠ [] ∧
      (∀ p ∈ bucket m k h, ∀ q ∈ bucket m k h, ∀ i, hsp < i → i < 8 * N →
        p.1.get_bit i = q.1.get_bit i) ∧
      subRoot (8 * N) (bucket m k h) =
        mergeF (subRoot hsp ((bucket m k h).filter (fun p => !(p.1.get_bit hsp))))
               (subRoot hsp ((bucket m k h).filter (fun p => p.1.get_bit hsp))) := by
  set S := bucket m k h with hSdef
  have hN : 0 < N := by
    by_contra h0
    exact hqne (InternalKey.ext_bits (fun i hi => by omega))
  have hagree_k : ∀ p ∈ S, agreeAbove p.1 k h := fun p hp => (mem_bucket.mp hp).2
  have hagree_S : ∀ p ∈ S, ∀ q ∈ S, ∀ i, h ≤ i → i < 8 * N →
      p.1.get_bit i = q.1.get_bit i := by
    intro p hp q hq i h1 h2
    rw [hagree_k p hp i h1 h2, hagree_k q hq i h1 h2]
  set hsp := maxFork q0.1 S with hspdef
  have hforklt : ∀ p ∈ S, p.1 ≠ q0.1 → InternalKey.fork_height q0.1 p.1 < h := by
    intro p hp hne
    by_contra hge
    push_neg at hge
    have hd := InternalKey.get_bit_fork_ne (a := q0.1) (b := p.1) (fun he => hne he.symm)
    exact hd (hagree_S q0 hq0 p hp _ hge (InternalKey.fork_height_lt hN))
  have hhpos : 0 < h := by
    by_contra h0
    refine hqne (InternalKey.ext_bits ?_)
    intro i hi
    exact hagree_S q0 hq0 q1 hq1 i (by omega) hi
  have hsplt : hsp < h := by
    rcases maxFork_attained (q := q0.1) (S := S) with h0 | ⟨p, hp, hf⟩
    · rw [hspdef, h0]
      omega
    · by_cases hpq : p.1 = q0.1
      · have : InternalKey.fork_height q0.1 p.1 = 0 := by
          rw [hpq, InternalKey.fork_height_self]
        rw [hspdef, ← hf, this]
        omega
      · rw [hspdef, ← hf]
        exact hforklt p hp hpq
  have hagree_sp : ∀ p ∈ S, ∀ q ∈ S, ∀ i, hsp < i → i < 8 * N →
      p.1.get_bit i = q.1.get_bit i := by
    have hag0 : ∀ r ∈ S, ∀ i, hsp < i → i < 8 * N → r.1.get_bit i = q0.1.get_bit i := by
      intro r hr i h1 h2
      have hle : InternalKey.fork_height q0.1 r.1 ≤ hsp := maxFork_le r hr
      exact (InternalKey.agree_above_fork q0.1 r.1 (by omega) h2).symm
    intro p hp q hq i h1 h2
    rw [hag0 p hp i h1 h2, hag0 q hq i h1 h2]
  have hother : ∃ a ∈ S, a.1.get_bit hsp ≠ q0.1.get_bit hsp := by
    have hfrom0 : InternalKey.fork_height q0.1 q1.1 = hsp →
        ∃ a ∈ S, a.1.get_bit hsp ≠ q0.1.get_bit hsp := by
      intro hf0
      have hd := InternalKey.get_bit_fork_ne (a := q0.1) (b := q1.1) hqne
      rw [hf0] at hd
      exact ⟨q1, hq1, fun he => hd (he.symm)⟩
    rcases maxFork_attained (q := q0.1) (S := S) with h0 | ⟨p, hp, hf⟩
    · refine hfrom0 ?_
      have hle : InternalKey.fork_height q0.1 q1.1 ≤ hsp := maxFork_le q1 hq1
      rw [hspdef, h0] at hle ⊢
      omega
    · by_cases hpq : p.1 = q0.1
      · refine hfrom0 ?_
        have h0 : hsp = 0 := by
          rw [hspdef, ← hf, hpq, InternalKey.fork_height_self]
        have hle : InternalKey.fork_height q0.1 q1.1 ≤ hsp := maxFork_le q1 hq1
        omega
      · have hd := InternalKey.get_bit_fork_ne (a := q0.1) (b := p.1)
          (fun he => hpq he.symm)
        rw [hf] at hd
        exact ⟨p, hp, fun he => hd he.symm⟩
  rcases hother with ⟨a, ha, hane⟩
  refine ⟨hsp, hsplt, ?_, ?_, hagree_sp, ?_⟩
  · intro hnil
    by_cases hb : q0.1.get_bit hsp
    · have hab : a.1.get_bit hsp = false := by
        cases habit : a.1.get_bit hsp
        · rfl
        · rw [habit, hb] at hane
          exact absurd rfl hane
      have hamem : a ∈ S.filter (fun p => !(p.1.get_bit hsp)) := by
        rw [List.mem_filter]
        exact ⟨ha, by rw [hab]; rfl⟩
      rw [hnil] at hamem
      cases hamem
    · have hmem : q0 ∈ S.filter (fun p => !(p.1.get_bit hsp)) := by
        rw [List.mem_filter]
        exact ⟨hq0, by rw [(by simpa using hb : q0.1.get_bit hsp = false)]; rfl⟩
      rw [hnil] at hmem
      cases hmem
  · intro hnil
    by_cases hb : q0.1.get_bit hsp
    · have hmem : q0 ∈ S.filter (fun p => p.1.get_bit hsp) := by
        rw [List.mem_filter]
        exact ⟨hq0, hb⟩
      rw [hnil] at hmem
      cases hmem
    · have hab : a.1.get_bit hsp = true := by
        cases habit : a.1.get_bit hsp
        · rw [habit, (by simpa using hb : q0.1.get_bit hsp = false)] at hane
          exact absurd rfl hane
        · rfl
      have hamem : a ∈ S.filter (fun p => p.1.get_bit hsp) := by
        rw [List.mem_filter]
        exact ⟨ha, hab⟩
      rw [hnil] at hamem
      cases hamem
  · have hcoll := subRoot_collapse (S := S) (8 * N) (hsp + 1) (by omega)
      (fun p hp q hq i h1 h2 => hagree_sp p hp q hq i (by omega) h2)
    rw [hcoll, subRoot]

/-- Keys agreeing at all bits `> h` have fork height `≤ h`. -/
theorem fork_le_of_agree {a b : InternalKey N} {h : Nat}
    (hag : ∀ i, h < i → i < 8 * N → a.get_bit i = b.get_bit i) :
    InternalKey.fork_height a b ≤ h := by
  by_cases hab : a = b
  · rw [hab, InternalKey.fork_height_self]
    omega
  · by_contra hgt
    push_neg at hgt
    have hN : 0 < N := by
      by_contra h0
      exact hab (InternalKey.ext_bits (fun i hi => by omega))
    exact InternalKey.get_bit_fork_ne hab
      (hag _ hgt (InternalKey.fork_height_lt hN))

/-- No branch entry can satisfy `BranchWF` at the zero digest. -/
theorem wfB_zero_none {zeroV : Val} {e : BranchNode N Val}
    (h : BranchWF zeroV (Digest.zero : Digest N Val) e) : False := by
  rcases h with ⟨k, v, _, hD, _⟩ | ⟨h', S0, S1, _, _, _, _, _, hne0, hne1, _, _, _, _, hD, _⟩
  · cases hD
  · rw [mergeF_nonzero (fun hz => hne0 (subRoot_eq_zero_iff.mp hz))
      (fun hz => hne1 (subRoot_eq_zero_iff.mp hz))] at hD
    cases hD

/-- The (wf) entry stored under a leaf digest is exactly the leaf's
self-branch. -/
theorem wfB_leaf_entry {zeroV : Val} {k : InternalKey N} {v : Val}
    {e : BranchNode N Val}
    (h : BranchWF zeroV (Digest.leafHash k v : Digest N Val) e) :
    e = ⟨0, k, .leafHash k v, .zero⟩ := by
  rcases h with ⟨k', v', _, hD, he⟩ | ⟨h', S0, S1, _, _, _, _, _, hne0, hne1, _, _, _, _, hD, _⟩
  · cases hD
    exact he
  · rw [mergeF_nonzero (fun hz => hne0 (subRoot_eq_zero_iff.mp hz))
      (fun hz => hne1 (subRoot_eq_zero_iff.mp hz))] at hD
    cases hD

/-- The (wf) entry stored under a two-sided split digest agrees with
the split: same fork height, children ordered `(left, right) =
(bit-0 side, bit-1 side)`, and a witness key sharing the prefix. -/
theorem wfB_node_entry {zeroV : Val} {hsp : Nat}
    {S0 S1 : List (InternalKey N × Val)} {e : BranchNode N Val}
    (hwf : BranchWF zeroV
      (mergeF (subRoot hsp S0) (subRoot hsp S1) : Digest N Val) e)
    (hne0 : S0 ≠ []) (hne1 : S1 ≠ [])
    (hSep0 : Sep hsp S0) (hSep1 : Sep hsp S1)
    (hbit0 : ∀ p ∈ S0, p.1.get_bit hsp = false)
    (hbit1 : ∀ p ∈ S1, p.1.get_bit hsp = true)
    (hagree : ∀ p ∈ S0 ++ S1, ∀ q ∈ S0 ++ S1, ∀ i, hsp < i → i < 8 * N →
      p.1.get_bit i = q.1.get_bit i)
    (hsp8 : hsp < 8 * N) :
    e.fork_height = hsp ∧
    e.branch hsp = (subRoot hsp S0, subRoot hsp S1) ∧
    (∀ p ∈ S0 ++ S1, ∀ i, hsp < i → i < 8 * N → p.1.get_bit i = e.key.get_bit i) := by
  have hz0 : subRoot hsp S0 ≠ (.zero : Digest N Val) :=
    fun hz => hne0 (subRoot_eq_zero_iff.mp hz)
  have hz1 : subRoot hsp S1 ≠ (.zero : Digest N Val) :=
    fun hz => hne1 (subRoot_eq_zero_iff.mp hz)
  rw [mergeF_nonzero hz0 hz1] at hwf
  rcases hwf with ⟨k', v', _, hD, _⟩ |
    ⟨h', S0', S1', hh', hSep0', hSep1', _, _, hne0', hne1', hbitf', hbitt',
      hagreekey', hfork', hDeq', horient'⟩
  · cases hD
  · rw [mergeF_nonzero (fun hz => hne0' (subRoot_eq_zero_iff.mp hz))
      (fun hz => hne1' (subRoot_eq_zero_iff.mp hz))] at hDeq'
    have hc0 : subRoot hsp S0 = subRoot h' S0' := by
      injection hDeq' with h1 h2
    have hc1 : subRoot hsp S1 = subRoot h' S1' := by
      injection hDeq' with h1 h2
    have hperm0 : S0.Perm S0' := subRoot_inj hSep0 hSep0' hc0
    have hperm1 : S1.Perm S1' := subRoot_inj hSep1 hSep1' hc1
    -- pin h' = hsp via any cross pair
    rcases List.exists_mem_of_ne_nil _ hne0 with ⟨q0, hq0⟩
    rcases List.exists_mem_of_ne_nil _ hne1 with ⟨q1, hq1⟩
    have hq0' : q0 ∈ S0' := hperm0.mem_iff.mp hq0
    have hq1' : q1 ∈ S1' := hperm1.mem_iff.mp hq1
    have hf1 : InternalKey.fork_height q0.1 q1.1 = hsp := by
      refine InternalKey.fork_height_eq hsp8 ?_ ?_
      · rw [hbit0 q0 hq0, hbit1 q1 hq1]
        simp
      · intro i hi1 hi2
        exact hagree q0 (List.mem_append_left _ hq0) q1 (List.mem_append_right _ hq1)
          i hi1 hi2
    have hf2 : InternalKey.fork_height q0.1 q1.1 = h' := by
      refine InternalKey.fork_height_eq hh' ?_ ?_
      · rw [hbitf' q0 hq0', hbitt' q1 hq1']
        simp
      · intro i hi1 hi2
        rw [hagreekey' q0 (List.mem_append_left _ hq0') i hi1 hi2,
          hagreekey' q1 (List.mem_append_right _ hq1') i hi1 hi2]
    have hhsp : h' = hsp := by omega
    subst hhsp
    refine ⟨hfork', ?_, ?_⟩
    · rw [BranchNode.branch]
      rcases horient' with ⟨hkb, hn, hs⟩ | ⟨hkb, hn, hs⟩
      · rw [if_pos hkb, hn, hs, hc0, hc1]
      · rw [if_neg (by rw [hkb]; exact fun h => nomatch h), hn, hs, hc0, hc1]
    · intro p hp i hi1 hi2
      rcases List.mem_append.mp hp with hp0 | hp1
      · exact hagreekey' p (List.mem_append_left _ (hperm0.mem_iff.mp hp0)) i hi1 hi2
      · exact hagreekey' p (List.mem_append_right _ (hperm1.mem_iff.mp hp1)) i hi1 hi2

/-- Inserting with a small height in front of a path whose heights are
all larger just conses. -/
theorem pathInsert_small {path : List (Nat × Digest N Val)} {h : Nat} {d : Digest N Val}
    (hlt : ∀ q ∈ path, h < q.1) : pathInsert path h d = (h, d) :: path := by
  cases path with
  | nil => rfl
  | cons q rest =>
      rw [pathInsert, if_pos (hlt q (by simp))]

theorem dsize_pos (d : Digest N Val) : 0 < dsize d := by
  cases d <;> simp [dsize]

/-- No digest equals a node having it as right child. -/
theorem ne_nodeHash_right (l r : Digest N Val) : r ≠ .nodeHash l r := by
  intro h
  have h1 := congrArg dsize h
  simp only [dsize] at h1
  have := dsize_pos l
  omega

/-- No digest equals a node having it as left child. -/
theorem ne_nodeHash_left (l r : Digest N Val) : l ≠ .nodeHash l r := by
  intro h
  have h1 := congrArg dsize h
  simp only [dsize] at h1
  have := dsize_pos r
  omega

theorem filter_length_split (l : List (InternalKey N × Val))
    (p : InternalKey N × Val → Bool) :
    (l.filter p).length + (l.filter (fun x => !(p x))).length = l.length :=
  (List.length_eq_length_filter_add p).symm

/-- Bucket members are separated below the bucket level. -/
theorem Sep_bucket {m : List (InternalKey N × Val)} {k : InternalKey N} {h : Nat}
    (hsep : Sep (8 * N) m) : Sep h (bucket m k h) := by
  refine Sep_of_distinct_agree (Sep_distinct (Sep_filter _ hsep)) ?_
  intro p hp q hq i hi1 hi2
  rw [(mem_bucket.mp hp).2 i hi1 hi2, (mem_bucket.mp hq).2 i hi1 hi2]

theorem leafListD_length {h : Nat} {S : List (InternalKey N × Val)} (hS : Sep h S) :
    (leafListD (subRoot h S)).length = S.length :=
  (leafListD_subRoot hS).length_eq

/-- A wellformed branch map has no entry at the zero digest. -/
theorem wf_zero_none {zeroV : Val} {B : BranchMap N Val}
    (hwf : ∀ D e, B D = some e → BranchWF zeroV D e) :
    B (.zero : Digest N Val) = none := by
  cases hB : B (.zero : Digest N Val) with
  | none => rfl
  | some e => exact (wfB_zero_none (hwf _ _ hB)).elim

theorem SepBelowK_bucket {m : List (InternalKey N × Val)} {k : InternalKey N} {h : Nat} :
    SepBelowK h k (bucket m k h) := by
  intro p hp hpk
  by_contra hno
  push_neg at hno
  refine hpk (InternalKey.ext_bits ?_)
  intro i hi
  by_cases hlow : i < h
  · exact hno i hlow
  · exact (mem_bucket.mp hp).2 i (by omega) hi

/-- The level-`h` bucket collapses to level `t ≤ h` when every member
agrees with `k` above `t`. -/
theorem bucket_above {m : List (InternalKey N × Val)} {k : InternalKey N} {h t : Nat}
    (hth : t ≤ h)
    (hag : ∀ p ∈ bucket m k h, ∀ i, t ≤ i → i < 8 * N → p.1.get_bit i = k.get_bit i) :
    bucket m k t = bucket m k h := by
  refine bucket_congr ?_
  intro p hp
  constructor
  · intro hA i hi1 hi2
    exact hA i (by omega) hi2
  · intro hA i hi1 hi2
    exact hag p (mem_bucket.mpr ⟨hp, hA⟩) i hi1 hi2

theorem agreeAboveB_self (a : InternalKey N) (h : Nat) : agreeAboveB a a h = true :=
  agreeAboveB_iff.mpr (fun _ _ _ => rfl)

theorem lookupLeafD_eq_some {m : List (InternalKey N × Val)} {j : InternalKey N} {u : Val}
    (hdist : m.Pairwise (fun a b => a.1 ≠ b.1)) (hmem : (j, u) ∈ m) :
    lookupLeafD m (.leafHash j u) = some ⟨j, u⟩ := by
  induction m with
  | nil => cases hmem
  | cons q rest ih =>
      rcases List.mem_cons.mp hmem with heq | hrest
      · subst heq
        rw [lookupLeafD, List.find?_cons]
        rw [show ((Digest.leafHash j u : Digest N Val) ==
          Digest.leafHash j u) = true by simp]
        rfl
      · have hq : ((Digest.leafHash q.1 q.2 : Digest N Val) ==
            Digest.leafHash j u) = false := by
          simp only [beq_eq_false_iff_ne, ne_eq]
          intro he
          injection he with h1 h2
          exact (List.pairwise_cons.mp hdist).1 (j, u) hrest h1
        rw [lookupLeafD, List.find?_cons, hq]
        exact ih (List.pairwise_cons.mp hdist).2 hrest

theorem lookupLeafD_shape {m : List (InternalKey N × Val)} {D : Digest N Val}
    {l : LeafNode N Val} (h : lookupLeafD m D = some l) :
    (l.key, l.value) ∈ m ∧ D = .leafHash l.key l.value := by
  rw [lookupLeafD] at h
  cases hf : m.find? (fun p => (Digest.leafHash p.1 p.2 : Digest N Val) == D) with
  | none => rw [hf] at h; cases h
  | some p =>
      rw [hf] at h
      have hmem := List.mem_of_find?_eq_some hf
      have hpred := List.find?_some hf
      simp only [beq_iff_eq] at hpred
      have hl : l = ⟨p.1, p.2⟩ := by
        injection h with h1
        exact h1.symm
      subst hl
      exact ⟨hmem, hpred.symm⟩

theorem lookupLeafD_eq_none {m : List (InternalKey N × Val)} {D : Digest N Val}
    (h : ∀ p ∈ m, (Digest.leafHash p.1 p.2 : Digest N Val) ≠ D) :
    lookupLeafD m D = none := by
  rw [lookupLeafD, List.find?_eq_none.mpr (fun p hp => by simpa using h p hp)]
  rfl

theorem valueOf_eq_of_mem {zeroV : Val} {m : List (InternalKey N × Val)}
    {k : InternalKey N} {w : Val}
    (hdist : m.Pairwise (fun a b => a.1 ≠ b.1)) (hmem : (k, w) ∈ m) :
    valueOf zeroV m k = w := by
  induction m with
  | nil => cases hmem
  | cons q rest ih =>
      rcases List.mem_cons.mp hmem with heq | hrest
      · subst heq
        rw [valueOf, List.find?_cons]
        rw [show (((k, w) : InternalKey N × Val).1 == k) = true by simp]
      · have hq : (q.1 == k) = false := by
          simp only [beq_eq_false_iff_ne, ne_eq]
          intro he
          exact (List.pairwise_cons.mp hdist).1 (k, w) hrest he
        rw [valueOf, List.find?_cons, hq]
        exact ih (List.pairwise_cons.mp hdist).2 hrest

theorem valueOf_eq_zero {zeroV : Val} {m : List (InternalKey N × Val)}
    {k : InternalKey N} (hun : ∀ p ∈ m, p.1 ≠ k) :
    valueOf zeroV m k = zeroV := by
  rw [valueOf, List.find?_eq_none.mpr (fun p hp => by simpa using hun p hp)]

theorem updList_sep {zeroV v : Val} {m : List (InternalKey N × Val)} {k : InternalKey N}
    (hsep : Sep (8 * N) m) : Sep (8 * N) (updList zeroV m k v) := by
  rw [updList]
  by_cases hv : v = zeroV
  · rw [if_pos hv, List.nil_append]
    exact Sep_filter _ hsep
  · rw [if_neg hv]
    refine List.pairwise_append.mpr ⟨List.pairwise_singleton _ _, Sep_filter _ hsep, ?_⟩
    intro a ha b hb
    rcases List.mem_singleton.mp ha with rfl
    have hbk : b.1 ≠ k := by simpa using (List.mem_filter.mp hb).2
    by_contra hno
    push_neg at hno
    exact hbk (InternalKey.ext_bits (fun i hi => (hno i hi).symm))

theorem updList_valsOk {zeroV v : Val} {m : List (InternalKey N × Val)}
    {k : InternalKey N} (hvals : ValsOk zeroV m) :
    ValsOk zeroV (updList zeroV m k v) := by
  intro p hp
  rw [updList] at hp
  by_cases hvz : v = zeroV
  · rw [if_pos hvz, List.nil_append] at hp
    exact hvals p (List.mem_of_mem_filter hp)
  · rw [if_neg hvz] at hp
    rcases List.mem_append.mp hp with h1 | h1
    · rcases List.mem_singleton.mp h1 with rfl
      exact hvz
    · exact hvals p (List.mem_of_mem_filter h1)

theorem bucket_updList (zeroV v : Val) (m : List (InternalKey N × Val))
    (k : InternalKey N) (h : Nat) :
    bucket (updList zeroV m k v) k h = updList zeroV (bucket m k h) k v := by
  rw [bucket, bucket, updList, updList, List.filter_append]
  congr 1
  · by_cases hv : v = zeroV
    · simp [hv]
    · simp [hv, agreeAboveB_self]
  · rw [List.filter_filter, List.filter_filter]
    congr 1
    funext p
    rw [Bool.and_comm]

theorem otherSide_updList (zeroV v : Val) (m : List (InternalKey N × Val))
    (k : InternalKey N) (t h : Nat) :
    otherSide k t (bucket (updList zeroV m k v) k h) =
      otherSide k t (bucket m k h) := by
  rw [bucket_updList, otherSide, otherSide, updList]
  by_cases hb : k.get_bit t
  · rw [if_pos hb, if_pos hb, List.filter_append]
    have h1 : (if v = zeroV then ([] : List (InternalKey N × Val))
        else [(k, v)]).filter (fun p => !(p.1.get_bit t)) = [] := by
      by_cases hv : v = zeroV <;> simp [hv, hb]
    rw [h1, List.nil_append, List.filter_filter]
    refine List.filter_congr ?_
    intro p _
    cases hpb : p.1.get_bit t
    · have hpk : p.1 ≠ k := fun he => by rw [he, hb] at hpb; cases hpb
      simp [hpb, hpk]
    · simp [hpb]
  · rw [if_neg hb, if_neg hb, List.filter_append]
    have hbf : k.get_bit t = false := by simpa using hb
    have h1 : (if v = zeroV then ([] : List (InternalKey N × Val))
        else [(k, v)]).filter (fun p => p.1.get_bit t) = [] := by
      by_cases hv : v = zeroV <;> simp [hv, hbf]
    rw [h1, List.nil_append, List.filter_filter]
    refine List.filter_congr ?_
    intro p _
    cases hpb : p.1.get_bit t
    · simp [hpb]
    · have hpk : p.1 ≠ k := fun he => by rw [he, hbf] at hpb; cases hpb
      simp [hpb, hpk]

/-- Updating `k`'s binding leaves `k`'s sibling lists unchanged at
every level. -/
theorem sibs_updList (zeroV v : Val) (m : List (InternalKey N × Val))
    (k : InternalKey N) :
    ∀ h, h ≤ 8 * N →
    sibs k h (bucket (updList zeroV m k v) k h) = sibs k h (bucket m k h) := by
  intro h
  induction h with
  | zero => intro _; rfl
  | succ n ih =>
      intro hn
      rw [sibs, sibs, mineSide_bucket _ _ _ (by omega), mineSide_bucket _ _ _ (by omega),
        ih (by omega), otherSide_updList]

/-- Two-sided splits of buckets of distinct key cylinders have
distinct digests; equality forces the cylinders to agree. -/
theorem splitAt_agree {μ : List (InternalKey N × Val)} {k k' : InternalKey N} {h' : Nat}
    (hsep : Sep (8 * N) μ) (hh' : h' < 8 * N)
    (hne0 : (bucket μ k' (h' + 1)).filter (fun p => !(p.1.get_bit h')) ≠ [])
    (hne1 : (bucket μ k' (h' + 1)).filter (fun p => p.1.get_bit h') ≠ [])
    (hsp : SplitAt μ k (mergeF
      (subRoot h' ((bucket μ k' (h' + 1)).filter (fun p => !(p.1.get_bit h'))))
      (subRoot h' ((bucket μ k' (h' + 1)).filter (fun p => p.1.get_bit h'))))) :
    ∀ i, h' < i → i < 8 * N → k.get_bit i = k'.get_bit i := by
  rcases hsp with ⟨t, ht8, hg0, hg1, hEq⟩
  have hSg0 : Sep t ((bucket μ k (t + 1)).filter (fun p => !(p.1.get_bit t))) := by
    rw [filter_bit_false]
    exact Sep_filter_bit (Sep_bucket hsep) false
  have hSg1 : Sep t ((bucket μ k (t + 1)).filter (fun p => p.1.get_bit t)) := by
    rw [filter_bit_true]
    exact Sep_filter_bit (Sep_bucket hsep) true
  have hSf0 : Sep h' ((bucket μ k' (h' + 1)).filter (fun p => !(p.1.get_bit h'))) := by
    rw [filter_bit_false]
    exact Sep_filter_bit (Sep_bucket hsep) false
  have hSf1 : Sep h' ((bucket μ k' (h' + 1)).filter (fun p => p.1.get_bit h')) := by
    rw [filter_bit_true]
    exact Sep_filter_bit (Sep_bucket hsep) true
  rw [mergeF_nonzero (fun hz => hg0 (subRoot_eq_zero_iff.mp hz))
      (fun hz => hg1 (subRoot_eq_zero_iff.mp hz)),
    mergeF_nonzero (fun hz => hne0 (subRoot_eq_zero_iff.mp hz))
      (fun hz => hne1 (subRoot_eq_zero_iff.mp hz))] at hEq
  have hc0 : subRoot h' ((bucket μ k' (h' + 1)).filter (fun p => !(p.1.get_bit h'))) =
      subRoot t ((bucket μ k (t + 1)).filter (fun p => !(p.1.get_bit t))) := by
    injection hEq with e0 e1
  have hc1 : subRoot h' ((bucket μ k' (h' + 1)).filter (fun p => p.1.get_bit h')) =
      subRoot t ((bucket μ k (t + 1)).filter (fun p => p.1.get_bit t)) := by
    injection hEq with e0 e1
  have hperm0 := subRoot_inj hSf0 hSg0 hc0
  have hperm1 := subRoot_inj hSf1 hSg1 hc1
  rcases List.exists_mem_of_ne_nil _ hne0 with ⟨p, hpf⟩
  rcases List.exists_mem_of_ne_nil _ hne1 with ⟨q, hqf⟩
  have hpg : p ∈ (bucket μ k (t + 1)).filter (fun p => !(p.1.get_bit t)) :=
    hperm0.mem_iff.mp hpf
  have hqg : q ∈ (bucket μ k (t + 1)).filter (fun p => p.1.get_bit t) :=
    hperm1.mem_iff.mp hqf
  have hpbh : p.1.get_bit h' = false := by
    simpa using (List.mem_filter.mp hpf).2
  have hqbh : q.1.get_bit h' = true := (List.mem_filter.mp hqf).2
  have hpbt : p.1.get_bit t = false := by
    simpa using (List.mem_filter.mp hpg).2
  have hqbt : q.1.get_bit t = true := (List.mem_filter.mp hqg).2
  have hpk := (mem_bucket.mp (List.mem_of_mem_filter hpg)).2
  have hqk := (mem_bucket.mp (List.mem_of_mem_filter hqg)).2
  have hpk' := (mem_bucket.mp (List.mem_of_mem_filter hpf)).2
  have hqk' := (mem_bucket.mp (List.mem_of_mem_filter hqf)).2
  have hth : t = h' := by
    by_contra hne
    rcases Nat.lt_or_ge t h' with hlt | hge
    · have h1 := hpk h' (by omega) hh'
      have h2 := hqk h' (by omega) hh'
      rw [hpbh] at h1
      rw [hqbh] at h2
      rw [← h1] at h2
      cases h2
    · have hgt : h' < t := by omega
      have h1 := hpk' t (by omega) ht8
      have h2 := hqk' t (by omega) ht8
      rw [hpbt] at h1
      rw [hqbt] at h2
      rw [← h1] at h2
      cases h2
  subst hth
  intro i hi1 hi2
  rw [← hpk i (by omega) hi2, hpk' i (by omega) hi2]

/-- Buckets with equivalent agreement conditions coincide (general
form over both the key and the level). -/
theorem bucket_congr2 {m : List (InternalKey N × Val)} {k k' : InternalKey N}
    {h h' : Nat}
    (hsub : ∀ p ∈ m, (agreeAbove p.1 k h ↔ agreeAbove p.1 k' h')) :
    bucket m k h = bucket m k' h' := by
  rw [bucket, bucket]
  refine List.filter_congr ?_
  intro p hp
  cases hB : agreeAboveB p.1 k' h'
  · cases hA : agreeAboveB p.1 k h
    · rfl
    · rw [agreeAboveB_iff] at hA
      have := (hsub p hp).mp hA
      rw [← agreeAboveB_iff] at this
      rw [this] at hB
      cases hB
  · rw [agreeAboveB_iff] at hB
    have := (hsub p hp).mpr hB
    rw [← agreeAboveB_iff] at this
    rw [this]

/-- The walk lemma: on a store that is wellformed and covering for
`m` (agreeing with the original `B₀` on all digests at least as small
as the current bucket), the update walk from the level-`h` bucket
root succeeds, collects exactly `k`'s non-zero sibling list on top of
the incoming path, removes only two-sided split digests of `k`'s own
buckets, and ends at `k`'s old leaf digest whenever `k` is bound. -/
theorem updWalk_spec {zeroV : Val} {m : List (InternalKey N × Val)} {k : InternalKey N}
    {B₀ : BranchMap N Val}
    (hsep : Sep (8 * N) m)
    (hwf : ∀ D e, B₀ D = some e → BranchWF zeroV D e)
    (hcov : Cover m B₀) :
    ∀ (fuel : Nat), ∀ (h : Nat) (B : BranchMap N Val)
      (path0 : List (Nat × Digest N Val)) (height : Nat),
    h ≤ 8 * N → h + 2 ≤ fuel →
    (∀ q ∈ path0, h ≤ q.1) →
    (∀ D', (leafListD D').length ≤ (bucket m k h).length → B D' = B₀ D') →
    (∀ b, B (subRoot h (bucket m k h)) = some b →
      height = max (InternalKey.fork_height k b.key) b.fork_height) →
    ∃ B' endD,
      updWalk k fuel B (subRoot h (bucket m k h)) height path0 =
        some (B', sibs k h (bucket m k h) ++ path0, endD) ∧
      (∀ D, B' D = B D ∨ (B' D = none ∧ SplitAt m k D)) ∧
      (∀ w, (k, w) ∈ bucket m k h → endD = .leafHash k w) := by
  intro fuel
  induction fuel with
  | zero =>
      intro h B path0 height hh hfuel
      exact absurd hfuel (by omega)
  | succ f ihf =>
      intro h B path0 height hh hfuel hpath hB hheight
      rcases hS : bucket m k h with _ | ⟨q0, rest0⟩
      · -- empty bucket: the node is zero, no entry, immediate break
        have hz : B (.zero : Digest N Val) = none := by
          rw [hB _ (by simp [leafListD])]
          exact wf_zero_none hwf
        refine ⟨B, .zero, ?_, fun D => Or.inl rfl, fun w hw =>
          absurd hw (List.not_mem_nil _)⟩
        rw [subRoot_nil, sibs_nil, List.nil_append]
        simp only [updWalk, hz]
      · cases rest0 with
        | nil =>
          -- singleton bucket: the node is the member's leaf digest
          rw [← hS]
          have hq0mem : q0 ∈ bucket m k h := by rw [hS]; exact List.mem_singleton_self q0
          have hq0m : q0 ∈ m := (mem_bucket.mp hq0mem).1
          have hq0ag := (mem_bucket.mp hq0mem).2
          have hnode : subRoot h (bucket m k h) = .leafHash q0.1 q0.2 := by
            rw [hS, subRoot_single]
          rcases hcov.1 q0 hq0m with ⟨e₀, he₀⟩
          have hlenb : (bucket m k h).length = 1 := by rw [hS]; rfl
          have hBe : B (subRoot h (bucket m k h)) = some e₀ := by
            rw [hB _ (by rw [hnode, hlenb]; simp [leafListD]), hnode]
            exact he₀
          have hepin : e₀ = ⟨0, q0.1, .leafHash q0.1 q0.2, .zero⟩ :=
            wfB_leaf_entry (hwf _ _ he₀)
          subst hepin
          have hheq : height = InternalKey.fork_height k q0.1 := by
            have := hheight _ hBe
            simpa using this
          by_cases hjk : q0.1 = k
          · -- the bound-leaf break: fork 0, node returns itself
            have hh0 : height = 0 := by
              rw [hheq, hjk, InternalKey.fork_height_self]
            subst hh0
            have hsibs : sibs k h (bucket m k h) = [] := by
              rw [hS, sibs_collapse h 0 (by omega) (fun p hp i _ hi2 => by
                have hpq : p = q0 := List.mem_singleton.mp hp
                rw [hpq, hjk])]
              rfl
            refine ⟨B, .leafHash q0.1 q0.2, ?_, fun D => Or.inl rfl, ?_⟩
            · rw [hsibs, List.nil_append]
              simp only [updWalk, hBe]
              rw [if_neg (show ¬ (0:Nat) > 0 by omega)]
              have hq0b : q0.1.get_bit 0 = k.get_bit 0 := by rw [hjk]
              simp only [BranchNode.branch]
              by_cases hkb : k.get_bit 0 = true
              · rw [if_pos hkb, hq0b, if_pos hkb]
                simp only []
                rw [if_pos hnode, if_neg (show ¬ (0:Nat) > 0 by omega), hnode]
              · rw [if_neg hkb, hq0b, if_neg hkb]
                simp only []
                rw [if_pos hnode, if_neg (show ¬ (0:Nat) > 0 by omega), hnode]
            · intro w hw
              rw [hS] at hw
              have heq := List.mem_singleton.mp hw
              rw [← heq]
          · -- unbound: q0.1 ≠ k
            have hq0ne : q0.1 ≠ k := hjk
            have hh1 : 1 ≤ h := by
              by_contra hcon
              push_neg at hcon
              have h0 : h = 0 := by omega
              subst h0
              exact hq0ne (InternalKey.ext_bits (fun i hi => hq0ag i (by omega) hi))
            obtain ⟨t, ht_def⟩ : ∃ t, InternalKey.fork_height k q0.1 = t := ⟨_, rfl⟩
            have htlt : t < h := by
              have hle : InternalKey.fork_height k q0.1 ≤ h - 1 :=
                fork_le_of_agree (fun i hi1 hi2 => (hq0ag i (by omega) hi2).symm)
              omega
            have hbt : k.get_bit t ≠ q0.1.get_bit t := by
              rw [← ht_def]
              exact InternalKey.get_bit_fork_ne (fun he => hq0ne he.symm)
            have hq0bt : q0.1.get_bit t = !(k.get_bit t) := by
              cases h1 : k.get_bit t <;> cases h2 : q0.1.get_bit t
              · exact absurd (h1.trans h2.symm) hbt
              · rfl
              · rfl
              · exact absurd (h1.trans h2.symm) hbt
            have hsibs : sibs k h (bucket m k h) = [(t, .leafHash q0.1 q0.2)] := by
              rw [hS, sibs_collapse h (t + 1) (by omega) (fun p hp i hi1 hi2 => by
                    have hpq : p = q0 := List.mem_singleton.mp hp
                    rw [hpq]
                    exact (InternalKey.agree_above_fork k q0.1
                      (by rw [ht_def]; omega) (by omega)).symm),
                sibs]
              have hmine : mineSide k t [q0] = [] := by
                rw [mineSide]
                cases hkb : k.get_bit t <;> simp [hq0bt, hkb]
              have hoth : otherSide k t [q0] = [q0] := by
                rw [otherSide]
                cases hkb : k.get_bit t <;> simp [hq0bt, hkb]
              rw [hmine, hoth, sibs_nil, subRoot_single, List.nil_append]
              rw [if_neg (show ¬((Digest.leafHash q0.1 q0.2 : Digest N Val).is_zero = true)
                from fun hz => by rw [Digest.is_zero_iff] at hz; cases hz)]
            have hheqt : height = t := by
              rw [hheq, ht_def]
            rw [hheqt]
            by_cases ht0 : t = 0
            · -- adjacent keys: descend once to the zero child
              subst ht0
              have hBz : B (.zero : Digest N Val) = none := by
                rw [hB _ (by simp [leafListD])]
                exact wf_zero_none hwf
              obtain ⟨f1, rfl⟩ : ∃ f1, f = f1 + 1 := ⟨f - 1, by omega⟩
              refine ⟨B, .zero, ?_, fun D => Or.inl rfl, ?_⟩
              · rw [hsibs, List.singleton_append]
                simp only [updWalk, hBe]
                rw [if_neg (show ¬ (0:Nat) > 0 by omega)]
                simp only [BranchNode.branch]
                by_cases hkb : k.get_bit 0 = true
                · have hq0f : q0.1.get_bit 0 = false := by rw [hq0bt, hkb]; rfl
                  rw [if_pos hkb, hq0f]
                  rw [if_neg (show ¬(false = true) by simp)]
                  simp only []
                  rw [if_neg (show ¬(subRoot h (bucket m k h) = (Digest.zero : Digest N Val))
                    from by rw [hnode]; exact fun hc => by cases hc)]
                  rw [if_neg (show ¬ (0:Nat) > 0 by omega), hBz]
                  rw [pathInsert_small (fun q hq => by have := hpath q hq; omega)]
                · have hkf : k.get_bit 0 = false := by simpa using hkb
                  have hq0t : q0.1.get_bit 0 = true := by rw [hq0bt, hkf]; rfl
                  rw [if_neg hkb, hq0t]
                  rw [if_pos (show (true = true) from rfl)]
                  simp only []
                  rw [if_neg (show ¬(subRoot h (bucket m k h) = (Digest.zero : Digest N Val))
                    from by rw [hnode]; exact fun hc => by cases hc)]
                  rw [if_neg (show ¬ (0:Nat) > 0 by omega), hBz]
                  rw [pathInsert_small (fun q hq => by have := hpath q hq; omega)]
              · intro w hw
                rw [hS] at hw
                exact absurd (congrArg Prod.fst (List.mem_singleton.mp hw)).symm hq0ne
            · -- genuine fork: break inserting the lone sibling
              refine ⟨B, .leafHash q0.1 q0.2, ?_, fun D => Or.inl rfl, ?_⟩
              · rw [hsibs, List.singleton_append]
                simp only [updWalk, hBe]
                rw [if_pos (show t > 0 by omega)]
                rw [ht_def, Nat.max_zero]
                rw [pathInsert_small (fun q hq => by have := hpath q hq; omega)]
                rw [hnode]
              · intro w hw
                rw [hS] at hw
                exact absurd (congrArg Prod.fst (List.mem_singleton.mp hw)).symm hq0ne
        | cons q1 rest1 =>
          -- two or more members: the node is an internal split
          rw [← hS]
          have hq0mem : q0 ∈ bucket m k h := by rw [hS]; simp
          have hq1mem : q1 ∈ bucket m k h := by rw [hS]; simp
          have hq01 : q0.1 ≠ q1.1 := by
            have hd := Sep_distinct (Sep_bucket (k := k) (h := h) hsep)
            rw [hS] at hd
            exact (List.pairwise_cons.mp hd).1 q1 (by simp)
          obtain ⟨hsp, hsplt, hne0, hne1, hagb, hsubeq⟩ :=
            bucket_split hh hq0mem hq1mem hq01
          have hsp8 : hsp < 8 * N := by omega
          have hSepB : Sep h (bucket m k h) := Sep_bucket hsep
          have hSepS : Sep (hsp + 1) (bucket m k h) :=
            Sep_of_distinct_agree (Sep_distinct hSepB)
              (fun p hp q hq i hi1 hi2 => hagb p hp q hq i (by omega) hi2)
          have hSep0 : Sep hsp ((bucket m k h).filter (fun p => !(p.1.get_bit hsp))) := by
            rw [filter_bit_false]
            exact Sep_filter_bit hSepS false
          have hSep1 : Sep hsp ((bucket m k h).filter (fun p => p.1.get_bit hsp)) := by
            rw [filter_bit_true]
            exact Sep_filter_bit hSepS true
          have hnodeq : subRoot h (bucket m k h) =
              mergeF (subRoot hsp ((bucket m k h).filter (fun p => !(p.1.get_bit hsp))))
                     (subRoot hsp ((bucket m k h).filter (fun p => p.1.get_bit hsp))) := by
            rw [← hsubeq]
            exact (subRoot_collapse (8 * N) h hh (fun p hp q hq i hi1 hi2 => by
              rw [(mem_bucket.mp hp).2 i hi1 hi2, (mem_bucket.mp hq).2 i hi1 hi2])).symm
          have hsplitmem : ∀ p ∈ bucket m k h,
              p ∈ (bucket m k h).filter (fun p => !(p.1.get_bit hsp)) ++
                (bucket m k h).filter (fun p => p.1.get_bit hsp) := by
            intro p hp
            cases hbit : p.1.get_bit hsp
            · exact List.mem_append_left _ (List.mem_filter.mpr ⟨hp, by simp [hbit]⟩)
            · exact List.mem_append_right _ (List.mem_filter.mpr ⟨hp, by simp [hbit]⟩)
          have hbq0 : bucket m q0.1 (hsp + 1) = bucket m k h := by
            refine bucket_congr2 ?_
            intro p hp
            constructor
            · intro hA i hi1 hi2
              rw [hA i (by omega) hi2]
              exact (mem_bucket.mp hq0mem).2 i hi1 hi2
            · intro hA i hi1 hi2
              exact hagb p (mem_bucket.mpr ⟨hp, hA⟩) q0 hq0mem i (by omega) hi2
          rcases hcov.2 q0.1 hsp hsp8 (by rw [hbq0]; exact hne0) (by rw [hbq0]; exact hne1)
            with ⟨e₀, he₀⟩
          rw [hbq0] at he₀
          have hlenn : (leafListD (subRoot h (bucket m k h))).length =
              (bucket m k h).length := leafListD_length hSepB
          have hBe : B (subRoot h (bucket m k h)) = some e₀ := by
            rw [hB _ (le_of_eq hlenn), hnodeq]
            exact he₀
          obtain ⟨hfork, hbranch, hagkey⟩ :=
            wfB_node_entry (hwf _ _ he₀) hne0 hne1 hSep0 hSep1
              (fun p hp => by simpa using (List.mem_filter.mp hp).2)
              (fun p hp => (List.mem_filter.mp hp).2)
              (fun p hp q hq i hi1 hi2 => by
                have hp' : p ∈ bucket m k h := by
                  rcases List.mem_append.mp hp with h1 | h1 <;>
                    exact List.mem_of_mem_filter h1
                have hq' : q ∈ bucket m k h := by
                  rcases List.mem_append.mp hq with h1 | h1 <;>
                    exact List.mem_of_mem_filter h1
                exact hagb p hp' q hq' i hi1 hi2)
              hsp8
          obtain ⟨t, ht_def⟩ : ∃ t, InternalKey.fork_height k e₀.key = t := ⟨_, rfl⟩
          have hothne : otherSide k hsp (bucket m k h) ≠ [] := by
            rw [otherSide]
            cases hkb : k.get_bit hsp
            · simpa using hne1
            · simpa using hne0
          by_cases hdesc : t ≤ hsp
          · -- DESCEND into k's side of the split
            have hheq : height = hsp := by
              have hx := hheight _ hBe
              rw [ht_def, hfork, Nat.max_eq_right hdesc] at hx
              exact hx
            rw [hheq]
            have hagk : ∀ p ∈ bucket m k h, ∀ i, hsp < i → i < 8 * N →
                p.1.get_bit i = k.get_bit i := by
              intro p hp i hi1 hi2
              rw [hagkey p (hsplitmem p hp) i hi1 hi2]
              exact (InternalKey.agree_above_fork k e₀.key (by omega) hi2).symm
            have hbeq : bucket m k (hsp + 1) = bucket m k h :=
              bucket_above (by omega) (fun p hp i hi1 hi2 => hagk p hp i (by omega) hi2)
            have hbhsp : bucket m k hsp = mineSide k hsp (bucket m k h) := by
              rw [← hbeq]
              exact (mineSide_bucket m k hsp hsp8).symm
            have hsibs0 : sibs k h (bucket m k h) =
                sibs k hsp (bucket m k hsp) ++
                  [(hsp, subRoot hsp (otherSide k hsp (bucket m k h)))] := by
              rw [sibs_collapse h (hsp + 1) (by omega)
                    (fun p hp i hi1 hi2 => hagk p hp i (by omega) (by omega)),
                  sibs, ← hbhsp]
              rw [if_neg (show ¬((subRoot hsp (otherSide k hsp (bucket m k h))).is_zero = true)
                from fun hz => hothne (subRoot_eq_zero_iff.mp ((Digest.is_zero_iff _).mp hz)))]
            have hminne : bucket m k hsp ≠ [] := by
              rw [hbhsp, mineSide]
              cases hkb : k.get_bit hsp
              · simpa using hne0
              · simpa using hne1
            have hlen1 : ((bucket m k h).filter (fun p => p.1.get_bit hsp)).length +
                ((bucket m k h).filter (fun p => !(p.1.get_bit hsp))).length =
                (bucket m k h).length := by
              have := filter_length_split (bucket m k h) (fun p => p.1.get_bit hsp)
              simpa using this
            have hlensplit : (bucket m k hsp).length < (bucket m k h).length := by
              cases hkb : k.get_bit hsp
              · have h2 : 0 < ((bucket m k h).filter (fun p => p.1.get_bit hsp)).length :=
                  List.length_pos.mpr hne1
                rw [hbhsp, mineSide, if_neg (by simp [hkb])]
                omega
              · have h2 : 0 < ((bucket m k h).filter (fun p => !(p.1.get_bit hsp))).length :=
                  List.length_pos.mpr hne0
                rw [hbhsp, mineSide, if_pos hkb]
                omega
            have hBnew : ∀ D', (leafListD D').length ≤ (bucket m k hsp).length →
                (if hsp > 0 then mapRemove B (subRoot h (bucket m k h)) else B) D' =
                  B₀ D' := by
              intro D' hD'
              have hle : (leafListD D').length ≤ (bucket m k h).length := by omega
              by_cases hsp0 : hsp > 0
              · rw [if_pos hsp0]
                simp only [mapRemove]
                rw [if_neg (fun hDeq => by
                  rw [hDeq, hlenn] at hD'
                  omega)]
                exact hB D' hle
              · rw [if_neg hsp0]
                exact hB D' hle
            have hz0 : subRoot hsp ((bucket m k h).filter (fun p => !(p.1.get_bit hsp))) ≠
                (.zero : Digest N Val) := fun hz => hne0 (subRoot_eq_zero_iff.mp hz)
            have hz1 : subRoot hsp ((bucket m k h).filter (fun p => p.1.get_bit hsp)) ≠
                (.zero : Digest N Val) := fun hz => hne1 (subRoot_eq_zero_iff.mp hz)
            cases hkb : k.get_bit hsp
            · -- left child is k's side
              have hmine' : mineSide k hsp (bucket m k h) =
                  (bucket m k h).filter (fun p => !(p.1.get_bit hsp)) := by
                rw [mineSide, if_neg (by simp [hkb])]
              have hoth' : otherSide k hsp (bucket m k h) =
                  (bucket m k h).filter (fun p => p.1.get_bit hsp) := by
                rw [otherSide, if_neg (by simp [hkb])]
              have hnode' : subRoot hsp (bucket m k hsp) =
                  subRoot hsp ((bucket m k h).filter (fun p => !(p.1.get_bit hsp))) := by
                rw [hbhsp, hmine']
              obtain ⟨B', endD, hrun, hrel, hend⟩ :=
                ihf hsp (if hsp > 0 then mapRemove B (subRoot h (bucket m k h)) else B)
                  ((hsp, subRoot hsp ((bucket m k h).filter (fun p => p.1.get_bit hsp)))
                    :: path0)
                  (match (if hsp > 0 then mapRemove B (subRoot h (bucket m k h)) else B)
                      (subRoot hsp (bucket m k hsp)) with
                   | some bn => max (InternalKey.fork_height k bn.key) bn.fork_height
                   | none => hsp)
                  (by omega) (by omega)
                  (fun q hq => by
                    rcases List.mem_cons.mp hq with rfl | hq'
                    · exact Nat.le_refl _
                    · have := hpath q hq'
                      omega)
                  hBnew
                  (fun b hb => by rw [hb])
              refine ⟨B', endD, ?_, ?_, ?_⟩
              · rw [hsibs0, hoth', List.append_assoc, List.singleton_append]
                simp only [updWalk, hBe, hfork, hbranch]
                rw [if_neg (show ¬ hsp > hsp by omega)]
                rw [if_neg (by simp [hkb])]
                rw [if_neg (show ¬(subRoot h (bucket m k h) =
                    subRoot hsp ((bucket m k h).filter (fun p => !(p.1.get_bit hsp))))
                  from by
                    rw [hnodeq, mergeF_nonzero hz0 hz1]
                    exact (ne_nodeHash_left _ _).symm)]
                rw [pathInsert_small (fun q hq => by have := hpath q hq; omega)]
                rw [← hnode']
                exact hrun
              · intro D
                rcases hrel D with hD | hD
                · by_cases hsp0 : hsp > 0
                  · rw [if_pos hsp0] at hD
                    by_cases hDn : D = subRoot h (bucket m k h)
                    · subst hDn
                      right
                      refine ⟨by rw [hD]; simp [mapRemove], hsp, hsp8, ?_, ?_, ?_⟩
                      · rw [hbeq]; exact hne0
                      · rw [hbeq]; exact hne1
                      · rw [hbeq]; exact hnodeq
                    · left
                      rw [hD]
                      simp [mapRemove, hDn]
                  · rw [if_neg hsp0] at hD
                    left
                    exact hD
                · right
                  exact hD
              · intro w hw
                refine hend w ?_
                exact mem_bucket.mpr ⟨(mem_bucket.mp hw).1, fun i _ _ => rfl⟩
            · -- right child is k's side
              have hmine' : mineSide k hsp (bucket m k h) =
                  (bucket m k h).filter (fun p => p.1.get_bit hsp) := by
                rw [mineSide, if_pos hkb]
              have hoth' : otherSide k hsp (bucket m k h) =
                  (bucket m k h).filter (fun p => !(p.1.get_bit hsp)) := by
                rw [otherSide, if_pos hkb]
              have hnode' : subRoot hsp (bucket m k hsp) =
                  subRoot hsp ((bucket m k h).filter (fun p => p.1.get_bit hsp)) := by
                rw [hbhsp, hmine']
              obtain ⟨B', endD, hrun, hrel, hend⟩ :=
                ihf hsp (if hsp > 0 then mapRemove B (subRoot h (bucket m k h)) else B)
                  ((hsp, subRoot hsp ((bucket m k h).filter (fun p => !(p.1.get_bit hsp))))
                    :: path0)
                  (match (if hsp > 0 then mapRemove B (subRoot h (bucket m k h)) else B)
                      (subRoot hsp (bucket m k hsp)) with
                   | some bn => max (InternalKey.fork_height k bn.key) bn.fork_height
                   | none => hsp)
                  (by omega) (by omega)
                  (fun q hq => by
                    rcases List.mem_cons.mp hq with rfl | hq'
                    · exact Nat.le_refl _
                    · have := hpath q hq'
                      omega)
                  hBnew
                  (fun b hb => by rw [hb])
              refine ⟨B', endD, ?_, ?_, ?_⟩
              · rw [hsibs0, hoth', List.append_assoc, List.singleton_append]
                simp only [updWalk, hBe, hfork, hbranch]
                rw [if_neg (show ¬ hsp > hsp by omega)]
                rw [if_pos hkb]
                rw [if_neg (show ¬(subRoot h (bucket m k h) =
                    subRoot hsp ((bucket m k h).filter (fun p => p.1.get_bit hsp)))
                  from by
                    rw [hnodeq, mergeF_nonzero hz0 hz1]
                    exact (ne_nodeHash_right _ _).symm)]
                rw [pathInsert_small (fun q hq => by have := hpath q hq; omega)]
                rw [← hnode']
                exact hrun
              · intro D
                rcases hrel D with hD | hD
                · by_cases hsp0 : hsp > 0
                  · rw [if_pos hsp0] at hD
                    by_cases hDn : D = subRoot h (bucket m k h)
                    · subst hDn
                      right
                      refine ⟨by rw [hD]; simp [mapRemove], hsp, hsp8, ?_, ?_, ?_⟩
                      · rw [hbeq]; exact hne0
                      · rw [hbeq]; exact hne1
                      · rw [hbeq]; exact hnodeq
                    · left
                      rw [hD]
                      simp [mapRemove, hDn]
                  · rw [if_neg hsp0] at hD
                    left
                    exact hD
                · right
                  exact hD
              · intro w hw
                refine hend w ?_
                exact mem_bucket.mpr ⟨(mem_bucket.mp hw).1, fun i _ _ => rfl⟩
          · -- DIVERGE: k leaves the common prefix strictly above the split
            push_neg at hdesc
            have hheq : height = t := by
              have hx := hheight _ hBe
              rw [ht_def, hfork, Nat.max_eq_left (by omega)] at hx
              exact hx
            rw [hheq]
            have hkey_ne : k ≠ e₀.key := by
              intro he
              rw [he, InternalKey.fork_height_self] at ht_def
              omega
            have hagkt : ∀ p ∈ bucket m k h, ∀ i, t < i → i < 8 * N →
                p.1.get_bit i = k.get_bit i := by
              intro p hp i hi1 hi2
              rw [hagkey p (hsplitmem p hp) i (by omega) hi2]
              exact (InternalKey.agree_above_fork k e₀.key (by omega) hi2).symm
            have htlt : t < h := by
              have hle : InternalKey.fork_height k e₀.key ≤ h - 1 := by
                refine fork_le_of_agree ?_
                intro i hi1 hi2
                rw [← hagkey q0 (hsplitmem q0 hq0mem) i (by omega) hi2]
                exact ((mem_bucket.mp hq0mem).2 i (by omega) hi2).symm
              omega
            have ht8 : t < 8 * N := by omega
            have hbt : k.get_bit t ≠ e₀.key.get_bit t := by
              rw [← ht_def]
              exact InternalKey.get_bit_fork_ne hkey_ne
            have hbitall : ∀ p ∈ bucket m k h, p.1.get_bit t ≠ k.get_bit t := by
              intro p hp
              rw [hagkey p (hsplitmem p hp) t (by omega) ht8]
              exact fun hcon => hbt hcon.symm
            have hothfull : otherSide k t (bucket m k h) = bucket m k h := by
              cases hkb : k.get_bit t
              · rw [otherSide, if_neg (by simp [hkb]), List.filter_eq_self]
                intro p hp
                have hx := hbitall p hp
                rw [hkb] at hx
                cases hpb : p.1.get_bit t
                · exact absurd hpb hx
                · rfl
              · rw [otherSide, if_pos hkb, List.filter_eq_self]
                intro p hp
                have hx := hbitall p hp
                rw [hkb] at hx
                cases hpb : p.1.get_bit t
                · rfl
                · exact absurd hpb hx
            have hminefull : mineSide k t (bucket m k h) = [] := by
              cases hkb : k.get_bit t
              · rw [mineSide, if_neg (by simp [hkb]), List.filter_eq_nil_iff]
                intro p hp
                have hx := hbitall p hp
                rw [hkb] at hx
                cases hpb : p.1.get_bit t
                · exact absurd hpb hx
                · simp
              · rw [mineSide, if_pos hkb, List.filter_eq_nil_iff]
                intro p hp
                have hx := hbitall p hp
                rw [hkb] at hx
                cases hpb : p.1.get_bit t
                · simp [hpb]
                · exact absurd hpb hx
            have hcoll : subRoot t (bucket m k h) = subRoot h (bucket m k h) :=
              (subRoot_collapse h t (by omega)
                (fun p hp q hq i hi1 hi2 => hagb p hp q hq i (by omega) (by omega))).symm
            have hsibs1 : sibs k h (bucket m k h) =
                [(t, subRoot h (bucket m k h))] := by
              rw [sibs_collapse h (t + 1) (by omega)
                    (fun p hp i hi1 hi2 => hagkt p hp i (by omega) (by omega)),
                  sibs, hminefull, hothfull, sibs_nil, List.nil_append, hcoll]
              rw [if_neg (show ¬((subRoot h (bucket m k h)).is_zero = true) from fun hz => by
                have hx := subRoot_eq_zero_iff.mp ((Digest.is_zero_iff _).mp hz)
                rw [hS] at hx
                exact absurd hx (by simp))]
            refine ⟨B, subRoot h (bucket m k h), ?_, fun D => Or.inl rfl, ?_⟩
            · rw [hsibs1]
              simp only [updWalk, hBe, hfork, ht_def]
              rw [if_pos (show t > hsp by omega)]
              rw [Nat.max_eq_left (by omega)]
              rw [pathInsert_small (fun q hq => by have := hpath q hq; omega)]
              rfl
            · intro w hw
              exfalso
              have hle : InternalKey.fork_height k e₀.key ≤ hsp := by
                refine fork_le_of_agree ?_
                intro i hi1 hi2
                exact hagkey (k, w) (hsplitmem _ hw) i hi1 hi2
              omega

theorem buildUp_append (k : InternalKey N) (l1 l2 : List (Nat × Digest N Val))
    (node : Digest N Val) (acc : BranchMap N Val) :
    buildUp k (l1 ++ l2) node acc =
      buildUp k l2 (buildUp k l1 node acc).1 (buildUp k l1 node acc).2 := by
  induction l1 generalizing node acc with
  | nil => rfl
  | cons q rest ih =>
      rw [List.cons_append, buildUp, buildUp]
      exact ih _ _

/-- Every key of the level-0 bucket is `k` itself. -/
theorem bucket_zero_key {μ : List (InternalKey N × Val)} {k : InternalKey N}
    {p : InternalKey N × Val} (hp : p ∈ bucket μ k 0) : p.1 = k :=
  InternalKey.ext_bits (fun i hi => (mem_bucket.mp hp).2 i (by omega) hi)

/-- The level-0 bucket of the updated list is exactly the new binding
(or empty on delete), so the canonical start node is the new leaf
hash. -/
theorem subRoot_zero_updList (zeroV v : Val) (m : List (InternalKey N × Val))
    (k : InternalKey N) :
    subRoot 0 (bucket (updList zeroV m k v) k 0) = hash_leafF zeroV k v := by
  rw [bucket_updList, updList]
  have hfil : (bucket m k 0).filter (fun p => p.1 != k) = [] := by
    rw [List.filter_eq_nil_iff]
    intro p hp
    simp [bucket_zero_key hp]
  rw [hfil, List.append_nil, hash_leafF]
  by_cases hv : v = zeroV
  · rw [if_pos hv, if_pos hv]
    rfl
  · rw [if_neg hv, if_neg hv]
    rfl

/-- The bottom-up rebuild along `k`'s sibling list of `μ`: recomputes
the canonical sub-roots, inserts only wellformed entries, and covers
every two-sided split along `k`'s path. -/
theorem buildUp_run {zeroV : Val} {μ : List (InternalKey N × Val)} {k : InternalKey N}
    (hsep : Sep (8 * N) μ) (hvals : ValsOk zeroV μ) :
    ∀ (h : Nat) (Bacc : BranchMap N Val), h ≤ 8 * N →
    (buildUp k (sibs k h (bucket μ k h)) (subRoot 0 (bucket μ k 0)) Bacc).1 =
      subRoot h (bucket μ k h) ∧
    (∀ D, (buildUp k (sibs k h (bucket μ k h)) (subRoot 0 (bucket μ k 0)) Bacc).2 D =
        Bacc D ∨
      ∃ e, (buildUp k (sibs k h (bucket μ k h)) (subRoot 0 (bucket μ k 0)) Bacc).2 D =
        some e ∧ BranchWF zeroV D e) ∧
    (∀ t, t < h → otherSide k t (bucket μ k (t + 1)) ≠ [] → bucket μ k t ≠ [] →
      ∃ e, (buildUp k (sibs k h (bucket μ k h)) (subRoot 0 (bucket μ k 0)) Bacc).2
        (subRoot (t + 1) (bucket μ k (t + 1))) = some e) := by
  intro h
  induction h with
  | zero =>
      intro Bacc _
      refine ⟨rfl, fun D => Or.inl rfl, ?_⟩
      intro t ht
      omega
  | succ n ih =>
      intro Bacc hn
      have hn' : n < 8 * N := by omega
      have hsibs : sibs k (n + 1) (bucket μ k (n + 1)) =
          sibs k n (bucket μ k n) ++
            (if (subRoot n (otherSide k n (bucket μ k (n + 1)))).is_zero then []
             else [(n, subRoot n (otherSide k n (bucket μ k (n + 1))))]) := by
        rw [sibs, mineSide_bucket _ _ _ hn']
      obtain ⟨ih1, ih2, ih3⟩ := ih Bacc (by omega)
      have hsub1 : subRoot (n + 1) (bucket μ k (n + 1)) =
          mergeF (subRoot n ((bucket μ k (n + 1)).filter (fun p => !(p.1.get_bit n))))
                 (subRoot n ((bucket μ k (n + 1)).filter (fun p => p.1.get_bit n))) := rfl
      have hSepS : Sep (n + 1) (bucket μ k (n + 1)) := Sep_bucket hsep
      have hSep0 : Sep n ((bucket μ k (n + 1)).filter (fun p => !(p.1.get_bit n))) := by
        rw [filter_bit_false]
        exact Sep_filter_bit hSepS false
      have hSep1 : Sep n ((bucket μ k (n + 1)).filter (fun p => p.1.get_bit n)) := by
        rw [filter_bit_true]
        exact Sep_filter_bit hSepS true
      rw [hsibs, buildUp_append, ih1]
      by_cases hz : (subRoot n (otherSide k n (bucket μ k (n + 1)))).is_zero = true
      · -- one-sided level: nothing to merge or store
        rw [if_pos hz]
        have hoth0 : otherSide k n (bucket μ k (n + 1)) = [] :=
          subRoot_eq_zero_iff.mp ((Digest.is_zero_iff _).mp hz)
        have hstep : subRoot n (bucket μ k n) = subRoot (n + 1) (bucket μ k (n + 1)) := by
          rw [hsub1, ← mineSide_bucket μ k n hn']
          cases hkb : k.get_bit n
          · rw [mineSide, if_neg (by simp [hkb])]
            rw [show (bucket μ k (n + 1)).filter (fun p => p.1.get_bit n) = [] from by
              have := hoth0
              rw [otherSide, if_neg (by simp [hkb])] at this
              exact this]
            rw [subRoot_nil, mergeF_zero_right]
          · rw [mineSide, if_pos hkb]
            rw [show (bucket μ k (n + 1)).filter (fun p => !(p.1.get_bit n)) = [] from by
              have := hoth0
              rw [otherSide, if_pos hkb] at this
              exact this]
            rw [subRoot_nil, mergeF_zero_left]
        refine ⟨hstep, ih2, ?_⟩
        intro t ht hothne hbne
        rcases Nat.lt_succ_iff_lt_or_eq.mp ht with ht' | ht'
        · exact ih3 t ht' hothne hbne
        · subst ht'
          exact absurd hoth0 hothne
      · -- two-sided level: merge and store the rebuilt branch
        rw [if_neg hz]
        have hothne : otherSide k n (bucket μ k (n + 1)) ≠ [] :=
          fun hc => hz (by rw [hc, subRoot_nil]; rfl)
        rw [buildUp, buildUp]
        have hmine : bucket μ k n = mineSide k n (bucket μ k (n + 1)) :=
          (mineSide_bucket μ k n hn').symm
        -- the parent digest is the level-(n+1) sub-root, in both orientations
        have hpar : (if k.get_bit n then
            mergeF (subRoot n (otherSide k n (bucket μ k (n + 1))))
              (subRoot n (bucket μ k n))
            else mergeF (subRoot n (bucket μ k n))
              (subRoot n (otherSide k n (bucket μ k (n + 1))))) =
            subRoot (n + 1) (bucket μ k (n + 1)) := by
          rw [hsub1, hmine]
          cases hkb : k.get_bit n
          · rw [if_neg (show ¬(false = true) by simp), mineSide, if_neg (by simp [hkb]),
              otherSide, if_neg (by simp [hkb])]
          · rw [if_pos (show (true = true) from rfl), mineSide, if_pos hkb,
              otherSide, if_pos hkb]
        by_cases hz0 : (subRoot n (bucket μ k n)).is_zero = true
        · -- running node still zero: no insertion
          rw [if_pos hz0]
          constructor
          · exact hpar
          · refine ⟨ih2, ?_⟩
            intro t ht hothne' hbne
            rcases Nat.lt_succ_iff_lt_or_eq.mp ht with ht' | ht'
            · exact ih3 t ht' hothne' hbne
            · subst ht'
              exact absurd (subRoot_eq_zero_iff.mp ((Digest.is_zero_iff _).mp hz0)) hbne
        · -- insert the rebuilt branch at the parent digest
          rw [if_neg hz0]
          have hbne : bucket μ k n ≠ [] :=
            fun hc => hz0 (by rw [hc, subRoot_nil]; rfl)
          have hwfe : BranchWF zeroV (subRoot (n + 1) (bucket μ k (n + 1)))
              ⟨n, k, subRoot n (bucket μ k n),
               subRoot n (otherSide k n (bucket μ k (n + 1)))⟩ := by
            refine Or.inr ⟨n, (bucket μ k (n + 1)).filter (fun p => !(p.1.get_bit n)),
              (bucket μ k (n + 1)).filter (fun p => p.1.get_bit n),
              hn', hSep0, hSep1, ?_, ?_, ?_, ?_, ?_, ?_, ?_, rfl, hsub1, ?_⟩
            · intro p hp
              exact hvals p (mem_bucket.mp (List.mem_of_mem_filter hp)).1
            · intro p hp
              exact hvals p (mem_bucket.mp (List.mem_of_mem_filter hp)).1
            · cases hkb : k.get_bit n
              · rw [← show mineSide k n (bucket μ k (n + 1)) =
                    (bucket μ k (n + 1)).filter (fun p => !(p.1.get_bit n)) from by
                  rw [mineSide, if_neg (by simp [hkb])]]
                rw [← hmine]
                exact hbne
              · rw [← show otherSide k n (bucket μ k (n + 1)) =
                    (bucket μ k (n + 1)).filter (fun p => !(p.1.get_bit n)) from by
                  rw [otherSide, if_pos hkb]]
                exact hothne
            · cases hkb : k.get_bit n
              · rw [← show otherSide k n (bucket μ k (n + 1)) =
                    (bucket μ k (n + 1)).filter (fun p => p.1.get_bit n) from by
                  rw [otherSide, if_neg (by simp [hkb])]]
                exact hothne
              · rw [← show mineSide k n (bucket μ k (n + 1)) =
                    (bucket μ k (n + 1)).filter (fun p => p.1.get_bit n) from by
                  rw [mineSide, if_pos hkb]]
                rw [← hmine]
                exact hbne
            · intro p hp
              simpa using (List.mem_filter.mp hp).2
            · intro p hp
              exact (List.mem_filter.mp hp).2
            · intro p hp i hi1 hi2
              have hp' : p ∈ bucket μ k (n + 1) := by
                rcases List.mem_append.mp hp with h1 | h1 <;>
                  exact List.mem_of_mem_filter h1
              exact (mem_bucket.mp hp').2 i (by omega) hi2
            · cases hkb : k.get_bit n
              · refine Or.inr ⟨rfl, ?_, ?_⟩
                · rw [hmine, mineSide, if_neg (by simp [hkb])]
                · rw [otherSide, if_neg (by simp [hkb])]
              · refine Or.inl ⟨rfl, ?_, ?_⟩
                · rw [hmine, mineSide, if_pos hkb]
                · rw [otherSide, if_pos hkb]
          refine ⟨hpar, ?_, ?_⟩
          · intro D
            by_cases hD : D = (if k.get_bit n then
                mergeF (subRoot n (otherSide k n (bucket μ k (n + 1))))
                  (subRoot n (bucket μ k n))
                else mergeF (subRoot n (bucket μ k n))
                  (subRoot n (otherSide k n (bucket μ k (n + 1)))))
            · right
              refine ⟨⟨n, k, subRoot n (bucket μ k n),
                subRoot n (otherSide k n (bucket μ k (n + 1)))⟩, ?_, ?_⟩
              · simp only [mapInsert]
                rw [if_pos hD]
              · rw [hD, hpar]
                exact hwfe
            · have hmi : mapInsert
                  (buildUp k (sibs k n (bucket μ k n)) (subRoot 0 (bucket μ k 0)) Bacc).2
                  (if k.get_bit n then
                    mergeF (subRoot n (otherSide k n (bucket μ k (n + 1))))
                      (subRoot n (bucket μ k n))
                    else mergeF (subRoot n (bucket μ k n))
                      (subRoot n (otherSide k n (bucket μ k (n + 1)))))
                  ⟨n, k, subRoot n (bucket μ k n),
                   subRoot n (otherSide k n (bucket μ k (n + 1)))⟩ D =
                  (buildUp k (sibs k n (bucket μ k n))
                    (subRoot 0 (bucket μ k 0)) Bacc).2 D := by
                simp only [mapInsert]
                rw [if_neg hD]
              simp only []
              rw [hmi]
              exact ih2 D
          · intro t ht hothne' hbne'
            rcases Nat.lt_succ_iff_lt_or_eq.mp ht with ht' | ht'
            · rcases ih3 t ht' hothne' hbne' with ⟨e, he⟩
              by_cases hD : subRoot (t + 1) (bucket μ k (t + 1)) =
                  (if k.get_bit n then
                    mergeF (subRoot n (otherSide k n (bucket μ k (n + 1))))
                      (subRoot n (bucket μ k n))
                    else mergeF (subRoot n (bucket μ k n))
                      (subRoot n (otherSide k n (bucket μ k (n + 1)))))
              · refine ⟨⟨n, k, subRoot n (bucket μ k n),
                  subRoot n (otherSide k n (bucket μ k (n + 1)))⟩, ?_⟩
                simp only [mapInsert]
                rw [if_pos hD]
              · refine ⟨e, ?_⟩
                simp only [mapInsert]
                rw [if_neg hD]
                exact he
            · subst ht'
              refine ⟨⟨t, k, subRoot t (bucket μ k t),
                subRoot t (otherSide k t (bucket μ k (t + 1)))⟩, ?_⟩
              simp only [mapInsert]
              rw [if_pos (by rw [hpar])]

/-- Updating `k`'s binding leaves buckets off `k`'s cylinder
unchanged. -/
theorem bucket_offpath {zeroV v : Val} {m : List (InternalKey N × Val)}
    {k k' : InternalKey N} {l : Nat}
    (hna : ¬ agreeAbove k k' l) :
    bucket (updList zeroV m k v) k' l = bucket m k' l := by
  rw [bucket, bucket, updList, List.filter_append]
  have hagf : agreeAboveB k k' l = false := by
    cases hb : agreeAboveB k k' l
    · rfl
    · exact absurd (agreeAboveB_iff.mp hb) hna
  have h1 : (if v = zeroV then ([] : List (InternalKey N × Val)) else [(k, v)]).filter
      (fun p => agreeAboveB p.1 k' l) = [] := by
    by_cases hv : v = zeroV
    · simp [hv]
    · rw [if_neg hv]
      simp [hagf]
  rw [h1, List.nil_append, List.filter_filter]
  refine List.filter_congr ?_
  intro p hp
  cases hb : agreeAboveB p.1 k' l
  · simp [hb]
  · have hpk : p.1 ≠ k := by
      intro he
      rw [he, hagf] at hb
      cases hb
    simp [hb, hpk]

/-- Assembly of the invariant for the rebuilt tree: given a
post-delete store that is wellformed, has every leaf self-branch, the
off-path split entries, and the exact leaf map of the new binding
list, the buildUp pass completes a full `Inv`. -/
theorem inv_assemble {zeroV : Val} {m : List (InternalKey N × Val)} {k : InternalKey N}
    {v : Val} {B₂ : BranchMap N Val} {L₂ : LeafMap N Val}
    (hsep : Sep (8 * N) m) (hvals : ValsOk zeroV m)
    (hL₂ : ∀ D, L₂ D = lookupLeafD (updList zeroV m k v) D)
    (hB₂wf : ∀ D e, B₂ D = some e → BranchWF zeroV D e)
    (hB₂leaf : ∀ p ∈ updList zeroV m k v, B₂ (.leafHash p.1 p.2) ≠ none)
    (hB₂off : ∀ (k' : InternalKey N) (h' : Nat), h' < 8 * N →
      ¬ agreeAbove k k' (h' + 1) →
      (bucket (updList zeroV m k v) k' (h' + 1)).filter
        (fun p => !(p.1.get_bit h')) ≠ [] →
      (bucket (updList zeroV m k v) k' (h' + 1)).filter
        (fun p => p.1.get_bit h') ≠ [] →
      B₂ (mergeF
        (subRoot h' ((bucket (updList zeroV m k v) k' (h' + 1)).filter
          (fun p => !(p.1.get_bit h'))))
        (subRoot h' ((bucket (updList zeroV m k v) k' (h' + 1)).filter
          (fun p => p.1.get_bit h')))) ≠ none) :
    Inv zeroV (updList zeroV m k v)
      ⟨(buildUp k (sibs k (8 * N) (bucket (updList zeroV m k v) k (8 * N)))
          (subRoot 0 (bucket (updList zeroV m k v) k 0)) B₂).2,
       L₂,
       (buildUp k (sibs k (8 * N) (bucket (updList zeroV m k v) k (8 * N)))
          (subRoot 0 (bucket (updList zeroV m k v) k 0)) B₂).1⟩ := by
  have hsep' : Sep (8 * N) (updList zeroV m k v) := updList_sep hsep
  have hvals' : ValsOk zeroV (updList zeroV m k v) :=
    updList_valsOk hvals
  obtain ⟨hr1, hr2, hr3⟩ := buildUp_run hsep' hvals' (8 * N) B₂
    (Nat.le_refl _)
  refine ⟨hsep', hvals', ?_, hL₂, ?_, ?_, ?_⟩
  · -- root
    show (buildUp _ _ _ _).1 = _
    rw [hr1, bucket_top]
  · -- wellformedness of every final entry
    intro D e he
    replace he : (buildUp k (sibs k (8 * N) (bucket (updList zeroV m k v) k (8 * N)))
        (subRoot 0 (bucket (updList zeroV m k v) k 0)) B₂).2 D = some e := he
    rcases hr2 D with hD | ⟨e', he', hwf'⟩
    · rw [hD] at he
      exact hB₂wf D e he
    · rw [he'] at he
      injection he with he2
      rw [← he2]
      exact hwf'
  · -- leaf cover
    intro p hp
    have h2 := hB₂leaf p hp
    show ∃ e, (buildUp k (sibs k (8 * N) (bucket (updList zeroV m k v) k (8 * N)))
        (subRoot 0 (bucket (updList zeroV m k v) k 0)) B₂).2
      (.leafHash p.1 p.2) = some e
    rcases hr2 (.leafHash p.1 p.2) with hD | ⟨e', he', _⟩
    · rw [hD]
      cases hB : B₂ (.leafHash p.1 p.2) with
      | none => exact absurd hB h2
      | some e => exact ⟨e, rfl⟩
    · exact ⟨e', he'⟩
  · -- split cover
    intro k' h' hh' hne0 hne1
    show ∃ e, (buildUp k (sibs k (8 * N) (bucket (updList zeroV m k v) k (8 * N)))
        (subRoot 0 (bucket (updList zeroV m k v) k 0)) B₂).2
      (mergeF
        (subRoot h' ((bucket (updList zeroV m k v) k' (h' + 1)).filter
          (fun p => !(p.1.get_bit h'))))
        (subRoot h' ((bucket (updList zeroV m k v) k' (h' + 1)).filter
          (fun p => p.1.get_bit h')))) = some e
    by_cases hag : agreeAbove k k' (h' + 1)
    · -- on k's cylinder: the buildUp pass stored the rebuilt entry
      have hbeq : bucket (updList zeroV m k v) k' (h' + 1) =
          bucket (updList zeroV m k v) k (h' + 1) := by
        refine bucket_congr2 ?_
        intro p hp
        constructor
        · intro hA i hi1 hi2
          rw [hA i hi1 hi2, ← hag i (by omega) hi2]
        · intro hA i hi1 hi2
          rw [hA i hi1 hi2, hag i (by omega) hi2]
      rw [hbeq] at hne0 hne1 ⊢
      have hoth : otherSide k h' (bucket (updList zeroV m k v) k (h' + 1)) ≠ [] := by
        cases hkb : k.get_bit h'
        · rw [otherSide, if_neg (by simp [hkb])]
          exact hne1
        · rw [otherSide, if_pos hkb]
          exact hne0
      have hbne : bucket (updList zeroV m k v) k h' ≠ [] := by
        cases hkb : k.get_bit h'
        · rw [← mineSide_bucket _ _ _ hh', mineSide, if_neg (by simp [hkb])]
          exact hne0
        · rw [← mineSide_bucket _ _ _ hh', mineSide, if_pos hkb]
          exact hne1
      exact hr3 h' hh' hoth hbne
    · -- off the cylinder: the old entry survives in `B₂`
      have h2 := hB₂off k' h' hh' hag hne0 hne1
      rcases hr2 (mergeF
        (subRoot h' ((bucket (updList zeroV m k v) k' (h' + 1)).filter
          (fun p => !(p.1.get_bit h'))))
        (subRoot h' ((bucket (updList zeroV m k v) k' (h' + 1)).filter
          (fun p => p.1.get_bit h')))) with hD | ⟨e', he', _⟩
      · rw [hD]
        cases hB : B₂ (mergeF
          (subRoot h' ((bucket (updList zeroV m k v) k' (h' + 1)).filter
            (fun p => !(p.1.get_bit h'))))
          (subRoot h' ((bucket (updList zeroV m k v) k' (h' + 1)).filter
            (fun p => p.1.get_bit h')))) with
        | none => exact absurd hB h2
        | some e => exact ⟨e, rfl⟩
      · exact ⟨e', he'⟩

theorem key_unique {m : List (InternalKey N × Val)} {k : InternalKey N} {u w : Val}
    (hdist : m.Pairwise (fun a b => a.1 ≠ b.1)) (hu : (k, u) ∈ m) (hw : (k, w) ∈ m) :
    u = w := by
  induction m with
  | nil => cases hu
  | cons q rest ih =>
      rcases List.mem_cons.mp hu with h1 | h1
      · rcases List.mem_cons.mp hw with h2 | h2
        · injection h1.trans h2.symm with ha hb
        · exact absurd (by rw [← h1]) ((List.pairwise_cons.mp hdist).1 (k, w) h2)
      · rcases List.mem_cons.mp hw with h2 | h2
        · exact absurd (by rw [← h2]) ((List.pairwise_cons.mp hdist).1 (k, u) h1)
        · exact ih (List.pairwise_cons.mp hdist).2 h1 h2

theorem lookupLeafD_updList (zeroV v : Val) (m : List (InternalKey N × Val))
    (k : InternalKey N) (D : Digest N Val) :
    lookupLeafD (updList zeroV m k v) D =
      if v = zeroV then lookupLeafD (m.filter (fun p => p.1 != k)) D
      else if D = .leafHash k v then some ⟨k, v⟩
      else lookupLeafD (m.filter (fun p => p.1 != k)) D := by
  rw [updList]
  by_cases hv : v = zeroV
  · rw [if_pos hv, if_pos hv, List.nil_append]
  · rw [if_neg hv, if_neg hv, List.singleton_append]
    by_cases hD : D = .leafHash k v
    · rw [if_pos hD, lookupLeafD, List.find?_cons]
      rw [show ((Digest.leafHash k v : Digest N Val) == D) = true from by rw [hD]; simp]
      rfl
    · rw [if_neg hD, lookupLeafD, List.find?_cons]
      rw [show ((Digest.leafHash k v : Digest N Val) == D) = false from by
        simp only [beq_eq_false_iff_ne, ne_eq]
        exact fun hc => hD hc.symm]
      rfl

theorem lookupLeafD_filter_ne {m : List (InternalKey N × Val)} {k : InternalKey N}
    {D : Digest N Val} (hD : ∀ u : Val, D ≠ .leafHash k u) :
    lookupLeafD (m.filter (fun p => p.1 != k)) D = lookupLeafD m D := by
  induction m with
  | nil => rfl
  | cons q rest ih =>
      by_cases hq : q.1 = k
      · have hstep : lookupLeafD (q :: rest) D = lookupLeafD rest D := by
          rw [lookupLeafD, List.find?_cons,
            show ((Digest.leafHash q.1 q.2 : Digest N Val) == D) = false from by
              simp only [beq_eq_false_iff_ne, ne_eq]
              intro hc
              exact hD q.2 (by rw [← hc, hq])]
          rfl
        rw [show (q :: rest).filter (fun p => p.1 != k) = rest.filter (fun p => p.1 != k)
            from by simp [hq], hstep]
        exact ih
      · rw [show (q :: rest).filter (fun p => p.1 != k) =
            q :: rest.filter (fun p => p.1 != k) from by simp [hq]]
        rw [lookupLeafD, lookupLeafD, List.find?_cons, List.find?_cons]
        cases hqD : ((Digest.leafHash q.1 q.2 : Digest N Val) == D)
        · exact ih
        · rfl

theorem lookupLeafD_filter_self {m : List (InternalKey N × Val)} {k : InternalKey N}
    {u : Val} :
    lookupLeafD (m.filter (fun p => p.1 != k)) (.leafHash k u) = none := by
  refine lookupLeafD_eq_none ?_
  intro p hp hc
  injection hc with h1 h2
  have hne := (List.mem_filter.mp hp).2
  rw [h1] at hne
  simp at hne

/-- Deleting the old `k`-leaf realises exactly the `k`-free leaf
map. -/
theorem leaves_remove_eq {m : List (InternalKey N × Val)} {k : InternalKey N} {w : Val}
    (hdist : m.Pairwise (fun a b => a.1 ≠ b.1)) (hw : (k, w) ∈ m)
    {L : LeafMap N Val} (hL : ∀ D, L D = lookupLeafD m D) :
    ∀ D, mapRemove L (.leafHash k w) D =
      lookupLeafD (m.filter (fun p => p.1 != k)) D := by
  intro D
  simp only [mapRemove]
  by_cases hDw : D = .leafHash k w
  · rw [if_pos hDw, hDw, lookupLeafD_filter_self]
  · rw [if_neg hDw, hL]
    rcases D with _ | ⟨j, u⟩ | ⟨l, r⟩
    · rw [lookupLeafD_filter_ne (fun u hc => by cases hc)]
    · by_cases hj : j = k
      · subst hj
        rw [lookupLeafD_filter_self]
        refine lookupLeafD_eq_none ?_
        intro p hp hc
        injection hc with h1 h2
        refine hDw ?_
        have hmem : (j, u) ∈ m := by
          rw [← h1, ← h2]
          exact hp
        rw [key_unique hdist hmem hw]
      · rw [lookupLeafD_filter_ne (fun u' hc => by
          injection hc with ha hb
          exact hj ha)]
    · rw [lookupLeafD_filter_ne (fun u hc => by cases hc)]

/-- With no old `k`-binding the leaf map is already `k`-free. -/
theorem leaves_keep_eq {m : List (InternalKey N × Val)} {k : InternalKey N}
    (hun : ∀ p ∈ m, p.1 ≠ k) :
    ∀ D, lookupLeafD m D = lookupLeafD (m.filter (fun p => p.1 != k)) D := by
  intro D
  rw [show m.filter (fun p => p.1 != k) = m from List.filter_eq_self.mpr
    (fun p hp => by simpa using hun p hp)]

/-- The new-leaf insertion step realises the updated leaf map. -/
theorem leaves_step {zeroV v : Val} {m : List (InternalKey N × Val)} {k : InternalKey N}
    {L₁ : LeafMap N Val}
    (hL₁ : ∀ D, L₁ D = lookupLeafD (m.filter (fun p => p.1 != k)) D) :
    ∀ D, (if (hash_leafF zeroV k v : Digest N Val).is_zero then L₁
        else mapInsert L₁ (hash_leafF zeroV k v) ⟨k, v⟩) D =
      lookupLeafD (updList zeroV m k v) D := by
  intro D
  rw [lookupLeafD_updList]
  by_cases hv : v = zeroV
  · rw [if_pos hv]
    rw [show (hash_leafF zeroV k v : Digest N Val).is_zero = true from by
      rw [hash_leafF, if_pos hv]; rfl]
    rw [if_pos rfl]
    exact hL₁ D
  · rw [if_neg hv]
    have hlf : (hash_leafF zeroV k v : Digest N Val) = .leafHash k v := by
      rw [hash_leafF, if_neg hv]
    rw [hlf]
    rw [show (Digest.leafHash k v : Digest N Val).is_zero = false from rfl]
    rw [if_neg (show ¬(false = true) by simp)]
    simp only [mapInsert]
    by_cases hD : D = .leafHash k v
    · rw [if_pos hD, if_pos hD]
    · rw [if_neg hD, if_neg hD]
      exact hL₁ D

/-- Common tail of the update proof: from the walk result and a
characterised delete step, evaluate `update` and assemble the new
invariant. -/
theorem update_inv_tail {zeroV : Val} {m : List (InternalKey N × Val)} {t : SMTree N Val}
    {k : InternalKey N} {v : Val} {B' : BranchMap N Val} {endD : Digest N Val}
    {B₁ : BranchMap N Val} {L₁ : LeafMap N Val}
    (hsep : Sep (8 * N) m) (hvals : ValsOk zeroV m)
    (hroot' : t.root = subRoot (8 * N) (bucket m k (8 * N)))
    (hrun : updWalk k (8 * N + 2) t.branches_map
        (subRoot (8 * N) (bucket m k (8 * N)))
        (initialHeight t.branches_map k (subRoot (8 * N) (bucket m k (8 * N)))) [] =
      some (B', sibs k (8 * N) (bucket m k (8 * N)) ++ [], endD))
    (hdel : delStep t.leaves_map k B' endD = (B₁, L₁))
    (hL₁ : ∀ D, L₁ D = lookupLeafD (m.filter (fun p => p.1 != k)) D)
    (hB'wf : ∀ D e, B' D = some e → BranchWF zeroV D e)
    (hB'leaf : ∀ p ∈ m, ∃ e, B' (.leafHash p.1 p.2) = some e)
    (hB'off : ∀ (k' : InternalKey N) (h' : Nat), h' < 8 * N →
      ¬ agreeAbove k k' (h' + 1) →
      (bucket m k' (h' + 1)).filter (fun p => !(p.1.get_bit h')) ≠ [] →
      (bucket m k' (h' + 1)).filter (fun p => p.1.get_bit h') ≠ [] →
      B' (mergeF
        (subRoot h' ((bucket m k' (h' + 1)).filter (fun p => !(p.1.get_bit h'))))
        (subRoot h' ((bucket m k' (h' + 1)).filter (fun p => p.1.get_bit h')))) ≠ none)
    (hB₁some : ∀ D e, B₁ D = some e → B' D = some e)
    (hB₁keep : ∀ D, (∀ u : Val, D ≠ .leafHash k u) → B₁ D = B' D) :
    ∃ t', update zeroV t k v = some t' ∧ Inv zeroV (updList zeroV m k v) t' := by
  have hPATH : sibs k (8 * N) (bucket m k (8 * N)) ++
      ([] : List (Nat × Digest N Val)) =
      sibs k (8 * N) (bucket (updList zeroV m k v) k (8 * N)) := by
    rw [List.append_nil, sibs_updList zeroV v m k (8 * N) (Nat.le_refl _)]
  have hN0 : hash_leafF zeroV k v =
      subRoot 0 (bucket (updList zeroV m k v) k 0) :=
    (subRoot_zero_updList zeroV v m k).symm
  refine ⟨⟨(buildUp k (sibs k (8 * N) (bucket (updList zeroV m k v) k (8 * N)))
      (subRoot 0 (bucket (updList zeroV m k v) k 0))
      (if (hash_leafF zeroV k v : Digest N Val).is_zero then B₁
       else mapInsert B₁ (hash_leafF zeroV k v)
         ⟨0, k, hash_leafF zeroV k v, .zero⟩)).2,
    (if (hash_leafF zeroV k v : Digest N Val).is_zero then L₁
     else mapInsert L₁ (hash_leafF zeroV k v) ⟨k, v⟩),
    (buildUp k (sibs k (8 * N) (bucket (updList zeroV m k v) k (8 * N)))
      (subRoot 0 (bucket (updList zeroV m k v) k 0))
      (if (hash_leafF zeroV k v : Digest N Val).is_zero then B₁
       else mapInsert B₁ (hash_leafF zeroV k v)
         ⟨0, k, hash_leafF zeroV k v, .zero⟩)).1⟩, ?_, ?_⟩
  · simp only [update, hroot', hrun, hdel]
    rw [hPATH, hN0]
  · refine inv_assemble hsep hvals ?_ ?_ ?_ ?_
    · exact leaves_step hL₁
    · -- wellformedness of the post-delete, post-insert store
      intro D e he
      by_cases hv : v = zeroV
      · rw [show (hash_leafF zeroV k v : Digest N Val).is_zero = true from by
          rw [hash_leafF, if_pos hv]; rfl, if_pos rfl] at he
        exact hB'wf _ _ (hB₁some _ _ he)
      · have hlf : (hash_leafF zeroV k v : Digest N Val) = .leafHash k v := by
          rw [hash_leafF, if_neg hv]
        rw [hlf, show (Digest.leafHash k v : Digest N Val).is_zero = false from rfl,
          if_neg (show ¬(false = true) by simp)] at he
        simp only [mapInsert] at he
        by_cases hD : D = .leafHash k v
        · rw [if_pos hD] at he
          injection he with he1
          rw [← he1]
          exact Or.inl ⟨k, v, hv, hD, by rw [hD]⟩
        · rw [if_neg hD] at he
          exact hB'wf _ _ (hB₁some _ _ he)
    · -- every remaining leaf has its self-branch
      intro p hp
      rw [updList] at hp
      by_cases hv : v = zeroV
      · rw [if_pos hv, List.nil_append] at hp
        have hpk : p.1 ≠ k := by simpa using (List.mem_filter.mp hp).2
        rcases hB'leaf p (List.mem_of_mem_filter hp) with ⟨e, he⟩
        rw [show (hash_leafF zeroV k v : Digest N Val).is_zero = true from by
          rw [hash_leafF, if_pos hv]; rfl, if_pos rfl]
        rw [hB₁keep _ (fun u hc => by injection hc with h1 _; exact hpk h1), he]
        simp
      · rw [if_neg hv] at hp
        have hlf : (hash_leafF zeroV k v : Digest N Val) = .leafHash k v := by
          rw [hash_leafF, if_neg hv]
        rw [hlf, show (Digest.leafHash k v : Digest N Val).is_zero = false from rfl,
          if_neg (show ¬(false = true) by simp)]
        simp only [mapInsert]
        rcases List.mem_append.mp hp with h1 | h1
        · have hpk : p = (k, v) := List.mem_singleton.mp h1
          rw [if_pos (by rw [hpk])]
          simp
        · have hpk : p.1 ≠ k := by simpa using (List.mem_filter.mp h1).2
          rcases hB'leaf p (List.mem_of_mem_filter h1) with ⟨e, he⟩
          rw [if_neg (fun hc => by injection hc with h1' _; exact hpk h1'),
            hB₁keep _ (fun u hc => by injection hc with h1' _; exact hpk h1'), he]
          simp
    · -- off-path split entries survive
      intro k' h' hh' hna hne0 hne1
      rw [bucket_offpath hna] at hne0 hne1 ⊢
      have h2 := hB'off k' h' hh' hna hne0 hne1
      have hndl : ∀ u : Val,
          (mergeF
            (subRoot h' ((bucket m k' (h' + 1)).filter (fun p => !(p.1.get_bit h'))))
            (subRoot h' ((bucket m k' (h' + 1)).filter (fun p => p.1.get_bit h')))
            : Digest N Val) ≠ .leafHash k u := by
        intro u hc
        rw [mergeF_nonzero (fun hz => hne0 (subRoot_eq_zero_iff.mp hz))
          (fun hz => hne1 (subRoot_eq_zero_iff.mp hz))] at hc
        cases hc
      by_cases hv : v = zeroV
      · rw [show (hash_leafF zeroV k v : Digest N Val).is_zero = true from by
          rw [hash_leafF, if_pos hv]; rfl, if_pos rfl]
        rw [hB₁keep _ hndl]
        exact h2
      · have hlf : (hash_leafF zeroV k v : Digest N Val) = .leafHash k v := by
          rw [hash_leafF, if_neg hv]
        rw [hlf, show (Digest.leafHash k v : Digest N Val).is_zero = false from rfl,
          if_neg (show ¬(false = true) by simp)]
        simp only [mapInsert]
        rw [if_neg (fun hc => hndl v hc), hB₁keep _ hndl]
        exact h2

/-- `update` succeeds on every invariant state and preserves the
invariant for the updated binding list. -/
theorem update_inv {zeroV : Val} {m : List (InternalKey N × Val)} {t : SMTree N Val}
    {k : InternalKey N} {v : Val} (hInv : Inv zeroV m t) :
    ∃ t', update zeroV t k v = some t' ∧ Inv zeroV (updList zeroV m k v) t' := by
  obtain ⟨hsep, hvals, hroot, hleaves, hwf, hcov⟩ := hInv
  have hdist : m.Pairwise (fun a b => a.1 ≠ b.1) := Sep_distinct hsep
  have hbt : bucket m k (8 * N) = m := bucket_top m k
  have hroot' : t.root = subRoot (8 * N) (bucket m k (8 * N)) := by
    rw [hbt]
    exact hroot
  obtain ⟨B', endD, hrun, hrel, hend⟩ :=
    updWalk_spec hsep hwf hcov (8 * N + 2) (8 * N) t.branches_map []
      (initialHeight t.branches_map k (subRoot (8 * N) (bucket m k (8 * N))))
      (Nat.le_refl _) (by omega)
      (fun q hq => absurd hq (List.not_mem_nil _))
      (fun D' _ => rfl)
      (fun b hb => by
        unfold initialHeight
        rw [hb]
        show max (InternalKey.fork_height b.key k) b.fork_height =
          max (InternalKey.fork_height k b.key) b.fork_height
        rw [InternalKey.fork_height_comm b.key k])
  have hB'wf : ∀ D e, B' D = some e → BranchWF zeroV D e := by
    intro D e he
    rcases hrel D with hD | ⟨hD, _⟩
    · rw [hD] at he
      exact hwf D e he
    · rw [hD] at he
      cases he
  have hsplit_noleaf : ∀ D, SplitAt m k D → ∀ (j : InternalKey N) (u : Val),
      D ≠ .leafHash j u := by
    rintro D ⟨s, _, hg0, hg1, hEq⟩ j u hc
    rw [hc, mergeF_nonzero (fun hz => hg0 (subRoot_eq_zero_iff.mp hz))
      (fun hz => hg1 (subRoot_eq_zero_iff.mp hz))] at hEq
    cases hEq
  have hB'leaf : ∀ p ∈ m, ∃ e, B' (.leafHash p.1 p.2) = some e := by
    intro p hp
    rcases hcov.1 p hp with ⟨e, he⟩
    rcases hrel (.leafHash p.1 p.2) with hD | ⟨_, hsp⟩
    · exact ⟨e, by rw [hD]; exact he⟩
    · exact absurd rfl (hsplit_noleaf _ hsp p.1 p.2)
  have hB'off : ∀ (k' : InternalKey N) (h' : Nat), h' < 8 * N →
      ¬ agreeAbove k k' (h' + 1) →
      (bucket m k' (h' + 1)).filter (fun p => !(p.1.get_bit h')) ≠ [] →
      (bucket m k' (h' + 1)).filter (fun p => p.1.get_bit h') ≠ [] →
      B' (mergeF
        (subRoot h' ((bucket m k' (h' + 1)).filter (fun p => !(p.1.get_bit h'))))
        (subRoot h' ((bucket m k' (h' + 1)).filter (fun p => p.1.get_bit h')))) ≠
        none := by
    intro k' h' hh' hna hne0 hne1
    rcases hcov.2 k' h' hh' hne0 hne1 with ⟨e, he⟩
    rcases hrel (mergeF
      (subRoot h' ((bucket m k' (h' + 1)).filter (fun p => !(p.1.get_bit h'))))
      (subRoot h' ((bucket m k' (h' + 1)).filter (fun p => p.1.get_bit h')))) with
      hD | ⟨_, hsp⟩
    · rw [hD, he]
      simp
    · exact absurd (fun i hi1 hi2 => splitAt_agree hsep hh' hne0 hne1 hsp i hi1 hi2) hna
  by_cases hbound : ∃ w, (k, w) ∈ m
  · obtain ⟨w, hw⟩ := hbound
    have hendD : endD = .leafHash k w := hend w (by rw [hbt]; exact hw)
    have hlvE : t.leaves_map endD = some ⟨k, w⟩ := by
      rw [hleaves, hendD]
      exact lookupLeafD_eq_some hdist hw
    have hdelA : delStep t.leaves_map k B' endD =
        (mapRemove B' endD, mapRemove t.leaves_map endD) := by
      simp only [delStep, hlvE]
      simp
    have hL₁A : ∀ D, mapRemove t.leaves_map endD D =
        lookupLeafD (m.filter (fun p => p.1 != k)) D := by
      intro D
      rw [hendD]
      exact leaves_remove_eq hdist hw hleaves D
    have hB₁someA : ∀ D e, mapRemove B' endD D = some e → B' D = some e := by
      intro D e he
      simp only [mapRemove] at he
      by_cases hD : D = endD
      · rw [if_pos hD] at he
        cases he
      · rw [if_neg hD] at he
        exact he
    have hB₁keepA : ∀ D, (∀ u : Val, D ≠ .leafHash k u) →
        mapRemove B' endD D = B' D := by
      intro D hD
      simp only [mapRemove]
      rw [if_neg (fun hc => hD w (by rw [hc, hendD]))]
    exact update_inv_tail hsep hvals hroot' hrun hdelA hL₁A hB'wf hB'leaf hB'off
      hB₁someA hB₁keepA
  · have hun : ∀ p ∈ m, p.1 ≠ k := by
      intro p hp hc
      exact hbound ⟨p.2, by rw [← hc]; exact hp⟩
    have hdelB : delStep t.leaves_map k B' endD = (B', t.leaves_map) := by
      simp only [delStep]
      cases hLD : t.leaves_map endD with
      | none => rfl
      | some leaf =>
          rw [hleaves] at hLD
          obtain ⟨hmem, hshape⟩ := lookupLeafD_shape hLD
          show (if leaf.key = k then (mapRemove B' endD, mapRemove t.leaves_map endD)
            else (B', t.leaves_map)) = (B', t.leaves_map)
          rw [if_neg (show ¬(leaf.key = k) from fun hc => hun _ hmem hc)]
    have hL₁B : ∀ D, t.leaves_map D =
        lookupLeafD (m.filter (fun p => p.1 != k)) D := by
      intro D
      rw [hleaves]
      exact leaves_keep_eq hun D
    exact update_inv_tail hsep hvals hroot' hrun hdelB hL₁B hB'wf hB'leaf hB'off
      (fun D e he => he) (fun D _ => rfl)

/-- One bit-side of a two-sided split of a bucket is itself a bucket
(of any of its members, one level down). -/
theorem side_bucket {m : List (InternalKey N × Val)} {k' : InternalKey N}
    {h' hsp : Nat} {b : Bool} {r : InternalKey N × Val}
    (hsplt : hsp < h') (hh8 : h' ≤ 8 * N)
    (hagb : ∀ p ∈ bucket m k' h', ∀ q ∈ bucket m k' h', ∀ i, hsp < i → i < 8 * N →
      p.1.get_bit i = q.1.get_bit i)
    (hr : r ∈ (bucket m k' h').filter (fun p => p.1.get_bit hsp == b)) :
    (bucket m k' h').filter (fun p => p.1.get_bit hsp == b) = bucket m r.1 hsp := by
  have hrS : r ∈ bucket m k' h' := List.mem_of_mem_filter hr
  have hrbit : r.1.get_bit hsp = b := by simpa using (List.mem_filter.mp hr).2
  simp only [bucket, List.filter_filter]
  refine List.filter_congr ?_
  intro p hp
  refine bool_eq_of_iff ?_
  rw [Bool.and_eq_true, agreeAboveB_iff, agreeAboveB_iff]
  constructor
  · rintro ⟨h1, h2⟩ i hi1 hi2
    rcases Nat.lt_or_ge hsp i with hlt | hge
    · exact hagb p (mem_bucket.mpr ⟨hp, h2⟩) r hrS i hlt hi2
    · have hieq : i = hsp := by omega
      subst hieq
      rw [hrbit]
      simpa using h1
  · intro hag
    refine ⟨?_, ?_⟩
    · rw [hag hsp (Nat.le_refl _) (by omega), hrbit]
      simp
    · intro i hi1 hi2
      rw [hag i (by omega) hi2]
      exact (mem_bucket.mp hrS).2 i hi1 hi2

/-- Behaviour of the `get` descent loop over a canonical bucket: it
terminates, and stops either at `k`'s own leaf (when `k` is bound in
the bucket) or at zero / a foreign leaf (when it is not). -/
theorem getLoop_spec {zeroV : Val} {m : List (InternalKey N × Val)} {k : InternalKey N}
    {B : BranchMap N Val}
    (hsep : Sep (8 * N) m)
    (hwf : ∀ D e, B D = some e → BranchWF zeroV D e)
    (hcov : Cover m B) :
    ∀ (fuel : Nat) (k' : InternalKey N) (h' : Nat),
    h' ≤ 8 * N → h' + 2 ≤ fuel →
    ∃ endD : Digest N Val,
      getLoop k B fuel (subRoot h' (bucket m k' h')) = some endD ∧
      ((∃ w, (k, w) ∈ bucket m k' h' ∧ endD = .leafHash k w) ∨
       ((∀ w, (k, w) ∉ bucket m k' h') ∧
        (endD = .zero ∨ ∃ j u, j ≠ k ∧ endD = .leafHash j u))) := by
  intro fuel
  induction fuel with
  | zero =>
      intro k' h' hh hfuel
      exact absurd hfuel (by omega)
  | succ f ihf =>
      intro k' h' hh hfuel
      rcases hS : bucket m k' h' with _ | ⟨q0, rest0⟩
      · -- empty bucket: the node is zero, immediate stop
        refine ⟨.zero, ?_,
          Or.inr ⟨fun w hw => absurd hw (List.not_mem_nil _), Or.inl rfl⟩⟩
        rw [subRoot_nil]
        rfl
      · cases rest0 with
        | nil =>
          -- singleton bucket: the node is the member's leaf digest
          rw [← hS]
          have hq0mem : q0 ∈ bucket m k' h' := by rw [hS]; exact List.mem_singleton_self q0
          have hq0m : q0 ∈ m := (mem_bucket.mp hq0mem).1
          have hnode : subRoot h' (bucket m k' h') = .leafHash q0.1 q0.2 := by
            rw [hS, subRoot_single]
          rcases hcov.1 q0 hq0m with ⟨e₀, he₀⟩
          have hBe : B (subRoot h' (bucket m k' h')) = some e₀ := by
            rw [hnode]; exact he₀
          have hepin : e₀ = ⟨0, q0.1, .leafHash q0.1 q0.2, .zero⟩ :=
            wfB_leaf_entry (hwf _ _ he₀)
          subst hepin
          have hnz : ¬((subRoot h' (bucket m k' h')).is_zero = true) := by
            rw [hnode]; exact fun hz => by cases hz
          by_cases hjk : q0.1 = k
          · -- the bound leaf: the self-branch returns the node itself
            have hq0b : q0.1.get_bit 0 = k.get_bit 0 := by rw [hjk]
            refine ⟨.leafHash q0.1 q0.2, ?_, Or.inl ⟨q0.2, ?_, by rw [hjk]⟩⟩
            · simp only [getLoop, hBe]
              rw [if_neg hnz]
              simp only [BranchNode.branch]
              cases hkb : k.get_bit 0 <;> simp [hq0b, hkb]
            · have hpe : ((k, q0.2) : InternalKey N × Val) = q0 := by rw [← hjk]
              exact hpe ▸ hq0mem
          · have hq0ne : q0.1 ≠ k := hjk
            have hnotin : ∀ w, (k, w) ∉ bucket m k' h' := by
              intro w hw
              rw [hS] at hw
              exact hq0ne (congrArg Prod.fst (List.mem_singleton.mp hw)).symm
            by_cases hbiteq : q0.1.get_bit 0 = k.get_bit 0
            · -- bits agree at 0: the loop returns the foreign leaf
              refine ⟨.leafHash q0.1 q0.2, ?_,
                Or.inr ⟨hnotin, Or.inr ⟨q0.1, q0.2, hq0ne, rfl⟩⟩⟩
              simp only [getLoop, hBe]
              rw [if_neg hnz]
              simp only [BranchNode.branch]
              cases hkb : k.get_bit 0 <;> simp [hbiteq, hkb]
            · -- bits differ at 0: the loop falls off to the zero child
              refine ⟨.zero, ?_, Or.inr ⟨hnotin, Or.inl rfl⟩⟩
              simp only [getLoop, hBe]
              rw [if_neg hnz]
              simp only [BranchNode.branch]
              cases hkb : k.get_bit 0 <;> cases hq0b : q0.1.get_bit 0
              · exact absurd (hq0b.trans hkb.symm) hbiteq
              · simp [hkb, hq0b]
              · simp [hkb, hq0b]
              · exact absurd (hq0b.trans hkb.symm) hbiteq
        | cons q1 rest1 =>
          -- two or more members: the node is an internal split
          rw [← hS]
          have hq0mem : q0 ∈ bucket m k' h' := by rw [hS]; simp
          have hq1mem : q1 ∈ bucket m k' h' := by rw [hS]; simp
          have hq01 : q0.1 ≠ q1.1 := by
            have hd := Sep_distinct (Sep_bucket (k := k') (h := h') hsep)
            rw [hS] at hd
            exact (List.pairwise_cons.mp hd).1 q1 (by simp)
          obtain ⟨hsp, hsplt, hne0, hne1, hagb, hsubeq⟩ :=
            bucket_split hh hq0mem hq1mem hq01
          have hsp8 : hsp < 8 * N := by omega
          have hSepB : Sep h' (bucket m k' h') := Sep_bucket hsep
          have hSepS : Sep (hsp + 1) (bucket m k' h') :=
            Sep_of_distinct_agree (Sep_distinct hSepB)
              (fun p hp q hq i hi1 hi2 => hagb p hp q hq i (by omega) hi2)
          have hSep0 : Sep hsp ((bucket m k' h').filter (fun p => !(p.1.get_bit hsp))) := by
            rw [filter_bit_false]
            exact Sep_filter_bit hSepS false
          have hSep1 : Sep hsp ((bucket m k' h').filter (fun p => p.1.get_bit hsp)) := by
            rw [filter_bit_true]
            exact Sep_filter_bit hSepS true
          have hnodeq : subRoot h' (bucket m k' h') =
              mergeF (subRoot hsp ((bucket m k' h').filter (fun p => !(p.1.get_bit hsp))))
                     (subRoot hsp ((bucket m k' h').filter (fun p => p.1.get_bit hsp))) := by
            rw [← hsubeq]
            exact (subRoot_collapse (8 * N) h' hh (fun p hp q hq i hi1 hi2 => by
              rw [(mem_bucket.mp hp).2 i hi1 hi2, (mem_bucket.mp hq).2 i hi1 hi2])).symm
          have hbq0 : bucket m q0.1 (hsp + 1) = bucket m k' h' := by
            refine bucket_congr2 ?_
            intro p hp
            constructor
            · intro hA i hi1 hi2
              rw [hA i (by omega) hi2]
              exact (mem_bucket.mp hq0mem).2 i hi1 hi2
            · intro hA i hi1 hi2
              exact hagb p (mem_bucket.mpr ⟨hp, hA⟩) q0 hq0mem i (by omega) hi2
          rcases hcov.2 q0.1 hsp hsp8 (by rw [hbq0]; exact hne0) (by rw [hbq0]; exact hne1)
            with ⟨e₀, he₀⟩
          rw [hbq0] at he₀
          have hBe : B (subRoot h' (bucket m k' h')) = some e₀ := by
            rw [hnodeq]; exact he₀
          obtain ⟨hfork, hbranch, hagkey⟩ :=
            wfB_node_entry (hwf _ _ he₀) hne0 hne1 hSep0 hSep1
              (fun p hp => by simpa using (List.mem_filter.mp hp).2)
              (fun p hp => (List.mem_filter.mp hp).2)
              (fun p hp q hq i hi1 hi2 => by
                have hp' : p ∈ bucket m k' h' := by
                  rcases List.mem_append.mp hp with h1 | h1 <;>
                    exact List.mem_of_mem_filter h1
                have hq' : q ∈ bucket m k' h' := by
                  rcases List.mem_append.mp hq with h1 | h1 <;>
                    exact List.mem_of_mem_filter h1
                exact hagb p hp' q hq' i hi1 hi2)
              hsp8
          have hz0 : subRoot hsp ((bucket m k' h').filter (fun p => !(p.1.get_bit hsp))) ≠
              (.zero : Digest N Val) :=
            fun hz => hne0 (subRoot_eq_zero_iff.mp hz)
          have hz1 : subRoot hsp ((bucket m k' h').filter (fun p => p.1.get_bit hsp)) ≠
              (.zero : Digest N Val) :=
            fun hz => hne1 (subRoot_eq_zero_iff.mp hz)
          have hnz : ¬((subRoot h' (bucket m k' h')).is_zero = true) := by
            rw [hnodeq, mergeF_nonzero hz0 hz1]
            exact fun hz => by cases hz
          by_cases hsp0 : hsp = 0
          · -- fork at bit 0: immediate break into a singleton side
            subst hsp0
            cases hkb : k.get_bit 0
            · -- k goes left: the left side is a singleton
              rcases Sep_zero hSep0 with hnil | ⟨p, hp_eq⟩
              · exact absurd hnil hne0
              have hpf : p ∈ (bucket m k' h').filter (fun p => !(p.1.get_bit 0)) := by
                rw [hp_eq]; exact List.mem_singleton_self p
              have hpS : p ∈ bucket m k' h' := List.mem_of_mem_filter hpf
              by_cases hpk : p.1 = k
              · refine ⟨.leafHash p.1 p.2, ?_, Or.inl ⟨p.2, ?_, by rw [hpk]⟩⟩
                · simp only [getLoop, hBe]
                  rw [if_neg hnz, hfork, hbranch]
                  rw [if_pos (rfl : (0 : Nat) = 0), hkb]
                  rw [if_neg (show ¬(false = true) by simp)]
                  simp only []
                  rw [hp_eq, subRoot_single]
                · have hpe : ((k, p.2) : InternalKey N × Val) = p := by rw [← hpk]
                  exact hpe ▸ hpS
              · refine ⟨.leafHash p.1 p.2, ?_,
                  Or.inr ⟨?_, Or.inr ⟨p.1, p.2, hpk, rfl⟩⟩⟩
                · simp only [getLoop, hBe]
                  rw [if_neg hnz, hfork, hbranch]
                  rw [if_pos (rfl : (0 : Nat) = 0), hkb]
                  rw [if_neg (show ¬(false = true) by simp)]
                  simp only []
                  rw [hp_eq, subRoot_single]
                · intro w hw
                  have hwf0 : (k, w) ∈ (bucket m k' h').filter
                      (fun p => !(p.1.get_bit 0)) :=
                    List.mem_filter.mpr ⟨hw, by simp [hkb]⟩
                  rw [hp_eq] at hwf0
                  exact hpk (congrArg Prod.fst (List.mem_singleton.mp hwf0)).symm
            · -- k goes right: the right side is a singleton
              rcases Sep_zero hSep1 with hnil | ⟨p, hp_eq⟩
              · exact absurd hnil hne1
              have hpf : p ∈ (bucket m k' h').filter (fun p => p.1.get_bit 0) := by
                rw [hp_eq]; exact List.mem_singleton_self p
              have hpS : p ∈ bucket m k' h' := List.mem_of_mem_filter hpf
              by_cases hpk : p.1 = k
              · refine ⟨.leafHash p.1 p.2, ?_, Or.inl ⟨p.2, ?_, by rw [hpk]⟩⟩
                · simp only [getLoop, hBe]
                  rw [if_neg hnz, hfork, hbranch]
                  rw [if_pos (rfl : (0 : Nat) = 0), hkb]
                  rw [if_pos (rfl : (true = true))]
                  simp only []
                  rw [hp_eq, subRoot_single]
                · have hpe : ((k, p.2) : InternalKey N × Val) = p := by rw [← hpk]
                  exact hpe ▸ hpS
              · refine ⟨.leafHash p.1 p.2, ?_,
                  Or.inr ⟨?_, Or.inr ⟨p.1, p.2, hpk, rfl⟩⟩⟩
                · simp only [getLoop, hBe]
                  rw [if_neg hnz, hfork, hbranch]
                  rw [if_pos (rfl : (0 : Nat) = 0), hkb]
                  rw [if_pos (rfl : (true = true))]
                  simp only []
                  rw [hp_eq, subRoot_single]
                · intro w hw
                  have hwf0 : (k, w) ∈ (bucket m k' h').filter
                      (fun p => p.1.get_bit 0) :=
                    List.mem_filter.mpr ⟨hw, by simp [hkb]⟩
                  rw [hp_eq] at hwf0
                  exact hpk (congrArg Prod.fst (List.mem_singleton.mp hwf0)).symm
          · -- genuine internal fork: descend into k's side and recurse
            cases hkb : k.get_bit hsp
            · -- descend left
              rcases List.exists_mem_of_ne_nil _ hne0 with ⟨r, hr⟩
              have hr' : r ∈ (bucket m k' h').filter
                  (fun p => p.1.get_bit hsp == false) := by
                rw [← filter_bit_false]; exact hr
              have hside0 : (bucket m k' h').filter (fun p => !(p.1.get_bit hsp)) =
                  bucket m r.1 hsp := by
                rw [filter_bit_false]
                exact side_bucket hsplt hh hagb hr'
              rcases ihf r.1 hsp (by omega) (by omega) with ⟨endD, hloop, hdisj⟩
              refine ⟨endD, ?_, ?_⟩
              · simp only [getLoop, hBe]
                rw [if_neg hnz, hfork, hbranch, if_neg hsp0, hkb]
                rw [if_neg (show ¬(false = true) by simp)]
                simp only []
                rw [hside0]
                exact hloop
              · rcases hdisj with ⟨w, hw, he⟩ | ⟨hnot, hrest⟩
                · rw [← hside0] at hw
                  exact Or.inl ⟨w, List.mem_of_mem_filter hw, he⟩
                · refine Or.inr ⟨?_, hrest⟩
                  intro w hw
                  have hwside : (k, w) ∈ (bucket m k' h').filter
                      (fun p => !(p.1.get_bit hsp)) :=
                    List.mem_filter.mpr ⟨hw, by simp [hkb]⟩
                  rw [hside0] at hwside
                  exact hnot w hwside
            · -- descend right
              rcases List.exists_mem_of_ne_nil _ hne1 with ⟨r, hr⟩
              have hr' : r ∈ (bucket m k' h').filter
                  (fun p => p.1.get_bit hsp == true) := by
                rw [← filter_bit_true]; exact hr
              have hside1 : (bucket m k' h').filter (fun p => p.1.get_bit hsp) =
                  bucket m r.1 hsp := by
                rw [filter_bit_true]
                exact side_bucket hsplt hh hagb hr'
              rcases ihf r.1 hsp (by omega) (by omega) with ⟨endD, hloop, hdisj⟩
              refine ⟨endD, ?_, ?_⟩
              · simp only [getLoop, hBe]
                rw [if_neg hnz, hfork, hbranch, if_neg hsp0, hkb]
                rw [if_pos (rfl : (true = true))]
                simp only []
                rw [hside1]
                exact hloop
              · rcases hdisj with ⟨w, hw, he⟩ | ⟨hnot, hrest⟩
                · rw [← hside1] at hw
                  exact Or.inl ⟨w, List.mem_of_mem_filter hw, he⟩
                · refine Or.inr ⟨?_, hrest⟩
                  intro w hw
                  have hwside : (k, w) ∈ (bucket m k' h').filter
                      (fun p => p.1.get_bit hsp) :=
                    List.mem_filter.mpr ⟨hw, by simp [hkb]⟩
                  rw [hside1] at hwside
                  exact hnot w hwside

/-- `get` on an invariant-satisfying state returns the abstract value
bound in the binding list. -/
theorem get_inv {zeroV : Val} {m : List (InternalKey N × Val)} {t : SMTree N Val}
    (hInv : Inv zeroV m t) (k : InternalKey N) :
    get zeroV t k = some (valueOf zeroV m k) := by
  obtain ⟨endD, hloop, hdisj⟩ :=
    getLoop_spec hInv.sep_m hInv.branches_wf hInv.branches_cover
      (8 * N + 2) k (8 * N) (Nat.le_refl _) (Nat.le_refl _)
  rw [bucket_top] at hloop hdisj
  rcases hdisj with ⟨w, hw, rfl⟩ | ⟨hnot, hzero | ⟨j, u, hjk, hend⟩⟩
  · -- bound: the loop stops at k's leaf, the leaf map resolves it
    have hval : valueOf zeroV m k = w :=
      valueOf_eq_of_mem (Sep_distinct hInv.sep_m) hw
    have hleaf : t.leaves_map (.leafHash k w) = some ⟨k, w⟩ := by
      rw [hInv.leaves_eq]
      exact lookupLeafD_eq_some (Sep_distinct hInv.sep_m) hw
    simp only [get, hInv.root_eq, hloop, Option.map_some', Digest.is_zero, hleaf]
    rw [hval]
    simp
  · -- unbound, loop fell off to zero
    subst hzero
    have hvz : valueOf zeroV m k = zeroV :=
      valueOf_eq_zero (fun p hp hpk => hnot p.2 (by rw [← hpk]; exact hp))
    simp only [get, hInv.root_eq, hloop, Option.map_some', Digest.is_zero]
    rw [hvz]
    simp
  · -- unbound, loop stopped at a foreign leaf
    subst hend
    have hvz : valueOf zeroV m k = zeroV :=
      valueOf_eq_zero (fun p hp hpk => hnot p.2 (by rw [← hpk]; exact hp))
    cases hl : t.leaves_map (.leafHash j u) with
    | none =>
        simp only [get, hInv.root_eq, hloop, Option.map_some', Digest.is_zero, hl]
        rw [hvz]
        simp
    | some leaf =>
        have hsh := lookupLeafD_shape (m := m) (by rw [← hInv.leaves_eq]; exact hl)
        have hkeyj : leaf.key = j := by
          have h2 := hsh.2
          injection h2 with h1 h2
          exact h1.symm
        have hne : ¬(leaf.key = k) := by rw [hkeyj]; exact hjk
        simp only [get, hInv.root_eq, hloop, Option.map_some', Digest.is_zero, hl]
        rw [if_neg hne, hvz]
        simp

/-- The empty tree satisfies the invariant for the empty binding
list. -/
theorem default_inv (zeroV : Val) :
    Inv zeroV ([] : List (InternalKey N × Val)) (SMTree.default N Val) := by
  constructor
  · exact List.Pairwise.nil
  · exact fun p hp => absurd hp (List.not_mem_nil _)
  · rw [subRoot_nil]
    rfl
  · exact fun D => rfl
  · exact fun D e h => nomatch h
  · unfold Cover
    refine ⟨fun p hp => absurd hp (List.not_mem_nil _), ?_⟩
    intro k' h' _ hne0 _
    exact absurd rfl hne0

/-- Folding updates over a separated binding list preserves
separation. -/
theorem foldl_updList_sep {zeroV : Val} :
    ∀ (ops : List (InternalKey N × Val)) (m : List (InternalKey N × Val)),
    Sep (8 * N) m →
    Sep (8 * N) (ops.foldl (fun mm op => updList zeroV mm op.1 op.2) m) := by
  intro ops
  induction ops with
  | nil => intro m hm; exact hm
  | cons op rest ih =>
      intro m hm
      rw [List.foldl_cons]
      exact ih _ (updList_sep hm)

/-- A sequence of updates from an invariant state succeeds and lands
in the invariant state of the folded binding list. -/
theorem applyOps_inv {zeroV : Val} :
    ∀ (ops : List (InternalKey N × Val)) (m : List (InternalKey N × Val))
      (t : SMTree N Val),
    Inv zeroV m t →
    ∃ t', applyOps zeroV t ops = some t' ∧
      Inv zeroV (ops.foldl (fun mm op => updList zeroV mm op.1 op.2) m) t' := by
  intro ops
  induction ops with
  | nil => intro m t hInv; exact ⟨t, rfl, hInv⟩
  | cons op rest ih =>
      intro m t hInv
      obtain ⟨t1, hupd, hInv1⟩ := update_inv (k := op.1) (v := op.2) hInv
      obtain ⟨t', happ, hInv'⟩ := ih (updList zeroV m op.1 op.2) t1 hInv1
      refine ⟨t', ?_, ?_⟩
      · simp only [applyOps, hupd]
        exact happ
      · rw [List.foldl_cons]
        exact hInv'

/-- After an abstract update, the written key reads back the written
value (the zero value reads back as zero since the binding is gone). -/
theorem valueOf_updList {zeroV v : Val} {m : List (InternalKey N × Val)}
    {k : InternalKey N} :
    valueOf zeroV (updList zeroV m k v) k = v := by
  by_cases hv : v = zeroV
  · rw [updList, if_pos hv, List.nil_append, hv]
    apply valueOf_eq_zero
    intro p hp
    have := (List.mem_filter.mp hp).2
    simpa using this
  · rw [updList, if_neg hv, List.singleton_append, valueOf, List.find?_cons]
    rw [show (((k, v) : InternalKey N × Val).1 == k) = true by simp]

theorem getD_set_self {α : Type} {a : α} {i : Nat} (l : List α) (d : α)
    (h : i < l.length) : (l.set i a).getD i d = a := by
  rw [List.getD_eq_getElem?_getD, List.getElem?_set_eq h]
  rfl

theorem getD_set_ne {α : Type} {a : α} {i j : Nat} (l : List α) (d : α)
    (h : i ≠ j) : (l.set i a).getD j d = l.getD j d := by
  rw [List.getD_eq_getElem?_getD, List.getElem?_set_ne h,
    ← List.getD_eq_getElem?_getD]

/-- The inner merge loop agrees with `collapseM` on the modelled
stack (the pending indexes, top first, read through the array). -/
theorem vLoopInner_model :
    ∀ (prev : List Nat) (leaves : List (Digest N Val × Nat)) (left right : Nat),
    left < right → right < leaves.length → (∀ i ∈ prev, i < right) →
    (leaves.getD left (.zero, 0)).2 < (leaves.getD right (.zero, 0)).2 →
    ∃ leaves' prev' merged',
      vLoopInner right prev leaves left = (leaves', prev', merged') ∧
      leaves'.length = leaves.length ∧
      (∀ j, j ≠ right → leaves'.getD j (.zero, 0) = leaves.getD j (.zero, 0)) ∧
      (∀ i ∈ prev', i ∈ prev) ∧
      (∀ mrg, collapseM (leaves.getD right (.zero, 0))
          (leaves.getD left (.zero, 0) ::
            prev.map (fun i => leaves.getD i (.zero, 0))) mrg =
        (leaves'.getD right (.zero, 0) ::
            prev'.map (fun i => leaves'.getD i (.zero, 0)), merged')) := by
  intro prev
  induction prev with
  | nil =>
      intro leaves left right hlr hrlen hprev hlt
      refine ⟨leaves.set right
          (mergeF (leaves.getD left (.zero, 0)).1 (leaves.getD right (.zero, 0)).1,
            (leaves.getD right (.zero, 0)).2), [], _, rfl, List.length_set _ _ _, ?_, ?_, ?_⟩
      · intro j hj
        exact getD_set_ne leaves _ (fun h => hj h.symm)
      · intro i hi
        exact hi
      · intro mrg
        simp only [collapseM, List.map_nil]
        rw [if_pos hlt]
        rw [getD_set_self leaves _ hrlen]
  | cons idx rest ih =>
      intro leaves left right hlr hrlen hprev hlt
      have hidxr : idx < right := hprev idx (List.mem_cons_self _ _)
      have hne : right ≠ idx := fun h => absurd h.symm (Nat.ne_of_lt hidxr)
      by_cases hc : (leaves.getD idx (.zero, 0)).2 < (leaves.getD right (.zero, 0)).2
      · obtain ⟨leaves', prev', merged', heq, hlen', hframe', hsub', hcoll'⟩ :=
          ih (leaves.set right
              (mergeF (leaves.getD left (.zero, 0)).1 (leaves.getD right (.zero, 0)).1,
                (leaves.getD right (.zero, 0)).2)) idx right hidxr
            (by rw [List.length_set]; exact hrlen)
            (fun i hi => hprev i (List.mem_cons_of_mem _ hi))
            (by rw [getD_set_ne leaves _ hne, getD_set_self leaves _ hrlen]; exact hc)
        refine ⟨leaves', prev', merged', ?_, ?_, ?_, ?_, ?_⟩
        · simp only [vLoopInner]
          rw [getD_set_ne leaves _ hne, getD_set_self leaves _ hrlen]
          simp only []
          rw [if_pos hc]
          exact heq
        · rw [hlen', List.length_set]
        · intro j hj
          rw [hframe' j hj, getD_set_ne leaves _ (fun h => hj h.symm)]
        · exact fun i hi => List.mem_cons_of_mem _ (hsub' i hi)
        · intro mrg
          simp only [collapseM, List.map_cons]
          rw [if_pos hlt]
          have hstep := hcoll'
            (mergeF (leaves.getD left (.zero, 0)).1 (leaves.getD right (.zero, 0)).1)
          rw [getD_set_self leaves _ hrlen] at hstep
          rw [getD_set_ne leaves _ hne] at hstep
          have hmap : rest.map (fun i => (leaves.set right
              (mergeF (leaves.getD left (.zero, 0)).1 (leaves.getD right (.zero, 0)).1,
                (leaves.getD right (.zero, 0)).2)).getD i (.zero, 0)) =
              rest.map (fun i => leaves.getD i (.zero, 0)) := by
            refine List.map_congr_left ?_
            intro i hi
            exact getD_set_ne leaves _
              (fun h => absurd h.symm (Nat.ne_of_lt (hprev i (List.mem_cons_of_mem _ hi))))
          rw [hmap] at hstep
          exact hstep
      · refine ⟨leaves.set right
            (mergeF (leaves.getD left (.zero, 0)).1 (leaves.getD right (.zero, 0)).1,
              (leaves.getD right (.zero, 0)).2), idx :: rest,
            mergeF (leaves.getD left (.zero, 0)).1 (leaves.getD right (.zero, 0)).1, ?_,
            List.length_set _ _ _, ?_, fun i hi => hi, ?_⟩
        · simp only [vLoopInner]
          rw [getD_set_ne leaves _ hne, getD_set_self leaves _ hrlen]
          simp only []
          rw [if_neg hc]
        · intro j hj
          exact getD_set_ne leaves _ (fun h => hj h.symm)
        · intro mrg
          simp only [collapseM, List.map_cons]
          rw [if_pos hlt]
          rw [if_neg (show ¬((leaves.getD idx (.zero, 0)).2 <
              (mergeF (leaves.getD left (.zero, 0)).1 (leaves.getD right (.zero, 0)).1,
                (leaves.getD right (.zero, 0)).2).2) from hc)]
          rw [getD_set_self leaves _ hrlen]
          rw [getD_set_ne leaves _ hne]
          have hmap : rest.map (fun i => (leaves.set right
              (mergeF (leaves.getD left (.zero, 0)).1 (leaves.getD right (.zero, 0)).1,
                (leaves.getD right (.zero, 0)).2)).getD i (.zero, 0)) =
              rest.map (fun i => leaves.getD i (.zero, 0)) := by
            refine List.map_congr_left ?_
            intro i hi
            exact getD_set_ne leaves _
              (fun h => absurd h.symm (Nat.ne_of_lt (hprev i (List.mem_cons_of_mem _ hi))))
          rw [hmap]

theorem drop_eq_of_getD {α : Type} {d : α} {l l' : List α} {n : Nat}
    (hlen : l'.length = l.length)
    (hf : ∀ j, n ≤ j → l'.getD j d = l.getD j d) : l'.drop n = l.drop n := by
  have hsome : ∀ (L : List α) (m : Nat), m < L.length → L[m]? = some (L.getD m d) := by
    intro L m h
    rw [List.getElem?_eq_getElem h, List.getD_eq_getElem?_getD,
      List.getElem?_eq_getElem h]
    rfl
  apply List.ext_getElem?
  intro j
  rw [List.getElem?_drop, List.getElem?_drop]
  by_cases hj : n + j < l.length
  · rw [hsome l _ hj, hsome l' _ (by omega), hf (n + j) (by omega)]
  · rw [List.getElem?_eq_none (by omega), List.getElem?_eq_none (by omega)]

/-- The outer merge loop of `validate` agrees with the pure stack
fold `mrun` (stack = pending indexes read through the array, top
first). -/
theorem vLoopOuter_model :
    ∀ (n : Nat) (leaves : List (Digest N Val × Nat)) (left right : Nat)
      (prev : List Nat) (merged : Digest N Val),
    left + 1 = right → right ≤ leaves.length → (∀ i ∈ prev, i < left) →
    leaves.length ≤ n + right →
    vLoopOuter n leaves left right prev merged =
      (mrun (leaves.drop right)
        (leaves.getD left (.zero, 0) :: prev.map (fun i => leaves.getD i (.zero, 0)))
        merged).2 := by
  intro n
  induction n with
  | zero =>
      intro leaves left right prev merged hlr hrlen hprev hfuel
      have hre : right = leaves.length := by omega
      simp only [vLoopOuter]
      rw [hre, List.drop_length]
      rfl
  | succ f ihf =>
      intro leaves left right prev merged hlr hrlen hprev hfuel
      by_cases hend : right < leaves.length
      · have hdrop : leaves.drop right = leaves[right] :: leaves.drop (right + 1) :=
          List.drop_eq_getElem_cons hend
        have hgetr : leaves.getD right (.zero, 0) = leaves[right] := by
          rw [List.getD_eq_getElem?_getD, List.getElem?_eq_getElem hend]
          rfl
        simp only [vLoopOuter]
        rw [if_pos hend]
        by_cases hlt : (leaves.getD left (.zero, 0)).2 < (leaves.getD right (.zero, 0)).2
        · rw [if_pos hlt]
          obtain ⟨leaves', prev', merged', heq, hlen', hframe', hsub', hcoll'⟩ :=
            vLoopInner_model prev leaves left right (by omega) hend
              (fun i hi => by have := hprev i hi; omega) hlt
          rw [heq]
          simp only []
          rw [ihf leaves' right (right + 1) prev' merged' rfl (by rw [hlen']; omega)
            (fun i hi => by have := hprev i (hsub' i hi); omega) (by rw [hlen']; omega)]
          have hdrop' : leaves'.drop (right + 1) = leaves.drop (right + 1) :=
            drop_eq_of_getD hlen' (fun j hj => hframe' j (by omega))
          rw [hdrop', hdrop, ← hgetr]
          simp only [mrun, List.foldl_cons]
          rw [hcoll' merged]
        · rw [if_neg hlt]
          rw [ihf leaves right (right + 1) (left :: prev) merged rfl (by omega)
            (fun i hi => by
              rcases List.mem_cons.mp hi with h | h
              · omega
              · have := hprev i h; omega) (by omega)]
          rw [hdrop, ← hgetr]
          simp only [mrun, List.foldl_cons, List.map_cons]
          simp only [collapseM]
          rw [if_neg hlt]
      · have hre : right = leaves.length := by omega
        simp only [vLoopOuter]
        rw [if_neg hend, hre, List.drop_length]
        rfl

/-- Splitting the item list of `validate` at a list concatenation:
the boundary item carries the fork height between the last key of the
prefix and the first key of the suffix. -/
theorem itemsOf_append (zeroV : Val) :
    ∀ (S0 : List (InternalKey N × Val)) (q0 p1 : InternalKey N × Val)
      (S1r : List (InternalKey N × Val)) (X : Nat),
    itemsOf zeroV X ((q0 :: S0) ++ p1 :: S1r) =
      itemsOf zeroV (InternalKey.fork_height (S0.getLastD q0).1 p1.1) (q0 :: S0) ++
        itemsOf zeroV X (p1 :: S1r) := by
  intro S0
  induction S0 with
  | nil =>
      intro q0 p1 S1r X
      simp [itemsOf]
  | cons q1 S0r ih =>
      intro q0 p1 S1r X
      rw [List.getLastD_cons]
      have h1 : itemsOf zeroV X ((q0 :: q1 :: S0r) ++ p1 :: S1r) =
          (hash_leafF zeroV q0.1 q0.2, InternalKey.fork_height q0.1 q1.1) ::
            itemsOf zeroV X ((q1 :: S0r) ++ p1 :: S1r) := rfl
      have h2 : itemsOf zeroV (InternalKey.fork_height (S0r.getLastD q1).1 p1.1)
            (q0 :: q1 :: S0r) =
          (hash_leafF zeroV q0.1 q0.2, InternalKey.fork_height q0.1 q1.1) ::
            itemsOf zeroV (InternalKey.fork_height (S0r.getLastD q1).1 p1.1)
              (q1 :: S0r) := rfl
      rw [h1, h2, ih q1 p1 S1r X, List.cons_append]

/-- The zip-with-successor item construction of `validate` equals
`itemsOf` at `usize::MAX`. -/
theorem zipItems (zeroV : Val) :
    ∀ (rest : List (InternalKey N × Val)) (p q : InternalKey N × Val),
    (((p :: q :: rest).zip (q :: rest)).map (fun pq =>
      ((hash_leafF zeroV pq.1.1 pq.1.2 : Digest N Val),
        InternalKey.fork_height pq.1.1 pq.2.1))) ++
      [(hash_leafF zeroV ((q :: rest).getLastD p).1 ((q :: rest).getLastD p).2,
        usizeMax)] =
    itemsOf zeroV usizeMax (p :: q :: rest) := by
  intro rest
  induction rest with
  | nil =>
      intro p q
      simp [itemsOf]
  | cons r rest' ih =>
      intro p q
      rw [show (p :: q :: r :: rest').zip (q :: r :: rest') =
        (p, q) :: (q :: r :: rest').zip (r :: rest') from rfl]
      rw [List.map_cons, List.cons_append, List.getLastD_cons]
      rw [show itemsOf zeroV usizeMax (p :: q :: r :: rest') =
        (hash_leafF zeroV p.1 p.2, InternalKey.fork_height p.1 q.1) ::
          itemsOf zeroV usizeMax (q :: r :: rest') from rfl]
      rw [ih q r]

/-- In a key-sorted list whose members agree above `hsp`, the keys
with bit `hsp` clear all precede those with it set, so the two split
filters concatenate back to the list. -/
theorem sorted_partition {hsp : Nat} (hsp8 : hsp < 8 * N) :
    ∀ (S : List (InternalKey N × Val)),
    S.Pairwise (fun a b => keyLtB a.1 b.1 = true) →
    (∀ a ∈ S, ∀ b ∈ S, ∀ i, hsp < i → i < 8 * N → a.1.get_bit i = b.1.get_bit i) →
    S = S.filter (fun p => !(p.1.get_bit hsp)) ++ S.filter (fun p => p.1.get_bit hsp) := by
  intro S
  induction S with
  | nil => intro _ _; rfl
  | cons x xs ih =>
      intro hPW hag
      have hhead := (List.pairwise_cons.mp hPW).1
      have htail := (List.pairwise_cons.mp hPW).2
      have hagt : ∀ a ∈ xs, ∀ b ∈ xs, ∀ i, hsp < i → i < 8 * N →
          a.1.get_bit i = b.1.get_bit i := fun a ha b hb =>
        hag a (List.mem_cons_of_mem _ ha) b (List.mem_cons_of_mem _ hb)
      cases hx : x.1.get_bit hsp
      · have h0 : (x :: xs).filter (fun p => !(p.1.get_bit hsp)) =
            x :: xs.filter (fun p => !(p.1.get_bit hsp)) := by
          rw [List.filter_cons_of_pos (by rw [hx]; rfl)]
        have h1 : (x :: xs).filter (fun p => p.1.get_bit hsp) =
            xs.filter (fun p => p.1.get_bit hsp) := by
          rw [List.filter_cons_of_neg (by rw [hx]; exact fun hc => nomatch hc)]
        rw [h0, h1, List.cons_append, ← ih htail hagt]
      · -- the head has bit `hsp` set: all later keys do too
        have hall : ∀ b ∈ xs, b.1.get_bit hsp = true := by
          intro b hb
          by_contra hbf
          have hbf' : b.1.get_bit hsp = false := by
            cases hbb : b.1.get_bit hsp
            · rfl
            · exact absurd hbb hbf
          have hlt := hhead b hb
          rw [keyLtB, Bool.and_eq_true] at hlt
          have hne : x.1 ≠ b.1 := by
            have := hlt.1
            simpa using this
          have hfork : InternalKey.fork_height x.1 b.1 = hsp := by
            refine InternalKey.fork_height_eq hsp8 ?_ ?_
            · rw [hx, hbf']
              simp
            · intro i hi1 hi2
              exact hag x (List.mem_cons_self _ _) b (List.mem_cons_of_mem _ hb) i hi1 hi2
          have := hlt.2
          rw [hfork, hx] at this
          exact absurd this (by simp)
        have h0 : (x :: xs).filter (fun p => !(p.1.get_bit hsp)) = [] := by
          refine List.filter_eq_nil_iff.mpr ?_
          intro a ha
          rcases List.mem_cons.mp ha with rfl | ha'
          · rw [hx]; exact fun hc => nomatch hc
          · rw [hall a ha']; exact fun hc => nomatch hc
        have h1 : (x :: xs).filter (fun p => p.1.get_bit hsp) = x :: xs := by
          refine List.filter_eq_self.mpr ?_
          intro a ha
          rcases List.mem_cons.mp ha with rfl | ha'
          · exact hx
          · exact hall a ha'
        rw [h0, h1, List.nil_append]

theorem mrun_append (A B : List (Digest N Val × Nat)) (st : List (Digest N Val × Nat))
    (mrg : Digest N Val) :
    mrun (A ++ B) st mrg = mrun B (mrun A st mrg).1 (mrun A st mrg).2 := by
  simp only [mrun, List.foldl_append]

/-- The stack fold over the item list of a sorted separated block of
keys (agreeing above `h`, joining the outside at height `X ≥ h`)
behaves as a single `collapseM` of the block's canonical sub-root. -/
theorem mrun_bucket {zeroV : Val} :
    ∀ (n : Nat) (S : List (InternalKey N × Val)) (h X : Nat)
      (st : List (Digest N Val × Nat)) (mrg : Digest N Val),
    S.length ≤ n → S ≠ [] → h ≤ 8 * N → h ≤ X →
    Sep h S → ValsOk zeroV S →
    S.Pairwise (fun a b => keyLtB a.1 b.1 = true) →
    (∀ a ∈ S, ∀ b ∈ S, ∀ i, h ≤ i → i < 8 * N → a.1.get_bit i = b.1.get_bit i) →
    (∀ e ∈ st, h ≤ e.2) →
    ∃ mrg',
      mrun (itemsOf zeroV X S) st mrg = collapseM (subRoot (8 * N) S, X) st mrg' ∧
      (2 ≤ S.length → mrg' = subRoot (8 * N) S) ∧
      (S.length = 1 → mrg' = mrg) := by
  intro n
  induction n with
  | zero =>
      intro S h X st mrg hlen hne _ _ _ _ _ _ _
      cases S with
      | nil => exact absurd rfl hne
      | cons a l => simp at hlen
  | succ m ihm =>
      intro S h X st mrg hlen hne hh8 hhX hsep hvals hsorted hag hst
      cases S with
      | nil => exact absurd rfl hne
      | cons x0 S1 =>
      cases S1 with
      | nil =>
          -- a single leaf: one item at height X
          have hv0 : x0.2 ≠ zeroV := hvals x0 (List.mem_cons_self _ _)
          have hhash : hash_leafF zeroV x0.1 x0.2 = (.leafHash x0.1 x0.2 : Digest N Val) := by
            rw [hash_leafF, if_neg hv0]
          have hsub1 : subRoot (8 * N) [x0] = (.leafHash x0.1 x0.2 : Digest N Val) := by
            rw [subRoot_collapse (8 * N) 0 (by omega)
              (fun p hp q hq i hi1 hi2 => by
                rw [List.mem_singleton.mp hp, List.mem_singleton.mp hq]),
              subRoot_single]
          refine ⟨mrg, ?_, ?_, fun _ => rfl⟩
          · rw [show itemsOf zeroV X [x0] = [(hash_leafF zeroV x0.1 x0.2, X)] from rfl,
              hhash, hsub1]
            rfl
          · intro h2
            rw [List.length_cons, List.length_nil] at h2
            omega
      | cons x1 rest2 =>
        -- at least two members: split at the top fork
        have hq01 : x0.1 ≠ x1.1 := by
          have hd := Sep_distinct hsep
          exact (List.pairwise_cons.mp hd).1 x1 (List.mem_cons_self _ _)
        have hx0S : x0 ∈ x0 :: x1 :: rest2 := List.mem_cons_self _ _
        have hx1S : x1 ∈ x0 :: x1 :: rest2 :=
          List.mem_cons_of_mem _ (List.mem_cons_self _ _)
        have hbS : bucket (x0 :: x1 :: rest2) x0.1 h = x0 :: x1 :: rest2 := by
          rw [bucket, List.filter_eq_self]
          intro p hp
          rw [agreeAboveB_iff]
          intro i hi1 hi2
          exact hag p hp x0 hx0S i hi1 hi2
        obtain ⟨hsp, hsplt, hne0, hne1, hagb, hsubeq⟩ :=
          bucket_split (m := x0 :: x1 :: rest2) (k := x0.1) hh8
            (by rw [hbS]; exact hx0S) (by rw [hbS]; exact hx1S) hq01
        rw [hbS] at hne0 hne1 hagb hsubeq
        set S := x0 :: x1 :: rest2 with hSdef
        have hsp8 : hsp < 8 * N := by omega
        have hSepS : Sep (hsp + 1) S :=
          Sep_of_distinct_agree (Sep_distinct hsep)
            (fun p hp q hq i hi1 hi2 => hagb p hp q hq i (by omega) hi2)
        have hSep0 : Sep hsp (S.filter (fun p => !(p.1.get_bit hsp))) := by
          rw [filter_bit_false]
          exact Sep_filter_bit hSepS false
        have hSep1 : Sep hsp (S.filter (fun p => p.1.get_bit hsp)) := by
          rw [filter_bit_true]
          exact Sep_filter_bit hSepS true
        have hpart : S = S.filter (fun p => !(p.1.get_bit hsp)) ++
            S.filter (fun p => p.1.get_bit hsp) :=
          sorted_partition hsp8 S hsorted
            (fun a ha b hb i hi1 hi2 => hagb a ha b hb i hi1 hi2)
        obtain ⟨q0f, S0r, hf0⟩ := List.exists_cons_of_ne_nil hne0
        obtain ⟨p1f, S1r, hf1⟩ := List.exists_cons_of_ne_nil hne1
        have hlast_mem : (S0r.getLastD q0f) ∈ S.filter (fun p => !(p.1.get_bit hsp)) := by
          rw [hf0]
          exact List.getLastD_mem_cons _ _
        have hp1_mem : p1f ∈ S.filter (fun p => p.1.get_bit hsp) := by
          rw [hf1]
          exact List.mem_cons_self _ _
        have hlast_bit : (S0r.getLastD q0f).1.get_bit hsp = false := by
          have := (List.mem_filter.mp hlast_mem).2
          simpa using this
        have hp1_bit : p1f.1.get_bit hsp = true := (List.mem_filter.mp hp1_mem).2
        have hfb : InternalKey.fork_height (S0r.getLastD q0f).1 p1f.1 = hsp := by
          refine InternalKey.fork_height_eq hsp8 ?_ ?_
          · rw [hlast_bit, hp1_bit]
            simp
          · intro i hi1 hi2
            exact hagb _ (List.mem_of_mem_filter hlast_mem) _
              (List.mem_of_mem_filter hp1_mem) i hi1 hi2
        have hitems : itemsOf zeroV X S =
            itemsOf zeroV hsp (S.filter (fun p => !(p.1.get_bit hsp))) ++
              itemsOf zeroV X (S.filter (fun p => p.1.get_bit hsp)) := by
          conv_lhs => rw [hpart]
          rw [hf0, hf1, itemsOf_append, hfb]
        have hagel : ∀ a ∈ S.filter (fun p => !(p.1.get_bit hsp)),
            ∀ b ∈ S.filter (fun p => !(p.1.get_bit hsp)),
            ∀ i, hsp ≤ i → i < 8 * N → a.1.get_bit i = b.1.get_bit i := by
          intro a ha b hb i hi1 hi2
          rcases Nat.lt_or_ge hsp i with hlt | hge
          · exact hagb a (List.mem_of_mem_filter ha) b (List.mem_of_mem_filter hb) i hlt hi2
          · have hieq : i = hsp := by omega
            rw [hieq]
            have ha' := (List.mem_filter.mp ha).2
            have hb' := (List.mem_filter.mp hb).2
            rw [show a.1.get_bit hsp = false by simpa using ha',
              show b.1.get_bit hsp = false by simpa using hb']
        have hager : ∀ a ∈ S.filter (fun p => p.1.get_bit hsp),
            ∀ b ∈ S.filter (fun p => p.1.get_bit hsp),
            ∀ i, hsp ≤ i → i < 8 * N → a.1.get_bit i = b.1.get_bit i := by
          intro a ha b hb i hi1 hi2
          rcases Nat.lt_or_ge hsp i with hlt | hge
          · exact hagb a (List.mem_of_mem_filter ha) b (List.mem_of_mem_filter hb) i hlt hi2
          · have hieq : i = hsp := by omega
            rw [hieq]
            rw [(List.mem_filter.mp ha).2, (List.mem_filter.mp hb).2]
        have hlen1pos : 1 ≤ (S.filter (fun p => p.1.get_bit hsp)).length := by
          rw [hf1, List.length_cons]
          omega
        have hlen0pos : 1 ≤ (S.filter (fun p => !(p.1.get_bit hsp))).length := by
          rw [hf0, List.length_cons]
          omega
        have hlensum := congrArg List.length hpart
        rw [List.length_append] at hlensum
        have hlen0 : (S.filter (fun p => !(p.1.get_bit hsp))).length ≤ m := by omega
        have hlen1 : (S.filter (fun p => p.1.get_bit hsp)).length ≤ m := by omega
        obtain ⟨mrg0, heq0, hmrg0a, hmrg0b⟩ :=
          ihm (S.filter (fun p => !(p.1.get_bit hsp))) hsp hsp st mrg hlen0 hne0
            (by omega) (Nat.le_refl _) hSep0
            (fun p hp => hvals p (List.mem_of_mem_filter hp))
            (List.Pairwise.sublist (List.filter_sublist _) hsorted)
            hagel (fun e he => by have := hst e he; omega)
        have hpush : collapseM
            (subRoot (8 * N) (S.filter (fun p => !(p.1.get_bit hsp))), hsp) st mrg0 =
            ((subRoot (8 * N) (S.filter (fun p => !(p.1.get_bit hsp))), hsp) :: st,
              mrg0) := by
          cases st with
          | nil => rfl
          | cons top strest =>
              simp only [collapseM]
              rw [if_neg (show ¬(top.2 < hsp) from by
                have := hst top (List.mem_cons_self _ _)
                omega)]
        obtain ⟨mrg1, heq1, hmrg1a, hmrg1b⟩ :=
          ihm (S.filter (fun p => p.1.get_bit hsp)) hsp X
            ((subRoot (8 * N) (S.filter (fun p => !(p.1.get_bit hsp))), hsp) :: st) mrg0
            hlen1 hne1 (by omega) (by omega) hSep1
            (fun p hp => hvals p (List.mem_of_mem_filter hp))
            (List.Pairwise.sublist (List.filter_sublist _) hsorted)
            hager
            (fun e he => by
              rcases List.mem_cons.mp he with rfl | he'
              · exact Nat.le_refl _
              · have := hst e he'
                omega)
        refine ⟨subRoot (8 * N) S, ?_, fun _ => rfl, ?_⟩
        · rw [hitems, mrun_append, heq0, hpush]
          simp only []
          rw [heq1]
          simp only [collapseM]
          rw [if_pos (show hsp < X from by omega)]
          have hD : mergeF
              (subRoot (8 * N) (S.filter (fun p => !(p.1.get_bit hsp))))
              (subRoot (8 * N) (S.filter (fun p => p.1.get_bit hsp))) =
              subRoot (8 * N) S := by
            rw [subRoot_collapse (S := S.filter (fun p => !(p.1.get_bit hsp)))
                (8 * N) hsp (by omega) hagel,
              subRoot_collapse (S := S.filter (fun p => p.1.get_bit hsp))
                (8 * N) hsp (by omega) hager]
            exact hsubeq.symm
          rw [hD]
        · intro h1
          rw [hSdef, List.length_cons, List.length_cons] at h1
          omega

/-- On two or more leaves, `validate` runs its merge loop over the
item list. -/
theorem validate_multi (zeroV : Val) (p q : InternalKey N × Val)
    (rest : List (InternalKey N × Val)) (root : Digest N Val) :
    validate zeroV (p :: q :: rest) root =
      (vLoopOuter ((itemsOf zeroV usizeMax (p :: q :: rest)).length + 1)
        (itemsOf zeroV usizeMax (p :: q :: rest)) 0 1 [] Digest.zero == root) := by
  have hz := zipItems zeroV rest p q
  simp only [validate]
  rw [if_neg (by simp)]
  rw [if_neg (by simp)]
  rw [List.drop_one, List.tail_cons, hz]

end Algebra

/-- C1: for every multiset of (key, value) bindings with non-zero
values, applying them to an empty `SparseMerkleTree` via `update` in
any two insertion orders — including orders with intermediate
deletions that leave the same final bindings — yields the same root
digest.  Formally: any two operation sequences whose folded binding
lists are permutations of each other drive the empty tree to equal
roots (all updates succeed). -/
theorem claim_C1 {N : Nat} {Val : Type} [DecidableEq Val] (zeroV : Val)
    (ops₁ ops₂ : List (InternalKey N × Val))
    (hperm : (bindings zeroV ops₁).Perm (bindings zeroV ops₂)) :
    ∃ t₁ t₂ : SMTree N Val,
      applyOps zeroV (SMTree.default N Val) ops₁ = some t₁ ∧
      applyOps zeroV (SMTree.default N Val) ops₂ = some t₂ ∧
      t₁.root = t₂.root := by
  obtain ⟨t₁, h₁, hI₁⟩ := applyOps_inv ops₁ [] _ (default_inv zeroV)
  obtain ⟨t₂, h₂, hI₂⟩ := applyOps_inv ops₂ [] _ (default_inv zeroV)
  refine ⟨t₁, t₂, h₁, h₂, ?_⟩
  rw [hI₁.root_eq, hI₂.root_eq]
  exact subRoot_perm hperm (foldl_updList_sep ops₁ [] List.Pairwise.nil)

/-- Witness for C1: two bindings inserted in both orders from the
empty tree produce the same root. -/
theorem claim_C1_witness :
    (bindings (0 : Nat) [(key0, 1), (key1, 2)]).Perm
      (bindings (0 : Nat) [(key1, 2), (key0, 1)]) ∧
    ∃ t₁ t₂ : SMTree 1 Nat,
      applyOps 0 (SMTree.default 1 Nat) [(key0, 1), (key1, 2)] = some t₁ ∧
      applyOps 0 (SMTree.default 1 Nat) [(key1, 2), (key0, 1)] = some t₂ ∧
      t₁.root = t₂.root :=
  ⟨by decide, claim_C1 0 [(key0, 1), (key1, 2)] [(key1, 2), (key0, 1)] (by decide)⟩

/-- C2 counterexample: the claim fails as stated.  On the reachable
one-leaf tree `C2t0`, `update(key1, 1)` followed by `update(key1, 0)`
restores root and leaf map but leaves a stale fork-0 branch entry
under the vanished internal node, so the branches map is not bit-exact
its pre-update contents. -/
theorem claim_C2_counterexample :
    ∃ (t t₁ t₂ : SMTree 1 Nat) (k : InternalKey 1) (v : Nat),
      v ≠ 0 ∧
      update 0 t k v = some t₁ ∧
      update 0 t₁ k 0 = some t₂ ∧
      ¬(t₂.root = t.root ∧ (∀ D, t₂.leaves_map D = t.leaves_map D) ∧
        (∀ D, t₂.branches_map D = t.branches_map D)) := by
  refine ⟨C2t0, C2t1, C2t2, key1, 1, by decide,
    (Option.some_get (rfl : (update 0 C2t0 key1 1).isSome = true)).symm,
    (Option.some_get (rfl : (update 0 C2t1 key1 0).isSome = true)).symm, ?_⟩
  rintro ⟨-, -, hbr⟩
  have hP := hbr (Digest.nodeHash (.leafHash key0 1) (.leafHash key1 1))
  have h2 : (C2t2.branches_map
      (Digest.nodeHash (.leafHash key0 1) (.leafHash key1 1))).isSome = true := rfl
  have h0 : (C2t0.branches_map
      (Digest.nodeHash (.leafHash key0 1) (.leafHash key1 1))).isSome = false := rfl
  rw [hP, h0] at h2
  exact absurd h2 (by decide)

/-- C2 amended: on any state reachable from the empty tree by
successful updates, for a key `k` not currently bound, `update(k, v)`
followed by `update(k, zero)` restores the root and the leaves map
exactly; the branches map may retain stale entries. -/
theorem claim_C2_amended {N : Nat} {Val : Type} [DecidableEq Val] (zeroV : Val)
    (ops : List (InternalKey N × Val)) (t : SMTree N Val)
    (k : InternalKey N) (v : Val)
    (hreach : applyOps zeroV (SMTree.default N Val) ops = some t)
    (hun : ∀ p ∈ bindings zeroV ops, p.1 ≠ k) :
    ∃ t₁ t₂ : SMTree N Val,
      update zeroV t k v = some t₁ ∧
      update zeroV t₁ k zeroV = some t₂ ∧
      t₂.root = t.root ∧
      (∀ D, t₂.leaves_map D = t.leaves_map D) := by
  obtain ⟨t₀, h₀, hI₀⟩ := applyOps_inv ops [] _ (default_inv zeroV)
  rw [hreach] at h₀
  have ht : t = t₀ := Option.some.inj h₀
  subst ht
  obtain ⟨t₁, hupd1, hI₁⟩ := update_inv (k := k) (v := v) hI₀
  obtain ⟨t₂, hupd2, hI₂⟩ := update_inv (k := k) (v := zeroV) hI₁
  have hq : ∀ p ∈ ops.foldl (fun mm op => updList zeroV mm op.1 op.2) [],
      (p.1 != k) = true := fun p hp => by simpa using hun p hp
  have hm2 : updList zeroV
      (updList zeroV (ops.foldl (fun mm op => updList zeroV mm op.1 op.2) []) k v)
      k zeroV = ops.foldl (fun mm op => updList zeroV mm op.1 op.2) [] := by
    rw [updList, if_pos rfl, List.nil_append, updList, List.filter_append,
      List.filter_filter]
    have hpre : ((if v = zeroV then [] else [(k, v)]) :
        List (InternalKey N × Val)).filter (fun p => p.1 != k) = [] := by
      by_cases hv : v = zeroV
      · rw [if_pos hv]
        rfl
      · rw [if_neg hv]
        simp
    rw [hpre, List.nil_append,
      List.filter_congr (fun a _ => Bool.and_self (a.1 != k)),
      List.filter_eq_self.mpr hq]
  refine ⟨t₁, t₂, hupd1, hupd2, ?_, ?_⟩
  · rw [hI₂.root_eq, hm2]
    exact hI₀.root_eq.symm
  · intro D
    rw [hI₂.leaves_eq, hm2]
    exact (hI₀.leaves_eq D).symm

/-- Witness for the amended C2 at a concrete instance: inserting then
deleting a fresh key on the empty tree restores root and leaf map. -/
theorem claim_C2_amended_witness :
    applyOps 0 (SMTree.default 1 Nat) [] = some (SMTree.default 1 Nat) ∧
    (∀ p ∈ bindings (0 : Nat) ([] : List (InternalKey 1 × Nat)), p.1 ≠ key0) ∧
    ∃ t₁ t₂ : SMTree 1 Nat,
      update 0 (SMTree.default 1 Nat) key0 7 = some t₁ ∧
      update 0 t₁ key0 0 = some t₂ ∧
      t₂.root = (SMTree.default 1 Nat).root ∧
      (∀ D, t₂.leaves_map D = (SMTree.default 1 Nat).leaves_map D) :=
  ⟨rfl, by decide,
    claim_C2_amended 0 [] (SMTree.default 1 Nat) key0 7 rfl (by decide)⟩

/-- C3 counterexample: the claim quantifies over every tree state
(arbitrary states are constructible via `SparseMerkleTree::new`).  On
the corrupt store `C3tree`, `update(key0, 0)` succeeds but the walk
never reaches `key0`'s leaf, so the leaf survives and `get(&key0)`
still returns the stale value 42 instead of 0. -/
theorem claim_C3_counterexample :
    ∃ (t t' : SMTree 1 Nat) (k : InternalKey 1) (v : Nat),
      update 0 t k v = some t' ∧ get 0 t' k ≠ some v := by
  refine ⟨C3tree, (update 0 C3tree key0 0).get rfl, key0, 0,
    (Option.some_get (rfl : (update 0 C3tree key0 0).isSome = true)).symm, ?_⟩
  intro hc
  have hg : get 0 ((update 0 C3tree key0 0).get rfl) key0 = some 42 := rfl
  rw [hg] at hc
  have h42 : (42 : Nat) = 0 := by injection hc
  exact absurd h42 (by decide)

/-- C3 amended: on any state reachable from the empty tree by
successful updates, after a successful `update(k, v)`, `get(&k)`
returns `Ok(v)` — including the deleting case `v = zero`. -/
theorem claim_C3_amended {N : Nat} {Val : Type} [DecidableEq Val] (zeroV : Val)
    (ops : List (InternalKey N × Val)) (t t' : SMTree N Val)
    (k : InternalKey N) (v : Val)
    (hreach : applyOps zeroV (SMTree.default N Val) ops = some t)
    (hupd : update zeroV t k v = some t') :
    get zeroV t' k = some v := by
  obtain ⟨t₀, h₀, hI₀⟩ := applyOps_inv ops [] _ (default_inv zeroV)
  rw [hreach] at h₀
  have ht : t = t₀ := Option.some.inj h₀
  subst ht
  obtain ⟨t₁, hupd', hInv'⟩ := update_inv (k := k) (v := v) hI₀
  rw [hupd] at hupd'
  have ht1 : t' = t₁ := Option.some.inj hupd'
  subst ht1
  rw [get_inv hInv' k, valueOf_updList]

/-- C4: on every state reachable from the empty tree by successful
updates, `validate()` — recomputing the root from the store's leaves
enumerated in BitKey order — returns true; and when the store holds
no leaves, `validate()` returns true exactly when the root is the
zero digest.  (`8*N ≤ usize::MAX` reflects the machine width of the
heights in the Rust code.) -/
theorem claim_C4 {N : Nat} {Val : Type} [DecidableEq Val] (zeroV : Val)
    (ops : List (InternalKey N × Val)) (t : SMTree N Val)
    (hNmax : 8 * N ≤ usizeMax)
    (hreach : applyOps zeroV (SMTree.default N Val) ops = some t) :
    (∀ sl : List (InternalKey N × Val),
      sl.Perm (bindings zeroV ops) →
      sl.Pairwise (fun a b => keyLtB a.1 b.1 = true) →
      validate zeroV sl t.root = true) ∧
    (∀ root : Digest N Val,
      validate zeroV ([] : List (InternalKey N × Val)) root = true ↔
        root = Digest.zero) := by
  obtain ⟨t₀, h₀, hI₀⟩ := applyOps_inv ops [] _ (default_inv zeroV)
  rw [hreach] at h₀
  have ht : t = t₀ := Option.some.inj h₀
  subst ht
  constructor
  · intro sl hperm hsorted
    have hsep_sl : Sep (8 * N) sl := by
      unfold Sep
      refine (hperm.pairwise_iff ?_).mpr hI₀.sep_m
      intro a b hab
      obtain ⟨i, hi, hne⟩ := hab
      exact ⟨i, hi, fun hc => hne hc.symm⟩
    have hvals_sl : ValsOk zeroV sl := fun r hr => hI₀.vals_m r (hperm.mem_iff.mp hr)
    have hroot : t.root = subRoot (8 * N) sl := by
      rw [hI₀.root_eq]
      exact (subRoot_perm hperm hsep_sl).symm
    cases sl with
    | nil =>
        show ((t.root == Digest.zero) = true)
        rw [hroot, subRoot_nil]
        exact beq_self_eq_true _
    | cons p sl1 =>
      cases sl1 with
      | nil =>
          have hp_ne : p.2 ≠ zeroV := hvals_sl p (List.mem_cons_self _ _)
          show ((t.root == hash_leafF zeroV p.1 p.2) = true)
          rw [hroot,
            show subRoot (8 * N) [p] = (.leafHash p.1 p.2 : Digest N Val) from by
              rw [subRoot_collapse (8 * N) 0 (by omega)
                (fun a ha b hb i hi1 hi2 => by
                  rw [List.mem_singleton.mp ha, List.mem_singleton.mp hb]),
                subRoot_single],
            show hash_leafF zeroV p.1 p.2 = (.leafHash p.1 p.2 : Digest N Val) from by
              rw [hash_leafF, if_neg hp_ne]]
          exact beq_self_eq_true _
      | cons q rest =>
          rw [validate_multi]
          have hitc : itemsOf zeroV usizeMax (p :: q :: rest) =
              (hash_leafF zeroV p.1 p.2, InternalKey.fork_height p.1 q.1) ::
                itemsOf zeroV usizeMax (q :: rest) := rfl
          rw [vLoopOuter_model ((itemsOf zeroV usizeMax (p :: q :: rest)).length + 1)
            (itemsOf zeroV usizeMax (p :: q :: rest)) 0 1 [] Digest.zero rfl
            (by rw [hitc, List.length_cons]; omega)
            (fun i hi => absurd hi (List.not_mem_nil _)) (by omega)]
          simp only [List.map_nil]
          have hstep : mrun (itemsOf zeroV usizeMax (p :: q :: rest)) [] Digest.zero =
              mrun ((itemsOf zeroV usizeMax (p :: q :: rest)).drop 1)
                [(itemsOf zeroV usizeMax (p :: q :: rest)).getD 0 (.zero, 0)]
                Digest.zero := by
            rw [hitc]
            rfl
          rw [← hstep]
          obtain ⟨mrg', hrun, hm2, _⟩ :=
            mrun_bucket (p :: q :: rest).length (p :: q :: rest)
              (8 * N) usizeMax [] Digest.zero (Nat.le_refl _) (List.cons_ne_nil _ _)
              (Nat.le_refl _) hNmax hsep_sl hvals_sl hsorted
              (fun a _ b _ i hi1 hi2 => absurd hi2 (Nat.not_lt.mpr hi1))
              (fun e he => absurd he (List.not_mem_nil _))
          rw [hrun]
          rw [show (collapseM (subRoot (8 * N) (p :: q :: rest), usizeMax)
              ([] : List (Digest N Val × Nat)) mrg').2 = mrg' from rfl]
          rw [hm2 (by rw [List.length_cons, List.length_cons]; omega)]
          rw [← hroot]
          exact beq_self_eq_true _
  · intro root
    show ((root == Digest.zero) = true) ↔ root = Digest.zero
    exact beq_iff_eq

/-- Witness for C4: the two-leaf tree built by updates validates
against its sorted enumeration, and the empty clause holds. -/
theorem claim_C4_witness :
    8 * 1 ≤ usizeMax ∧
    applyOps 0 (SMTree.default 1 Nat) [(key0, 1), (key1, 2)] = some C4tree ∧
    ((∀ sl : List (InternalKey 1 × Nat),
      sl.Perm (bindings (0 : Nat) [(key0, 1), (key1, 2)]) →
      sl.Pairwise (fun a b => keyLtB a.1 b.1 = true) →
      validate 0 sl C4tree.root = true) ∧
    (∀ root : Digest 1 Nat,
      validate 0 ([] : List (InternalKey 1 × Nat)) root = true ↔
        root = Digest.zero)) :=
  ⟨by decide,
    (Option.some_get (rfl :
      (applyOps 0 (SMTree.default 1 Nat) [(key0, 1), (key1, 2)]).isSome = true)).symm,
    claim_C4 0 [(key0, 1), (key1, 2)] C4tree (by decide)
      (Option.some_get (rfl :
        (applyOps 0 (SMTree.default 1 Nat) [(key0, 1), (key1, 2)]).isSome = true)).symm⟩

/-- Witness for the amended C3: a fresh insert on the empty tree reads
back. -/
theorem claim_C3_amended_witness :
    applyOps 0 (SMTree.default 1 Nat) [] = some (SMTree.default 1 Nat) ∧
    update 0 (SMTree.default 1 Nat) key0 5 = some C3updTree ∧
    get 0 C3updTree key0 = some 5 :=
  ⟨rfl,
    (Option.some_get (rfl : (update 0 (SMTree.default 1 Nat) key0 5).isSome = true)).symm,
    claim_C3_amended 0 [] (SMTree.default 1 Nat) C3updTree key0 5 rfl
      (Option.some_get
        (rfl : (update 0 (SMTree.default 1 Nat) key0 5).isSome = true)).symm⟩

/-! ### C9: `membership_proof` (`tree.rs` 416–427, `proof_ics23.rs`) -/

set_option maxRecDepth 20000 in
/-- The bits of `keyB33`: only bit `256` is set. -/
theorem keyB33_bit : ∀ i, i < 8 * 33 → keyB33.get_bit i = decide (i = 256) := by decide

/-- The cache misses at every height other than `256`. -/
theorem cache33_miss (h : Nat) (hne : h ≠ 256) (sk : InternalKey 33) :
    cacheLookup cache33 (h, sk) = none := by
  have hfalse : (((256, keyA33), Digest.leafHash keyA33 1).1 == (h, sk)) = false :=
    beq_eq_false_iff_ne.mpr (fun hc => hne (congrArg Prod.fst hc).symm)
  simp only [cacheLookup, cache33, List.find?_cons, hfalse, List.find?_nil]
  rfl

/-- Below the fork, clearing the freshly set sibling bit recovers
`keyB33` (whose low bits are all zero). -/
theorem keyB33_collapse (h : Nat) (hh : h < 256) :
    ((keyB33.parent_path h).set_bit h).clear_bit h = keyB33 := by
  have h8 : h < 8 * 33 := by omega
  apply InternalKey.ext_bits
  intro i hi
  rw [InternalKey.get_bit_clear_bit _ _ _ h8 hi]
  by_cases hih : i = h
  · rw [if_pos hih, keyB33_bit i (by omega), decide_eq_false (by omega)]
  · rw [if_neg hih, InternalKey.get_bit_set_bit _ _ _ h8 hi, if_neg hih]
    unfold InternalKey.parent_path
    rw [InternalKey.get_bit_copy_bits _ _ _ _ (le_refl _) hi]
    by_cases hr : h + 1 ≤ i ∧ i < 8 * 33
    · rw [if_pos hr]
    · rw [if_neg hr, keyB33_bit i (by omega), decide_eq_false (by omega)]

/-- One step of the `merkle_proof` queue loop below the fork height:
the sibling is zero (cache miss), so the loop climbs to the parent. -/
theorem c9_step (f h : Nat) (hh : h < 256) :
    mpLoop (f + 1) [(keyB33, h, 0)] cache33 [[]] ([] : List (Digest 33 Nat × Nat)) =
      mpLoop f [(keyB33, h + 1, 0)] cache33 [[]] [] := by
  have hbit : keyB33.get_bit h = false := by
    rw [keyB33_bit h (by omega), decide_eq_false (by omega)]
  have hc1 : ((List.isEmpty ([] : List (InternalKey 33 × Nat × Nat))) && List.isEmpty cache33
      || decide (h = 8 * 33)) = false := by
    rw [show List.isEmpty cache33 = false from rfl, Bool.and_false, Bool.false_or,
      decide_eq_false (by omega)]
  simp only [mpLoop, hc1, hbit, Bool.false_eq_true, if_false,
    cache33_miss h (by omega), List.nil_append]
  rw [keyB33_collapse h hh]

/-- The queue step at the fork height `256`: the cached sibling (the
other leaf) is consumed into the proof. -/
theorem c9_hit (f : Nat) :
    mpLoop (f + 1) [(keyB33, 256, 0)] cache33 [[]] ([] : List (Digest 33 Nat × Nat)) =
      mpLoop f [(keyA33, 257, 0)] [] [[256]] [(Digest.leafHash keyA33 1, 256)] := rfl

/-- The final queue step: queue and cache are exhausted, the loop
returns the accumulated paths. -/
theorem c9_done (f : Nat) :
    mpLoop (f + 1) [(keyA33, 257, 0)] ([] : Cache 33 Nat) [[256]]
      [(Digest.leafHash keyA33 1, 256)] =
      some ([[256]], [(Digest.leafHash keyA33 1, 256)]) := rfl

/-- Iterating `c9_step`: the loop climbs from any height `h` to the
fork height `256`. -/
theorem c9_climb : ∀ d f h, h + d = 256 →
    mpLoop (f + d) [(keyB33, h, 0)] cache33 [[]] ([] : List (Digest 33 Nat × Nat)) =
      mpLoop f [(keyB33, 256, 0)] cache33 [[]] [] := by
  intro d
  induction d with
  | zero =>
      intro f h hh
      have : h = 256 := by omega
      subst this
      rfl
  | succ d ih =>
      intro f h hh
      rw [show f + (d + 1) = (f + d) + 1 from by omega]
      rw [c9_step (f + d) h (by omega)]
      exact ih f (h + 1) (by omega)

/-- The full queue-loop run of `merkle_proof t33 [keyB33]`: one merge
at height `256` with the cached leaf of `keyA33`. -/
theorem c9_mpLoop_eval :
    mpLoop 532 [(keyB33, 0, 0)] cache33 [[]] ([] : List (Digest 33 Nat × Nat)) =
      some ([[256]], [(Digest.leafHash keyA33 1, 256)]) := by
  calc mpLoop 532 [(keyB33, 0, 0)] cache33 [[]] ([] : List (Digest 33 Nat × Nat))
      = mpLoop 276 [(keyB33, 256, 0)] cache33 [[]] [] := c9_climb 256 276 0 rfl
    _ = mpLoop 275 [(keyA33, 257, 0)] [] [[256]] [(Digest.leafHash keyA33 1, 256)] :=
        c9_hit 275
    _ = some ([[256]], [(Digest.leafHash keyA33 1, 256)]) := c9_done 274

set_option maxRecDepth 40000 in
/-- `fetch_merkle_path` on `t33` caches exactly the `keyA33` leaf at
the fork height. -/
theorem c9_fetch : fetchAll t33 [keyB33] [] = some cache33 := rfl

set_option maxRecDepth 40000 in
/-- `keyB33` is bound to the non-zero value `1` in `t33`. -/
theorem c9_get : get 0 t33 keyB33 = some 1 := rfl

set_option maxRecDepth 40000 in
/-- `t33` is reachable: the two updates from the empty tree succeed. -/
theorem t33_applyOps :
    applyOps 0 (SMTree.default 33 Nat) [(keyA33, 1), (keyB33, 1)] = some t33 :=
  (Option.some_get (rfl :
    (applyOps 0 (SMTree.default 33 Nat) [(keyA33, 1), (keyB33, 1)]).isSome = true)).symm

set_option maxRecDepth 40000 in
/-- `merkle_proof` on `t33` succeeds, with the single leaf path
`[256]` and the sibling proof entry at height `256`. -/
theorem c9_merkle : merkle_proof t33 [keyB33] =
    some (.ok ⟨[[256]], [(Digest.leafHash keyA33 1, 256)]⟩) := by
  unfold merkle_proof
  rw [if_neg (by simp : ¬(List.isEmpty [keyB33] = true))]
  rw [show sortKeys [keyB33] = [keyB33] from rfl]
  simp only []
  rw [c9_fetch]
  simp only []
  rw [show (([keyB33] : List (InternalKey 33)).length + 1) * (8 * 33 + 2) = 532 from rfl]
  rw [show List.map (fun ik => (ik.2, 0, ik.1)) ([keyB33] : List (InternalKey 33)).enum =
    [(keyB33, 0, 0)] from rfl]
  rw [show List.replicate ([keyB33] : List (InternalKey 33)).length ([] : List Nat) = [[]]
    from rfl]
  rw [c9_mpLoop_eval]

set_option maxRecDepth 40000 in
/-- `membership_proof` on `t33` at `keyB33` fails with
`CorruptedProof`: the converted path starts at merge height
`256 = TREE_HEIGHT`, which `convert` rejects. -/
theorem c9_mem : membership_proof 0 0 t33 keyB33 = some (.error .CorruptedProof) := by
  unfold membership_proof
  rw [c9_get]
  simp only []
  rw [if_neg (by decide : ¬((1 : Nat) = 0))]
  rw [c9_merkle]
  rfl

/-- On a singleton key list, `merkle_proof` never returns an `Err`:
the `EmptyKeys` branch is unreachable and the loops return `Ok` or
propagate storage failure (`none`). -/
theorem merkle_proof_ok [DecidableEq Val] (t : SMTree N Val) (k : InternalKey N)
    (r : Except Error (MerkleProofE N Val)) (h : merkle_proof t [k] = some r) :
    ∃ mp, r = Except.ok mp := by
  unfold merkle_proof at h
  rw [if_neg (by simp : ¬(List.isEmpty [k] = true))] at h
  simp only [] at h
  rcases hf : fetchAll t (sortKeys [k]) [] with _ | cache
  · rw [hf] at h
    simp only [] at h
    cases h
  · rw [hf] at h
    simp only [] at h
    rcases hm : mpLoop (((sortKeys [k]).length + 1) * (8 * N + 2))
        (List.map (fun ik => (ik.2, 0, ik.1)) (sortKeys [k]).enum) cache
        (List.replicate (sortKeys [k]).length []) [] with _ | lp
    · rw [hm] at h
      simp only [] at h
      cases h
    · rw [hm] at h
      simp only [] at h
      exact ⟨_, (Option.some.inj h).symm⟩

/-- The only error `convert`'s loop can produce is
`CorruptedProof` (`proof_ics23.rs` 27–54). -/
theorem convertLoop_err [DecidableEq Val] (hash_op : Int) :
    ∀ (fuel : Nat) (mh : List Nat) (pf : List (Digest N Val × Nat)) (ck : InternalKey N)
      (h : Nat) (path : List (InnerOpE N Val)) (e : Error),
      convertLoop hash_op fuel mh pf ck h path = some (.error e) →
      e = Error.CorruptedProof := by
  intro fuel
  induction fuel with
  | zero => intro mh pf ck h path e hcv; cases hcv
  | succ f ih =>
      intro mh pf ck h path e hcv
      simp only [convertLoop] at hcv
      rcases pf with _ | ⟨⟨sib, sh⟩, pf2⟩
      · cases Option.some.inj hcv
      · simp only [] at hcv
        by_cases hh : h = TREE_HEIGHT
        · rw [if_pos hh] at hcv
          exact (Except.error.inj (Option.some.inj hcv)).symm
        · rw [if_neg hh] at hcv
          rcases mh with _ | ⟨m0, mh2⟩
          · simp only [] at hcv
            rw [if_neg (by simp : ¬h ≠ h)] at hcv
            exact ih _ _ _ _ _ _ hcv
          · simp only [] at hcv
            by_cases hcond : h ≠ m0
            · rw [if_pos hcond] at hcv
              exact ih _ _ _ _ _ _ hcv
            · rw [if_neg hcond] at hcv
              exact ih _ _ _ _ _ _ hcv

/-- The only error `convert` can produce is `CorruptedProof`. -/
theorem convert_err [DecidableEq Val] (mp : MerkleProofE N Val) (k : InternalKey N)
    (v : Val) (hash_op : Int) (e : Error)
    (h : convert mp k v hash_op = some (.error e)) : e = Error.CorruptedProof := by
  unfold convert at h
  rcases hlp : mp.leaves_path with _ | ⟨mh, rest⟩
  · rw [hlp] at h
    cases h
  · rw [hlp] at h
    simp only [] at h
    rcases hcv : convertLoop hash_op (2 * mp.proof.length + 2) mh mp.proof k 0 [] with _ | cr
    · rw [hcv] at h
      simp only [] at h
      cases h
    · rw [hcv] at h
      rcases cr with e2 | path
      · simp only [] at h
        cases Except.error.inj (Option.some.inj h)
        exact convertLoop_err hash_op _ _ _ _ _ _ _ hcv
      · simp only [] at h
        cases Option.some.inj h

/-- A successful `convert` returns an existence proof carrying the
key's bytes and the given value. -/
theorem convert_ok [DecidableEq Val] (mp : MerkleProofE N Val) (k : InternalKey N)
    (v : Val) (hash_op : Int) (ep : ExistenceProofE N Val)
    (h : convert mp k v hash_op = some (.ok ep)) : ep.key = k.val ∧ ep.value = v := by
  unfold convert at h
  rcases hlp : mp.leaves_path with _ | ⟨mh, rest⟩
  · rw [hlp] at h
    cases h
  · rw [hlp] at h
    simp only [] at h
    rcases hcv : convertLoop hash_op (2 * mp.proof.length + 2) mh mp.proof k 0 [] with _ | cr
    · rw [hcv] at h
      simp only [] at h
      cases h
    · rw [hcv] at h
      rcases cr with e2 | path
      · simp only [] at h
        cases Option.some.inj h
      · simp only [] at h
        cases Except.ok.inj (Option.some.inj h)
        exact ⟨rfl, rfl⟩

/-- C9, counterexample: on a reachable two-key tree at key width
`N = 33` whose keys fork at height `256 = TREE_HEIGHT`, `get` returns
the non-zero value `1` for `keyB33`, yet `membership_proof` does not
return a `CommitmentProof`: it fails with `Error::CorruptedProof`
(the leaf's first merge height is `256`, which `convert` rejects),
refuting the claim's non-zero clause. -/
theorem claim_C9_counterexample :
    applyOps 0 (SMTree.default 33 Nat) [(keyA33, 1), (keyB33, 1)] = some t33 ∧
    get 0 t33 keyB33 = some 1 ∧ (1 : Nat) ≠ 0 ∧
    membership_proof 0 0 t33 keyB33 = some (.error Error.CorruptedProof) ∧
    Error.CorruptedProof ≠ Error.ExistenceProof :=
  ⟨t33_applyOps, c9_get, by decide, c9_mem, by decide⟩

/-- C9, amended: `membership_proof` fails with `Error::ExistenceProof`
iff `get` returns the zero value; and any `CommitmentProof` it does
return wraps an existence proof carrying the key's bytes and the
(necessarily non-zero) value read by `get`.  A non-zero `get` does
not guarantee success: see the counterexample at `N = 33`. -/
theorem claim_C9_amended [DecidableEq Val] (zeroV : Val) (hash_op : Int)
    (t : SMTree N Val) (k : InternalKey N) :
    (membership_proof zeroV hash_op t k = some (.error .ExistenceProof) ↔
      get zeroV t k = some zeroV) ∧
    (∀ cp, membership_proof zeroV hash_op t k = some (.ok cp) →
      ∃ ep, cp.proof = some (.Exist ep) ∧ ep.key = k.val ∧
        ∃ v, get zeroV t k = some v ∧ ep.value = v) := by
  constructor
  · constructor
    · intro h
      unfold membership_proof at h
      rcases hg : get zeroV t k with _ | v
      · rw [hg] at h
        simp only [] at h
        cases h
      · rw [hg] at h
        simp only [] at h
        by_cases hv : v = zeroV
        · rw [hv]
        · rw [if_neg hv] at h
          rcases hmp : merkle_proof t [k] with _ | r
          · rw [hmp] at h
            simp only [] at h
            cases h
          · obtain ⟨mp, rfl⟩ := merkle_proof_ok t k r hmp
            rw [hmp] at h
            simp only [] at h
            rcases hcv : convert mp k v hash_op with _ | cr
            · rw [hcv] at h
              simp only [] at h
              cases h
            · rw [hcv] at h
              rcases cr with e | ep
              · simp only [] at h
                have he : e = Error.ExistenceProof :=
                  Except.error.inj (Option.some.inj h)
                rw [convert_err mp k v hash_op e hcv] at he
                cases he
              · simp only [] at h
                cases Option.some.inj h
    · intro hg
      unfold membership_proof
      rw [hg]
      simp only []
      simp only [ite_true]
  · intro cp h
    unfold membership_proof at h
    rcases hg : get zeroV t k with _ | v
    · rw [hg] at h
      simp only [] at h
      cases h
    · rw [hg] at h
      simp only [] at h
      by_cases hv : v = zeroV
      · rw [if_pos hv] at h
        cases Option.some.inj h
      · rw [if_neg hv] at h
        rcases hmp : merkle_proof t [k] with _ | r
        · rw [hmp] at h
          simp only [] at h
          cases h
        · obtain ⟨mp, rfl⟩ := merkle_proof_ok t k r hmp
          rw [hmp] at h
          simp only [] at h
          rcases hcv : convert mp k v hash_op with _ | cr
          · rw [hcv] at h
            simp only [] at h
            cases h
          · rw [hcv] at h
            rcases cr with e | ep
            · simp only [] at h
              cases Option.some.inj h
            · simp only [] at h
              cases Option.some.inj h
              obtain ⟨hk, hval⟩ := convert_ok mp k v hash_op ep hcv
              exact ⟨ep, rfl, hk, v, rfl, hval⟩

/-- Witness for the amended C9: on the two-leaf `N = 1` tree, the
`ExistenceProof`-iff clause holds at the bound key `key0`, and the
returned `CommitmentProof` wraps an existence proof for `key0` and
its value. -/
theorem claim_C9_amended_witness :
    (membership_proof 0 0 C4tree key0 = some (.error .ExistenceProof) ↔
      get 0 C4tree key0 = some 0) ∧
    ∃ cp, membership_proof 0 0 C4tree key0 = some (.ok cp) ∧
      ∃ ep, cp.proof = some (.Exist ep) ∧ ep.key = key0.val ∧
        ∃ v, get 0 C4tree key0 = some v ∧ ep.value = v := by
  have hok : ∃ cp, membership_proof 0 0 C4tree key0 = some (.ok cp) := ⟨_, rfl⟩
  obtain ⟨cp, hcp⟩ := hok
  obtain ⟨ep, h1, h2, v, h3, h4⟩ := (claim_C9_amended 0 0 C4tree key0).2 cp hcp
  exact ⟨(claim_C9_amended 0 0 C4tree key0).1, cp, hcp, ep, h1, h2, v, h3, h4⟩

end SMT
